import Mathlib

/-!
Verification of the `ai-localize` repository: a set of Node.js scripts that
incrementally synchronize per-locale translated YAML string files with a
canonical English YAML file.

The scripts operate on values produced by `yaml.load`: nested JavaScript
objects whose leaves are strings (and occasionally numbers, booleans, null or
arrays).  We shallowly embed such values as the inductive type `JVal`,
JavaScript objects becoming insertion-ordered association lists (JavaScript
object keys are unique and `for...in` iterates them in insertion order for
non-integer keys; integer-like keys, which are iterated first in JS, do not
occur in the documents the claims quantify over).

Modelling conventions, used throughout:
* `yaml.load` / `yaml.dump` round-tripping is treated as the identity on
  `JVal`; file contents are modelled as the parsed values.
* Property *reads* on primitives are modelled faithfully where they can
  produce values (string/array index and `length` reads in `jsGet`); property
  *writes* on primitives are silent no-ops in non-strict JS and are modelled
  as such.  Property writes on arrays, and the places where the original
  JS would throw a `TypeError` (writes through `undefined`), are flagged at
  the definitions that contain them; all theorems about those definitions
  carry hypotheses that keep the execution away from these branches, matching
  the domain of the claims.
* `async`/`await` sequencing is irrelevant to the values computed (the loops
  await each call before continuing), so the embedding is a plain function
  of an oracle describing the remote translation capability's responses.
-/

/-- JavaScript values as produced by `yaml.load`: strings, numbers, booleans,
`null`, arrays and plain objects (insertion-ordered key/value lists). -/
inductive JVal where
  | vstr (s : String)
  | vnum (n : Int)
  | vbool (b : Bool)
  | vnull
  | varr (elems : List JVal)
  | vobj (entries : List (String × JVal))

open JVal

mutual
/-- Boolean equality on `JVal` (JS `===` on like-typed values). -/
def beqJ : JVal → JVal → Bool
  | .vstr a, .vstr b => a == b
  | .vnum a, .vnum b => a == b
  | .vbool a, .vbool b => a == b
  | .vnull, .vnull => true
  | .varr a, .varr b => beqL a b
  | .vobj a, .vobj b => beqE a b
  | _, _ => false
/-- Boolean equality on lists of `JVal`. -/
def beqL : List JVal → List JVal → Bool
  | [], [] => true
  | a :: ra, b :: rb => beqJ a b && beqL ra rb
  | _, _ => false
/-- Boolean equality on object entry lists. -/
def beqE : List (String × JVal) → List (String × JVal) → Bool
  | [], [] => true
  | (k, v) :: ra, (k2, v2) :: rb => k == k2 && beqJ v v2 && beqE ra rb
  | _, _ => false
end

mutual
theorem beqJ_iff : ∀ a b : JVal, beqJ a b = true ↔ a = b
  | .vstr a, .vstr b => by simp [beqJ]
  | .vnum a, .vnum b => by simp [beqJ]
  | .vbool a, .vbool b => by simp [beqJ]
  | .vnull, .vnull => by simp [beqJ]
  | .varr a, .varr b => by simp [beqJ, beqL_iff a b]
  | .vobj a, .vobj b => by simp [beqJ, beqE_iff a b]
  | .vstr a, .vnum b => by simp [beqJ]
  | .vstr a, .vbool b => by simp [beqJ]
  | .vstr a, .vnull => by simp [beqJ]
  | .vstr a, .varr b => by simp [beqJ]
  | .vstr a, .vobj b => by simp [beqJ]
  | .vnum a, .vstr b => by simp [beqJ]
  | .vnum a, .vbool b => by simp [beqJ]
  | .vnum a, .vnull => by simp [beqJ]
  | .vnum a, .varr b => by simp [beqJ]
  | .vnum a, .vobj b => by simp [beqJ]
  | .vbool a, .vstr b => by simp [beqJ]
  | .vbool a, .vnum b => by simp [beqJ]
  | .vbool a, .vnull => by simp [beqJ]
  | .vbool a, .varr b => by simp [beqJ]
  | .vbool a, .vobj b => by simp [beqJ]
  | .vnull, .vstr b => by simp [beqJ]
  | .vnull, .vnum b => by simp [beqJ]
  | .vnull, .vbool b => by simp [beqJ]
  | .vnull, .varr b => by simp [beqJ]
  | .vnull, .vobj b => by simp [beqJ]
  | .varr a, .vstr b => by simp [beqJ]
  | .varr a, .vnum b => by simp [beqJ]
  | .varr a, .vbool b => by simp [beqJ]
  | .varr a, .vnull => by simp [beqJ]
  | .varr a, .vobj b => by simp [beqJ]
  | .vobj a, .vstr b => by simp [beqJ]
  | .vobj a, .vnum b => by simp [beqJ]
  | .vobj a, .vbool b => by simp [beqJ]
  | .vobj a, .vnull => by simp [beqJ]
  | .vobj a, .varr b => by simp [beqJ]
theorem beqL_iff : ∀ a b : List JVal, beqL a b = true ↔ a = b
  | [], [] => by simp [beqL]
  | a :: ra, b :: rb => by simp [beqL, beqJ_iff a b, beqL_iff ra rb]
  | [], _ :: _ => by simp [beqL]
  | _ :: _, [] => by simp [beqL]
theorem beqE_iff : ∀ a b : List (String × JVal), beqE a b = true ↔ a = b
  | [], [] => by simp [beqE]
  | (k, v) :: ra, (k2, v2) :: rb => by
      simp [beqE, beqJ_iff v v2, beqE_iff ra rb, Prod.ext_iff]
  | [], _ :: _ => by simp [beqE]
  | _ :: _, [] => by simp [beqE]
end

instance : DecidableEq JVal := fun a b =>
  decidable_of_iff (beqJ a b = true) (beqJ_iff a b)

/-- JS truthiness of a value (`Boolean(v)`). -/
def truthy : JVal → Bool
  | .vstr s => s ≠ ""
  | .vnum n => n ≠ 0
  | .vbool b => b
  | .vnull => false
  | .varr _ => true
  | .vobj _ => true

/-- The check `typeof v === "object" && v !== null && !Array.isArray(v)`
used throughout the scripts to decide whether to recurse into a value:
true exactly for plain objects. -/
def isObj : JVal → Bool
  | .vobj _ => true
  | _ => false

/-- First-match lookup in an object's entry list (`obj[key]` for a plain
object; JS objects have unique keys, so first-match agrees with JS). -/
def objGetE : List (String × JVal) → String → Option JVal
  | [], _ => none
  | (k, v) :: rest, key => if k = key then some v else objGetE rest key

/-- Property assignment `obj[key] = v` on a plain object's entry list:
updates the first entry with that key in place, otherwise appends
(JS preserves the insertion position of an existing key). -/
def objSetE : List (String × JVal) → String → JVal → List (String × JVal)
  | [], key, v => [(key, v)]
  | (k, w) :: rest, key, v =>
      if k = key then (k, v) :: rest else (k, w) :: objSetE rest key v

/-- `Object.prototype.hasOwnProperty.call(obj, key)` for a plain object;
`false` on every other value we model (note: in JS this call *throws* on
`null`, and can be `true` on strings/arrays for index keys and `"length"`;
theorems about code that reaches this function on such values carry
hypotheses excluding them). -/
def hasOwn : JVal → String → Bool
  | .vobj es, key => (objGetE es key).isSome
  | _, _ => false

/-- The decimal digits in value order. -/
def digitChars : List Char :=
  ['0', '1', '2', '3', '4', '5', '6', '7', '8', '9']

/-- Decimal digit value of a character, if any: the character's position in
`digitChars`. -/
def digitVal (c : Char) : Option Nat :=
  digitChars.findIdx? (fun d => d = c)

/-- Parse a list of characters as a decimal number (all characters must be
digits). -/
def parseDigits (acc : Nat) : List Char → Option Nat
  | [] => some acc
  | c :: rest =>
      match digitVal c with
      | some d => parseDigits (acc * 10 + d) rest
      | none => none

/-- The canonical numeric index denoted by a string key, if any:
`canonIdx k = some i` iff `k` is the canonical decimal representation of `i`
(all digits, no leading zero) — JS array/string indexing `a["2"]` uses
exactly these property keys.  (JS additionally bounds array indices by
`2^32 - 2`; the bound is irrelevant to the documents quantified over and is
not modelled.) -/
def canonIdx (k : String) : Option Nat :=
  match k.data with
  | [] => none
  | ['0'] => some 0
  | '0' :: _ :: _ => none
  | cs => parseDigits 0 cs

/-- JS property read `v[key]`, returning `none` for `undefined`.
Faithful for plain objects, and for the index/`length` properties of strings
and arrays; other primitive properties (inherited methods etc.) are not
modelled and read as `undefined`, which is sound for the scripts because
they only ever compare the read values against strings or recurse into
them. -/
def jsGet (v : JVal) (key : String) : Option JVal :=
  match v with
  | .vobj es => objGetE es key
  | .vstr s =>
      if key = "length" then some (.vnum s.data.length)
      else
        match canonIdx key with
        | some i =>
            match s.data.get? i with
            | some c => some (.vstr (String.mk [c]))
            | none => none
        | none => none
  | .varr es =>
      if key = "length" then some (.vnum es.length)
      else
        match canonIdx key with
        | some i => es.get? i
        | none => none
  | _ => none

/-- The guarded read `o ? o[key] : undefined` used by `getChangedStrings`,
where `o` itself may be `undefined` (`none`). -/
def jsIndexOpt (o : Option JVal) (key : String) : Option JVal :=
  match o with
  | none => none
  | some p => if truthy p then jsGet p key else none

/-- Specification-level value of a document at a path of keys: walks
through mapping nodes only (arrays and scalars are never traversed, as the
spec's data model prescribes). -/
def pathValue : JVal → List String → Option JVal
  | v, [] => some v
  | .vobj es, key :: rest =>
      match objGetE es key with
      | some v => pathValue v rest
      | none => none
  | _, _ :: _ => none

mutual
/-- All (path, value) pairs for the non-mapping leaves of a document, in
document order.  A non-mapping value at the root is its own single leaf at
the empty path; mapping nodes contribute the leaves of their entries. -/
def leaves : JVal → List (List String × JVal)
  | .vobj es => leavesE es
  | v => [([], v)]
/-- Leaves of an entry list, each path prefixed with its entry's key. -/
def leavesE : List (String × JVal) → List (List String × JVal)
  | [] => []
  | (k, v) :: rest =>
      ((leaves v).map (fun pv => (k :: pv.1, pv.2))) ++ leavesE rest
end

mutual
/-- No array value occurs anywhere in the document (through mapping nodes). -/
def noArr : JVal → Bool
  | .varr _ => false
  | .vobj es => noArrE es
  | _ => true
/-- `noArr` for all values of an entry list. -/
def noArrE : List (String × JVal) → Bool
  | [] => true
  | (_, v) :: rest => noArr v && noArrE rest
end

mutual
/-- Every mapping node in the document has pairwise-distinct keys.  This is
an invariant of every value produced by `yaml.load` (JS object keys are
unique); it is a hypothesis rather than a fact only because the association
lists of the embedding are more permissive than JS objects. -/
def nodupKeys : JVal → Bool
  | .vobj es => (es.map Prod.fst).Nodup && nodupKeysE es
  | _ => true
/-- `nodupKeys` for all values of an entry list. -/
def nodupKeysE : List (String × JVal) → Bool
  | [] => true
  | (_, v) :: rest => nodupKeys v && nodupKeysE rest
end

/-- A key suitable for dotted-path flattening: nonempty and containing no
`'.'` character. -/
def goodKey (k : String) : Bool :=
  k ≠ "" && k.data.all (fun c => !(c = '.'))

mutual
/-- Every mapping node has pairwise-distinct, nonempty, dot-free keys. -/
def wfKeys : JVal → Bool
  | .vobj es => (es.map Prod.fst).Nodup && wfKeysE es
  | _ => true
/-- `wfKeys` for an entry list: each key good, each value well-formed. -/
def wfKeysE : List (String × JVal) → Bool
  | [] => true
  | (k, v) :: rest => goodKey k && wfKeys v && wfKeysE rest
end

mutual
/-- No mapping key anywhere in the document is a canonical numeric index
(such keys would make JS string/array indexing observable in
`getChangedStrings`'s lookups into the previous snapshot). -/
def noIdxKeys : JVal → Bool
  | .vobj es => noIdxKeysE es
  | _ => true
/-- `noIdxKeys` for an entry list. -/
def noIdxKeysE : List (String × JVal) → Bool
  | [] => true
  | (k, v) :: rest => (canonIdx k).isNone && noIdxKeys v && noIdxKeysE rest
end

mutual
/-- The domain of the round-trip claim: every leaf is a string, every
internal node is a mapping, and additionally every mapping is nonempty with
distinct, nonempty, dot-free keys. -/
def wfDoc : JVal → Bool
  | .vstr _ => true
  | .vobj es => !es.isEmpty && (es.map Prod.fst).Nodup && wfDocE es
  | _ => false
/-- `wfDoc` for an entry list. -/
def wfDocE : List (String × JVal) → Bool
  | [] => true
  | (k, v) :: rest => goodKey k && wfDoc v && wfDocE rest
end

/-! ### Dotted flat keys: JS `path.split(".")` and the incremental joins -/

/-- `String.prototype.split(".")` at the character-list level: cuts the list
at every `'.'`, keeping empty segments (so the result is always nonempty). -/
def splitDotCs : List Char → List (List Char)
  | [] => [[]]
  | c :: rest =>
      if c = '.' then [] :: splitDotCs rest
      else
        match splitDotCs rest with
        | [] => [[c]]
        | h :: t => (c :: h) :: t

/-- JS `key.split(".")`. -/
def splitKey (s : String) : List String :=
  (splitDotCs s.data).map String.mk

/-- The dotted join of a list of key segments (`a.b.c`). -/
def joinSegs : List String → String
  | [] => ""
  | [k] => k
  | k :: r :: rest => k ++ "." ++ joinSegs (r :: rest)

/-- The scripts' incremental key build
`prefix ? prefix + "." + key : key` (note: the test is JS truthiness of the
accumulated prefix string, i.e. comparison with the empty string). -/
def jsKey (pfx k : String) : String :=
  if pfx = "" then k else pfx ++ "." ++ k

theorem goodKey_iff {k : String} :
    goodKey k = true ↔ k ≠ "" ∧ '.' ∉ k.data := by
  simp [goodKey, List.all_eq_true]
  intro _
  constructor
  · intro h hmem
    exact (h '.' hmem) rfl
  · intro h c hc
    intro hcd
    exact h (hcd ▸ hc)

theorem splitDotCs_ne_nil : ∀ cs : List Char, splitDotCs cs ≠ []
  | [] => by simp [splitDotCs]
  | c :: rest => by
      by_cases h : c = '.'
      · simp [splitDotCs, h]
      · simp only [splitDotCs, if_neg h]
        cases hs : splitDotCs rest <;> simp

theorem splitDotCs_no_dot : ∀ cs : List Char, '.' ∉ cs → splitDotCs cs = [cs]
  | [], _ => rfl
  | c :: rest, h => by
      have hc : ¬(c = '.') := fun hcc => h (hcc ▸ List.mem_cons_self c rest)
      have hr : '.' ∉ rest := fun hm => h (List.mem_cons_of_mem c hm)
      simp only [splitDotCs, if_neg hc, splitDotCs_no_dot rest hr]

theorem splitDotCs_append : ∀ a b : List Char, '.' ∉ a →
    splitDotCs (a ++ '.' :: b) = a :: splitDotCs b
  | [], b, _ => by simp [splitDotCs]
  | c :: ra, b, h => by
      have hc : ¬(c = '.') := fun hcc => h (hcc ▸ List.mem_cons_self c ra)
      have hr : '.' ∉ ra := fun hm => h (List.mem_cons_of_mem c hm)
      have ih := splitDotCs_append ra b hr
      show splitDotCs (c :: (ra ++ '.' :: b)) = (c :: ra) :: splitDotCs b
      simp only [splitDotCs, if_neg hc, List.append_eq, ih]

theorem strMk_data : ∀ s : String, String.mk s.data = s
  | ⟨_⟩ => rfl

theorem strExt {a b : String} (h : a.data = b.data) : a = b := by
  cases a
  cases b
  cases h
  rfl

theorem strData_append (a b : String) : (a ++ b).data = a.data ++ b.data :=
  rfl

theorem strAppend_assoc (a b c : String) : a ++ b ++ c = a ++ (b ++ c) := by
  apply strExt
  rw [strData_append, strData_append, strData_append, strData_append,
    List.append_assoc]

theorem splitKey_single {k : String} (h : '.' ∉ k.data) : splitKey k = [k] := by
  simp [splitKey, splitDotCs_no_dot k.data h, strMk_data]

theorem splitKey_joinSegs : ∀ segs : List String, segs ≠ [] →
    (∀ s ∈ segs, goodKey s = true) → splitKey (joinSegs segs) = segs
  | [], h, _ => absurd rfl h
  | [k], _, hg => by
      have := (goodKey_iff.mp (hg k (by simp))).2
      simp [joinSegs, splitKey_single this]
  | k :: r :: rest, _, hg => by
      have hk := (goodKey_iff.mp (hg k (by simp))).2
      have hrec := splitKey_joinSegs (r :: rest) (by simp)
        (fun s hs => hg s (List.mem_cons_of_mem k hs))
      have hdata : (joinSegs (k :: r :: rest)).data
          = k.data ++ '.' :: (joinSegs (r :: rest)).data := by
        show (k ++ "." ++ joinSegs (r :: rest)).data = _
        rw [strData_append, strData_append, List.append_assoc]
        rfl
      unfold splitKey
      rw [hdata, splitDotCs_append k.data _ hk]
      simp only [List.map_cons, strMk_data]
      exact congrArg (k :: ·) hrec

theorem joinSegs_ne_empty : ∀ segs : List String, segs ≠ [] →
    (∀ s ∈ segs, goodKey s = true) → joinSegs segs ≠ ""
  | [], h, _ => absurd rfl h
  | [k], _, hg => by
      simpa [joinSegs] using (goodKey_iff.mp (hg k (by simp))).1
  | k :: r :: rest, _, hg => by
      have hk := (goodKey_iff.mp (hg k (by simp))).1
      intro hcontra
      apply hk
      have hd : (k ++ "." ++ joinSegs (r :: rest)).data = [] :=
        congrArg String.data hcontra
      rw [strData_append, strData_append] at hd
      apply strExt
      have := List.append_eq_nil.mp hd
      have := List.append_eq_nil.mp this.1
      exact this.1

theorem joinSegs_append_single : ∀ (p : List String) (k : String), p ≠ [] →
    joinSegs (p ++ [k]) = joinSegs p ++ "." ++ k
  | [a], k, _ => rfl
  | a :: b :: rest, k, _ => by
      have ih : joinSegs (b :: (rest ++ [k]))
          = joinSegs (b :: rest) ++ "." ++ k :=
        joinSegs_append_single (b :: rest) k (by simp)
      calc joinSegs ((a :: b :: rest) ++ [k])
          = a ++ "." ++ joinSegs (b :: (rest ++ [k])) := rfl
        _ = a ++ "." ++ (joinSegs (b :: rest) ++ "." ++ k) := by rw [ih]
        _ = a ++ "." ++ joinSegs (b :: rest) ++ "." ++ k := by
              apply strExt
              simp [strData_append]

theorem jsKey_joinSegs (p : List String) (k : String)
    (hgood : ∀ s ∈ p, goodKey s = true) :
    jsKey (joinSegs p) k = joinSegs (p ++ [k]) := by
  cases p with
  | nil => simp [jsKey, joinSegs]
  | cons a rest =>
      have hne : joinSegs (a :: rest) ≠ "" :=
        joinSegs_ne_empty (a :: rest) (by simp) hgood
      rw [joinSegs_append_single (a :: rest) k (by simp)]
      simp only [jsKey, if_neg hne]

theorem joinSegs_inj {p q : List String} (hp : p ≠ [])
    (hq : q ≠ []) (hgp : ∀ s ∈ p, goodKey s = true)
    (hgq : ∀ s ∈ q, goodKey s = true) (h : joinSegs p = joinSegs q) :
    p = q := by
  have hsp := splitKey_joinSegs p hp hgp
  rw [h, splitKey_joinSegs q hq hgq] at hsp
  exact hsp.symm

/-! ### `.github/scripts/copy_yaml.js` — first script -/

/-- Update-or-append on a flat string-to-string JS object
(`changes[fullKey] = currentVal`). -/
def chSet : List (String × String) → String → String → List (String × String)
  | [], key, v => [(key, v)]
  | (k, w) :: rest, key, v =>
      if k = key then (k, v) :: rest else (k, w) :: chSet rest key v

/-- Lookup in a flat string-to-string JS object. -/
def chGet : List (String × String) → String → Option String
  | [], _ => none
  | (k, w) :: rest, key => if k = key then some w else chGet rest key

mutual
/-- `getChangedStrings(currentObj, previousObj, changes, prefix)` from
`copy_yaml.js`: walks the current object; a string value is recorded under
its dotted key when it differs (JS `!==`) from `previousObj ? previousObj[key]
: undefined`; plain-object values are recursed into with that read as the new
`previousObj`.  `prev = none` models an `undefined` previous object. -/
def getChangedStrings (cur : JVal) (prev : Option JVal)
    (changes : List (String × String)) (pfx : String) :
    List (String × String) :=
  match cur with
  | .vobj es => gcsEntries es prev changes pfx
  | _ => changes
/-- The `for...in` loop body of `getChangedStrings` over an entry list. -/
def gcsEntries : List (String × JVal) → Option JVal →
    List (String × String) → String → List (String × String)
  | [], _, changes, _ => changes
  | (key, v) :: rest, prev, changes, pfx =>
      let previousVal := jsIndexOpt prev key
      let fullKey := jsKey pfx key
      let changes2 :=
        match v with
        | .vstr s =>
            if previousVal = some (.vstr s) then changes
            else chSet changes fullKey s
        | .vobj _ => getChangedStrings v previousVal changes fullKey
        | _ => changes
      gcsEntries rest prev changes2 pfx
end

/-- `getChangedStrings(current, previous)` with its default arguments. -/
def getChangedStringsTop (cur prev : JVal) : List (String × String) :=
  getChangedStrings cur (some prev) [] ""

mutual
/-- `removeDeletedKeys(targetObj, sourceObj)` from `copy_yaml.js`
(the identical function also appears in the state-tracking script): returns
the pruned target (in-place mutation modelled as the returned value) and
whether any `delete` was executed.  A key of the target missing from the
source is deleted; a key present in both is recursed into exactly when both
values are plain objects.  `for...in` over a non-object target iterates
nothing in this model (the callers always pass parsed mapping documents). -/
def removeDeletedKeys (target source : JVal) : JVal × Bool :=
  match target with
  | .vobj tes =>
      let r := rdkEntries tes source
      (.vobj r.1, r.2)
  | _ => (target, false)
/-- The `for...in` loop body of `removeDeletedKeys` over the target's
entries. -/
def rdkEntries : List (String × JVal) → JVal → List (String × JVal) × Bool
  | [], _ => ([], false)
  | (key, v) :: rest, source =>
      let r := rdkEntries rest source
      if hasOwn source key then
        match v, jsGet source key with
        | .vobj _, some (.vobj sves) =>
            let rv := removeDeletedKeys v (.vobj sves)
            ((key, rv.1) :: r.1, rv.2 || r.2)
        | _, _ => ((key, v) :: r.1, r.2)
      else
        (r.1, true)
end

/-- JS whitespace as far as the scripts' `.trim()` calls are concerned
(ASCII space, tab, newline, carriage return; the further Unicode space
characters JS also trims do not occur in the texts considered). -/
def isWSChar (c : Char) : Bool :=
  c = ' ' || c = '\t' || c = '\n' || c = '\r'

/-- `String.prototype.trim()`. -/
def jsTrim (s : String) : String :=
  String.mk (((s.data.dropWhile isWSChar).reverse.dropWhile isWSChar).reverse)

/-- Possible outcomes of one `ai.models.generateContent` call as observed by
`translateString` in `copy_yaml.js`: a response with text, a response whose
`.text` is `undefined` (the subsequent `.trim()` throws inside the `try`),
or a thrown error (network/capability failure). -/
inductive TrResult where
  | ok (t : String)
  | noText
  | err
deriving DecidableEq

/-- The remote translation capability, as a function of the source text and
the target-language name.  Sequencing of the `await`s does not affect the
values computed, so the oracle is a pure function. -/
def Oracle : Type := String → String → TrResult

/-- `translateString(text, targetLanguage)` from `copy_yaml.js`: returns
whitespace-only text unchanged without calling the capability; on success
returns the trimmed response text; every failure (thrown call, or `.trim()`
throwing on an absent `.text`) is caught and becomes the tagged placeholder
embedding the original text. -/
def translateString (oracle : Oracle) (text targetLanguage : String) :
    String :=
  if jsTrim text = "" then text
  else
    match oracle text targetLanguage with
    | .ok t => jsTrim t
    | .noText =>
        "[Translation Error with GenAI to " ++ targetLanguage ++ "] " ++ text
    | .err =>
        "[Translation Error with GenAI to " ++ targetLanguage ++ "] " ++ text

/-- The walk of `setDeep(obj, path, value)` from `copy_yaml.js` over the
already-split path parts: intermediate positions holding anything other than
a plain object (missing, `null`, array, or scalar — the JS test is
`!current[part] || typeof current[part] !== "object" ||
Array.isArray(current[part])`) are overwritten with a fresh empty object;
the final part is assigned the value.  A non-object at the very start is
returned unchanged (the script only ever passes a plain object, where JS
would otherwise no-op and then throw). -/
def setDeepGo : JVal → List String → JVal → JVal
  | .vobj es, [last], v => .vobj (objSetE es last v)
  | .vobj es, key :: r :: rest, v =>
      let coerced :=
        match objGetE es key with
        | some c => if isObj c then c else .vobj []
        | none => .vobj []
      .vobj (objSetE es key (setDeepGo coerced (r :: rest) v))
  | cur, _, _ => cur

/-- `setDeep(obj, path, value)` from `copy_yaml.js`. -/
def setDeep (obj : JVal) (path : String) (v : JVal) : JVal :=
  setDeepGo obj (splitKey path) v

/-! ### `copy_yaml.js` — second script (flatten/unflatten variant) -/

mutual
/-- `flattenObject(obj, prefix, result)`: one entry per non-object leaf,
keyed by the dotted path (`result[newKey] = obj[key]`); plain-object values
are recursed into. -/
def flattenObject (obj : JVal) (pfx : String)
    (result : List (String × JVal)) : List (String × JVal) :=
  match obj with
  | .vobj es => floEntries es pfx result
  | _ => result
/-- The `for...in` loop body of `flattenObject` over an entry list. -/
def floEntries : List (String × JVal) → String → List (String × JVal) →
    List (String × JVal)
  | [], _, result => result
  | (key, v) :: rest, pfx, result =>
      let newKey := jsKey pfx key
      let result2 :=
        match v with
        | .vobj _ => flattenObject v newKey result
        | _ => objSetE result newKey v
      floEntries rest pfx result2
end

/-- One pass of `unflattenObject`'s `keys.reduce(...)` for a single flat
entry: walks/extends `acc` along the split key.  At an intermediate segment
the JS code runs `acc[k] = acc[k] || {}` — a *falsy* existing value is
replaced by a fresh object but a truthy non-object is kept, after which the
JS write into it is a silent no-op and the subsequent `return acc[k]` yields
`undefined`, so the next step throws a `TypeError` (modelled as `none`).
Writes into arrays (kept because arrays are truthy objects) land in
properties invisible to `yaml.dump` and are modelled as leaving the array
unchanged; they are unreachable under the theorems' hypotheses. -/
def insertReduce : JVal → List String → JVal → Option JVal
  | .vobj es, [last], v => some (.vobj (objSetE es last v))
  | .vobj es, key :: r :: rest, v =>
      let coerced :=
        match objGetE es key with
        | some c => if truthy c then c else .vobj []
        | none => .vobj []
      match insertReduce coerced (r :: rest) v with
      | some newChild => some (.vobj (objSetE es key newChild))
      | none => none
  | .varr es, _ :: _, _ => some (.varr es)
  | acc, [_], _ => some acc
  | _, _ :: _ :: _, _ => none
  | acc, [], _ => some acc

/-- The fold of `unflattenObject(obj)` over the flat entries, threading the
accumulated result (`none` once a reduce step has thrown). -/
def unflattenGo : List (String × JVal) → JVal → Option JVal
  | [], result => some result
  | (key, v) :: rest, result =>
      match insertReduce result (splitKey key) v with
      | some r2 => unflattenGo rest r2
      | none => none

/-- `unflattenObject(obj)` from the flatten/unflatten variant of
`copy_yaml.js`. -/
def unflattenObject (flat : List (String × JVal)) : Option JVal :=
  unflattenGo flat (.vobj [])

/-! ### `part_001` — the state-tracking script (its `main` is the cited
per-locale synchronizer) -/

mutual
/-- `getAllStringsFromObject(obj, allStrings, prefix)`: collects every
string leaf under its dotted key; plain-object values are recursed into;
other leaves are skipped. -/
def getAllStringsFromObject (obj : JVal) (acc : List (String × String))
    (pfx : String) : List (String × String) :=
  match obj with
  | .vobj es => gasEntries es acc pfx
  | _ => acc
/-- The `for...in` loop body of `getAllStringsFromObject`. -/
def gasEntries : List (String × JVal) → List (String × String) → String →
    List (String × String)
  | [], acc, _ => acc
  | (key, v) :: rest, acc, pfx =>
      let fullKey := jsKey pfx key
      let acc2 :=
        match v with
        | .vstr s => chSet acc fullKey s
        | .vobj _ => getAllStringsFromObject v acc fullKey
        | _ => acc
      gasEntries rest acc2 pfx
end

/-- `getAllStringsFromObject(obj)` with its default arguments. -/
def gasTop (obj : JVal) : List (String × String) :=
  getAllStringsFromObject obj [] ""

mutual
/-- `getChangedStrings` as it appears in the state-tracking script: same as
the `copy_yaml.js` version except that the previous value is coerced with
`(typeof previousVal === 'object' && previousVal !== null) ? previousVal :
{}` before recursing (arrays pass this test and are kept). -/
def getChangedStringsSt (cur : JVal) (prev : Option JVal)
    (changes : List (String × String)) (pfx : String) :
    List (String × String) :=
  match cur with
  | .vobj es => gcsStEntries es prev changes pfx
  | _ => changes
/-- The `for...in` loop body of `getChangedStringsSt`. -/
def gcsStEntries : List (String × JVal) → Option JVal →
    List (String × String) → String → List (String × String)
  | [], _, changes, _ => changes
  | (key, v) :: rest, prev, changes, pfx =>
      let previousVal := jsIndexOpt prev key
      let fullKey := jsKey pfx key
      let changes2 :=
        match v with
        | .vstr s =>
            if previousVal = some (.vstr s) then changes
            else chSet changes fullKey s
        | .vobj _ =>
            let nestedPrev : JVal :=
              match previousVal with
              | some (.vobj pes) => .vobj pes
              | some (.varr pes) => .varr pes
              | _ => .vobj []
            getChangedStringsSt v (some nestedPrev) changes fullKey
        | _ => changes
      gcsStEntries rest prev changes2 pfx
end

/-- `getChangedStrings(current, previous)` of the state-tracking script with
its default arguments. -/
def gcsStTop (cur prev : JVal) : List (String × String) :=
  getChangedStringsSt cur (some prev) [] ""

/-- Outcome of one `generateContent` call in the state-tracking script:
a response text, or a thrown error.  (This script returns `result.text`
without touching it further, so a malformed success response is not
distinguishable here and is not modelled.) -/
inductive TrResp where
  | ok (t : String)
  | err
deriving DecidableEq

/-- The translation capability used by the state-tracking script. -/
def OracleSt : Type := String → String → TrResp

/-- `translateString(text, targetLanguage)` from the state-tracking script:
`!text || text.trim() === ""` returns the text untouched without calling
the capability; a successful call returns `result.text` as-is; a thrown
error is caught and becomes the `[Translation Error]` placeholder embedding
the original text. -/
def translateStringSt (oracle : OracleSt) (text targetLanguage : String) :
    String :=
  if text = "" || jsTrim text = "" then text
  else
    match oracle text targetLanguage with
    | .ok t => t
    | .err => "[Translation Error] " ++ text

/-- Whether `translateString` consults the remote capability for this text
(everything except empty/whitespace-only text). -/
def trCalls (text : String) : Nat :=
  if text = "" || jsTrim text = "" then 0 else 1

/-- Number of remote translation calls made when processing a flat
key-to-text list. -/
def callsOf (l : List (String × String)) : Nat :=
  (l.map (fun kv => trCalls kv.2)).sum

/-- The check `!current[part] || typeof current[part] !== "object"` of the
state-tracking script's `setDeep` keeps truthy objects *and arrays*
(there is no `Array.isArray` exclusion in this variant). -/
def keepsP1 : JVal → Bool
  | .vobj _ => true
  | .varr _ => true
  | _ => false

/-- The walk of the state-tracking script's `setDeep` over the split path:
like `setDeep` of `copy_yaml.js` but arrays at intermediate positions are
*kept* and descended into.  Descents into arrays (updating an element or an
invisible expando property, or throwing `RangeError` on `length`) are
modelled as leaving the array unchanged; every theorem involving this
function assumes array-free inputs, which keeps the walk inside plain
objects where the model is exact.  A primitive at the start with two or more
remaining parts makes the JS throw (modelled as returning the value
unchanged, likewise excluded by the theorems' hypotheses). -/
def setDeepStGo : JVal → List String → JVal → JVal
  | .vobj es, [last], v => .vobj (objSetE es last v)
  | .vobj es, key :: r :: rest, v =>
      let coerced :=
        match objGetE es key with
        | some c => if keepsP1 c then c else .vobj []
        | none => .vobj []
      .vobj (objSetE es key (setDeepStGo coerced (r :: rest) v))
  | cur, _, _ => cur

/-- `setDeep(obj, path, value)` from the state-tracking script. -/
def setDeepSt (obj : JVal) (path : String) (v : JVal) : JVal :=
  setDeepStGo obj (splitKey path) v

/-- Per-locale outcome of one run of the state-tracking script's `main`:
the locale's file afterwards (`none` if still absent), whether
`fs.writeFileSync` ran for it, and how many remote translation calls it
made. -/
structure LocRes where
  file : Option JVal
  wrote : Bool
  calls : Nat
deriving DecidableEq

/-- One iteration of the locale loop of the state-tracking script's `main`
(lines 403–453): absent target file → translate every source string into a
fresh document and write it iff there was at least one; existing target
file → prune deleted keys, then translate-and-set every entry of the
(globally computed) changed-strings map, writing iff something was deleted
or the changed map is nonempty. -/
def syncLocale (oracle : OracleSt) (name : String) (cur prev : JVal)
    (file : Option JVal) : LocRes :=
  match file with
  | none =>
      let alls := gasTop cur
      let built := alls.foldl
        (fun acc kv =>
          setDeepSt acc kv.1 (.vstr (translateStringSt oracle kv.2 name)))
        (.vobj [])
      let has := !alls.isEmpty
      { file := if has then some built else none
        wrote := has
        calls := callsOf alls }
  | some t0 =>
      let pr := removeDeletedKeys t0 cur
      let changed := gcsStTop cur prev
      let updated := changed.foldl
        (fun acc kv =>
          setDeepSt acc kv.1 (.vstr (translateStringSt oracle kv.2 name)))
        pr.1
      let has := pr.2 || !changed.isEmpty
      { file := some (if has then updated else t0)
        wrote := has
        calls := callsOf changed }

/-- Outcome of one whole run of the state-tracking script's `main`: the
per-locale results, the state file afterwards (the recorded commit
identifier, `none` if still absent), and whether the state file was
written. -/
structure RunRes where
  locs : List LocRes
  state : Option String
  stateWritten : Bool

/-- One run of the state-tracking script's `main`:
`prior` is the commit recorded in `translation_state.json` (`none` when the
file is missing, unparseable, or records `null` — all treated by the script
as a first run), `prev` is the source document as of that commit, `cur` the
current source document, `sha` the current commit, and `locales` pairs each
locale's language name with its current target file.  The state file is
rewritten with `sha` iff some locale was written or this was a first run. -/
def runFull (oracle : OracleSt) (cur prev : JVal)
    (locales : List (String × Option JVal)) (prior : Option String)
    (sha : String) : RunRes :=
  let rs := locales.map (fun lc => syncLocale oracle lc.1 cur prev lc.2)
  let anyMod := rs.any (fun r => r.wrote)
  let firstRun := prior.isNone
  { locs := rs
    state := if anyMod || firstRun then some sha else prior
    stateWritten := anyMod || firstRun }

/-- Total number of remote translation calls in a run. -/
def totalCalls (r : RunRes) : Nat :=
  (r.locs.map (fun l => l.calls)).sum

/-! ### Basic lemmas about the association-list operations -/

theorem objGetE_objSetE_self : ∀ (es : List (String × JVal)) (key : String)
    (v : JVal), objGetE (objSetE es key v) key = some v
  | [], key, v => by simp [objSetE, objGetE]
  | (k, w) :: rest, key, v => by
      by_cases h : k = key
      · simp [objSetE, objGetE, h]
      · simp [objSetE, objGetE, h, objGetE_objSetE_self rest key v]

theorem objGetE_objSetE_ne : ∀ (es : List (String × JVal)) (key q : String)
    (v : JVal), q ≠ key → objGetE (objSetE es key v) q = objGetE es q
  | [], key, q, v, hne => by simp [objSetE, objGetE, Ne.symm hne]
  | (k, w) :: rest, key, q, v, hne => by
      by_cases h : k = key
      · subst h
        simp [objSetE, objGetE, Ne.symm hne]
      · simp only [objSetE, if_neg h, objGetE]
        by_cases h2 : k = q
        · simp [h2]
        · simp [h2, objGetE_objSetE_ne rest key q v hne]

theorem chGet_chSet_self : ∀ (l : List (String × String)) (key v : String),
    chGet (chSet l key v) key = some v
  | [], key, v => by simp [chSet, chGet]
  | (k, w) :: rest, key, v => by
      by_cases h : k = key
      · simp [chSet, chGet, h]
      · simp [chSet, chGet, h, chGet_chSet_self rest key v]

theorem chGet_chSet_ne : ∀ (l : List (String × String)) (key q v : String),
    q ≠ key → chGet (chSet l key v) q = chGet l q
  | [], key, q, v, hne => by simp [chSet, chGet, Ne.symm hne]
  | (k, w) :: rest, key, q, v, hne => by
      by_cases h : k = key
      · subst h
        simp [chSet, chGet, Ne.symm hne]
      · simp only [chSet, if_neg h, chGet]
        by_cases h2 : k = q
        · simp [h2]
        · simp [h2, chGet_chSet_ne rest key q v hne]

theorem mem_chSet : ∀ (l : List (String × String)) (key v : String)
    (kv : String × String), kv ∈ chSet l key v →
    kv ∈ l ∨ kv = (key, v)
  | [], key, v, kv, h => by
      simp only [chSet, List.mem_singleton] at h
      exact Or.inr h
  | (k, w) :: rest, key, v, kv, h => by
      by_cases hk : k = key
      · have hrw : chSet ((k, w) :: rest) key v = (k, v) :: rest := by
          simp [chSet, hk]
        rw [hrw] at h
        rcases List.mem_cons.mp h with heq | hmem
        · exact Or.inr (by simp [heq, hk])
        · exact Or.inl (List.mem_cons_of_mem _ hmem)
      · simp only [chSet, if_neg hk, List.mem_cons] at h
        rcases h with heq | hmem
        · exact Or.inl (by simp [heq])
        · rcases mem_chSet rest key v kv hmem with h2 | h2
          · exact Or.inl (List.mem_cons_of_mem _ h2)
          · exact Or.inr h2

theorem splitKey_ne_nil (s : String) : splitKey s ≠ [] := by
  intro h
  have := splitDotCs_ne_nil s.data
  simp [splitKey] at h
  exact this h

/-! ### Claim C8 — `setDeep` materializes mappings along the split path -/

theorem setDeepGo_coerced_obj (es : List (String × JVal)) (key : String) :
    ∃ es2 : List (String × JVal),
      (match objGetE es key with
        | some c => if isObj c then c else JVal.vobj []
        | none => JVal.vobj []) = JVal.vobj es2 := by
  cases h : objGetE es key with
  | none => exact ⟨[], rfl⟩
  | some c =>
      cases c with
      | vobj ws => exact ⟨ws, by simp [isObj]⟩
      | vstr s => exact ⟨[], by simp [isObj]⟩
      | vnum n => exact ⟨[], by simp [isObj]⟩
      | vbool b => exact ⟨[], by simp [isObj]⟩
      | vnull => exact ⟨[], by simp [isObj]⟩
      | varr l => exact ⟨[], by simp [isObj]⟩

theorem setDeepGo_isObj : ∀ (parts : List String)
    (es : List (String × JVal)) (v : JVal), parts ≠ [] →
    ∃ ws, setDeepGo (.vobj es) parts v = .vobj ws
  | [], _, _, h => absurd rfl h
  | [last], es, v, _ => ⟨objSetE es last v, rfl⟩
  | key :: r :: rest, es, v, _ => ⟨_, rfl⟩

theorem setDeepGo_pathValue : ∀ (parts : List String)
    (es : List (String × JVal)) (v : JVal), parts ≠ [] →
    pathValue (setDeepGo (.vobj es) parts v) parts = some v
  | [], _, _, h => absurd rfl h
  | [last], es, v, _ => by
      simp [setDeepGo, pathValue, objGetE_objSetE_self]
  | key :: r :: rest, es, v, _ => by
      obtain ⟨es2, h2⟩ := setDeepGo_coerced_obj es key
      have ih := setDeepGo_pathValue (r :: rest) es2 v (by simp)
      simp only [setDeepGo, h2, pathValue, objGetE_objSetE_self]
      exact ih

theorem setDeepGo_prefix_obj : ∀ (parts : List String)
    (es : List (String × JVal)) (v : JVal) (q : List String),
    q <+: parts → q ≠ [] → q ≠ parts →
    ∃ ws, pathValue (setDeepGo (.vobj es) parts v) q = some (.vobj ws)
  | [], _, _, q, hpre, hne, _ => by
      rw [List.prefix_nil.mp hpre] at hne
      exact absurd rfl hne
  | [last], es, v, q, hpre, hne, hq => by
      obtain ⟨t, ht⟩ := hpre
      cases q with
      | nil => exact absurd rfl hne
      | cons a q2 =>
          rw [List.cons_append] at ht
          have ha := (List.cons.inj ht).1
          have ht2 := (List.cons.inj ht).2
          have hq2 : q2 = [] := (List.append_eq_nil.mp ht2).1
          subst ha
          subst hq2
          exact absurd rfl hq
  | key :: r :: rest, es, v, q, hpre, hne, hq => by
      obtain ⟨es2, h2⟩ := setDeepGo_coerced_obj es key
      cases q with
      | nil => exact absurd rfl hne
      | cons a q2 =>
          obtain ⟨t, ht⟩ := hpre
          rw [List.cons_append] at ht
          have ha := (List.cons.inj ht).1
          have ht2 := (List.cons.inj ht).2
          subst ha
          cases q2 with
          | nil =>
              obtain ⟨ws, hws⟩ :=
                setDeepGo_isObj (r :: rest) es2 v (by simp)
              refine ⟨ws, ?_⟩
              simp only [setDeepGo, h2, pathValue, objGetE_objSetE_self, hws]
          | cons b q3 =>
              have hne2 : (b :: q3) ≠ r :: rest := by
                intro hcontra
                exact hq (by rw [hcontra])
              have ih := setDeepGo_prefix_obj (r :: rest) es2 v (b :: q3)
                ⟨t, ht2⟩ (by simp) hne2
              simp only [setDeepGo, h2, pathValue, objGetE_objSetE_self]
              exact ih

/-- C8: for every flat entry, `setDeep` (the unflattening primitive of
`copy_yaml.js`, by which delta entries are merged into a document) splits
the key on `.` and materializes intermediate mappings, overwriting whatever
non-mapping value was there: afterwards the full split path holds exactly
the written value (last write wins) and every proper nonempty prefix of the
path holds a mapping, for *every* starting document, including ones with
conflicting non-mapping values at intermediate segments. -/
theorem claim_C8_setDeep_coerces (es : List (String × JVal)) (path : String)
    (v : JVal) :
    pathValue (setDeep (.vobj es) path v) (splitKey path) = some v ∧
    ∀ q, q <+: splitKey path → q ≠ [] → q ≠ splitKey path →
      ∃ ws, pathValue (setDeep (.vobj es) path v) q = some (.vobj ws) := by
  constructor
  · exact setDeepGo_pathValue (splitKey path) es v (splitKey_ne_nil path)
  · intro q hpre hne hq
    exact setDeepGo_prefix_obj (splitKey path) es v q hpre hne hq

/-- Witness for C8 at a concrete conflicting input: `setDeep({a: "x"},
"a.b", "y")` coerces the string at `a` into a mapping and stores `y` at
`a.b`. -/
theorem claim_C8_setDeep_coerces_witness :
    pathValue (setDeep (.vobj [("a", .vstr "x")]) "a.b" (.vstr "y"))
        (splitKey "a.b") = some (.vstr "y") ∧
    (∃ ws, pathValue (setDeep (.vobj [("a", .vstr "x")]) "a.b" (.vstr "y"))
        ["a"] = some (.vobj ws)) :=
  ⟨(claim_C8_setDeep_coerces [("a", .vstr "x")] "a.b" (.vstr "y")).1,
   (claim_C8_setDeep_coerces [("a", .vstr "x")] "a.b" (.vstr "y")).2 ["a"]
      ⟨["b"], by decide⟩ (by decide) (by decide)⟩

/-! ### Claims C10 and C3 — `removeDeletedKeys` -/

theorem rdkE_length_le : ∀ (tes : List (String × JVal)) (s : JVal),
    (rdkEntries tes s).1.length ≤ tes.length
  | [], _ => by simp [rdkEntries]
  | (key, v) :: rest, s => by
      have ih := rdkE_length_le rest s
      by_cases h : hasOwn s key = true
      · simp only [rdkEntries, if_pos h]
        cases v with
        | vobj ves =>
            cases hj : jsGet s key with
            | none => simpa using ih
            | some sv =>
                cases sv with
                | vobj sves => simpa using ih
                | vstr a => simpa using ih
                | vnum a => simpa using ih
                | vbool a => simpa using ih
                | vnull => simpa using ih
                | varr a => simpa using ih
        | vstr a => simpa [rdkEntries, h] using ih
        | vnum a => simpa [rdkEntries, h] using ih
        | vbool a => simpa [rdkEntries, h] using ih
        | vnull => simpa [rdkEntries, h] using ih
        | varr a => simpa [rdkEntries, h] using ih
      · simp only [rdkEntries, if_neg h]
        exact Nat.le_succ_of_le ih

theorem hasOwn_some {s : JVal} {key : String} (h : hasOwn s key = true) :
    ∃ ses sv, s = JVal.vobj ses ∧ jsGet s key = some sv := by
  cases s with
  | vobj ses =>
      cases hg : objGetE ses key with
      | none => rw [hasOwn, hg] at h; simp at h
      | some sv => exact ⟨ses, sv, rfl, by simp [jsGet, hg]⟩
  | vstr a => simp [hasOwn] at h
  | vnum a => simp [hasOwn] at h
  | vbool a => simp [hasOwn] at h
  | vnull => simp [hasOwn] at h
  | varr a => simp [hasOwn] at h

theorem rdkE_cons_drop {s : JVal} {key : String} {v : JVal}
    (rest : List (String × JVal)) (h : hasOwn s key = false) :
    rdkEntries ((key, v) :: rest) s = ((rdkEntries rest s).1, true) := by
  simp [rdkEntries, h]

theorem rdkE_cons_rec {s : JVal} {key : String}
    {ves sves : List (String × JVal)} (rest : List (String × JVal))
    (h : hasOwn s key = true) (hj : jsGet s key = some (.vobj sves)) :
    rdkEntries ((key, .vobj ves) :: rest) s
      = ((key, (removeDeletedKeys (.vobj ves) (.vobj sves)).1)
            :: (rdkEntries rest s).1,
         (removeDeletedKeys (.vobj ves) (.vobj sves)).2
            || (rdkEntries rest s).2) := by
  simp [rdkEntries, h, hj]

theorem rdkE_cons_keep_sv {s : JVal} {key : String} {v sv : JVal}
    (rest : List (String × JVal)) (h : hasOwn s key = true)
    (hj : jsGet s key = some sv) (hsv : isObj sv = false) :
    rdkEntries ((key, v) :: rest) s
      = ((key, v) :: (rdkEntries rest s).1, (rdkEntries rest s).2) := by
  cases sv
  case vobj => simp [isObj] at hsv
  all_goals cases v <;> simp [rdkEntries, h, hj]

theorem rdkE_cons_keep_v {s : JVal} {key : String} {v : JVal}
    (rest : List (String × JVal)) (h : hasOwn s key = true)
    (hv : isObj v = false) :
    rdkEntries ((key, v) :: rest) s
      = ((key, v) :: (rdkEntries rest s).1, (rdkEntries rest s).2) := by
  obtain ⟨ses, sv, hs, hj⟩ := hasOwn_some h
  cases v
  case vobj => simp [isObj] at hv
  all_goals cases sv <;> simp [rdkEntries, h, hj]

mutual
theorem rdk_leaves_sublist : ∀ (t s : JVal),
    (leaves (removeDeletedKeys t s).1).Sublist (leaves t)
  | .vobj tes, s => by
      simpa [removeDeletedKeys, leaves] using rdkE_leaves_sublist tes s
  | .vstr a, s => by simp [removeDeletedKeys]
  | .vnum a, s => by simp [removeDeletedKeys]
  | .vbool a, s => by simp [removeDeletedKeys]
  | .vnull, s => by simp [removeDeletedKeys]
  | .varr a, s => by simp [removeDeletedKeys]
theorem rdkE_leaves_sublist : ∀ (tes : List (String × JVal)) (s : JVal),
    (leavesE (rdkEntries tes s).1).Sublist (leavesE tes)
  | [], _ => by simp [rdkEntries, leavesE]
  | (key, v) :: rest, s => by
      have ih := rdkE_leaves_sublist rest s
      by_cases h : hasOwn s key = true
      · obtain ⟨ses, sv, hs, hj⟩ := hasOwn_some h
        by_cases hv : isObj v = true
        · obtain ⟨ves, rfl⟩ : ∃ ves, v = JVal.vobj ves := by
            cases v <;> simp [isObj] at hv ⊢
          by_cases hsv : isObj sv = true
          · obtain ⟨sves, rfl⟩ : ∃ sves, sv = JVal.vobj sves := by
              cases sv <;> simp [isObj] at hsv ⊢
            rw [rdkE_cons_rec rest h hj]
            have ihv := rdk_leaves_sublist (.vobj ves) (.vobj sves)
            simp only [leavesE]
            exact List.Sublist.append (List.Sublist.map _ ihv) ih
          · rw [rdkE_cons_keep_sv rest h hj (by simpa using hsv)]
            simp only [leavesE]
            exact List.Sublist.append (List.Sublist.refl _) ih
        · rw [rdkE_cons_keep_v rest h (by simpa using hv)]
          simp only [leavesE]
          exact List.Sublist.append (List.Sublist.refl _) ih
      · rw [rdkE_cons_drop rest (by simpa using h)]
        simp only [leavesE]
        exact ih.trans (List.sublist_append_right _ _)
end

mutual
theorem rdk_false_eq : ∀ (t s : JVal), (removeDeletedKeys t s).2 = false →
    (removeDeletedKeys t s).1 = t
  | .vobj tes, s => by
      intro h
      simp only [removeDeletedKeys] at h ⊢
      rw [rdkE_false_eq tes s h]
  | .vstr a, s => fun _ => rfl
  | .vnum a, s => fun _ => rfl
  | .vbool a, s => fun _ => rfl
  | .vnull, s => fun _ => rfl
  | .varr a, s => fun _ => rfl
theorem rdkE_false_eq : ∀ (tes : List (String × JVal)) (s : JVal),
    (rdkEntries tes s).2 = false → (rdkEntries tes s).1 = tes
  | [], _ => by simp [rdkEntries]
  | (key, v) :: rest, s => by
      intro hfl
      by_cases h : hasOwn s key = true
      · obtain ⟨ses, sv, hs, hj⟩ := hasOwn_some h
        by_cases hv : isObj v = true
        · obtain ⟨ves, rfl⟩ : ∃ ves, v = JVal.vobj ves := by
            cases v <;> simp [isObj] at hv ⊢
          by_cases hsv : isObj sv = true
          · obtain ⟨sves, rfl⟩ : ∃ sves, sv = JVal.vobj sves := by
              cases sv <;> simp [isObj] at hsv ⊢
            rw [rdkE_cons_rec rest h hj] at hfl ⊢
            simp only [Bool.or_eq_false_iff] at hfl
            rw [rdk_false_eq (.vobj ves) (.vobj sves) hfl.1,
              rdkE_false_eq rest s hfl.2]
          · rw [rdkE_cons_keep_sv rest h hj (by simpa using hsv)] at hfl ⊢
            rw [rdkE_false_eq rest s hfl]
        · rw [rdkE_cons_keep_v rest h (by simpa using hv)] at hfl ⊢
          rw [rdkE_false_eq rest s hfl]
      · rw [rdkE_cons_drop rest (by simpa using h)] at hfl
        exact absurd hfl (by simp)
end

mutual
theorem rdk_true_ne : ∀ (t s : JVal), (removeDeletedKeys t s).2 = true →
    (removeDeletedKeys t s).1 ≠ t
  | .vobj tes, s => by
      intro h
      simp only [removeDeletedKeys] at h ⊢
      intro heq
      exact rdkE_true_ne tes s h (by injection heq)
  | .vstr a, s => by simp [removeDeletedKeys]
  | .vnum a, s => by simp [removeDeletedKeys]
  | .vbool a, s => by simp [removeDeletedKeys]
  | .vnull, s => by simp [removeDeletedKeys]
  | .varr a, s => by simp [removeDeletedKeys]
theorem rdkE_true_ne : ∀ (tes : List (String × JVal)) (s : JVal),
    (rdkEntries tes s).2 = true → (rdkEntries tes s).1 ≠ tes
  | [], _ => by simp [rdkEntries]
  | (key, v) :: rest, s => by
      intro hfl heq
      by_cases h : hasOwn s key = true
      · obtain ⟨ses, sv, hs, hj⟩ := hasOwn_some h
        by_cases hv : isObj v = true
        · obtain ⟨ves, rfl⟩ : ∃ ves, v = JVal.vobj ves := by
            cases v <;> simp [isObj] at hv ⊢
          by_cases hsv : isObj sv = true
          · obtain ⟨sves, rfl⟩ : ∃ sves, sv = JVal.vobj sves := by
              cases sv <;> simp [isObj] at hsv ⊢
            rw [rdkE_cons_rec rest h hj] at hfl heq
            have hhead := (List.cons.inj heq).1
            have htail := (List.cons.inj heq).2
            rcases Bool.or_eq_true_iff.mp hfl with hfl2 | hfl2
            · exact rdk_true_ne (.vobj ves) (.vobj sves) hfl2
                (congrArg Prod.snd hhead)
            · exact rdkE_true_ne rest s hfl2 htail
          · rw [rdkE_cons_keep_sv rest h hj (by simpa using hsv)]
              at hfl heq
            exact rdkE_true_ne rest s hfl (List.cons.inj heq).2
        · rw [rdkE_cons_keep_v rest h (by simpa using hv)] at hfl heq
          exact rdkE_true_ne rest s hfl (List.cons.inj heq).2
      · rw [rdkE_cons_drop rest (by simpa using h)] at heq
        have hlen := congrArg List.length heq
        simp only [List.length_cons] at hlen
        have := rdkE_length_le rest s
        omega
end

mutual
theorem rdk_leaf_source : ∀ (t s : JVal) (p : List String) (x : JVal),
    (p, x) ∈ leaves (removeDeletedKeys t s).1 →
    pathValue s p ≠ none ∨
    ∃ q w, q <+: p ∧ q ≠ p ∧ pathValue s q = some w ∧ isObj w = false
  | .vobj tes, s, p, x => by
      intro hmem
      simp only [removeDeletedKeys, leaves] at hmem
      exact rdkE_leaf_source tes s p x hmem
  | .vstr a, s, p, x => by
      intro hmem
      simp only [removeDeletedKeys, leaves, List.mem_singleton] at hmem
      injection hmem with hp hx
      subst hp
      exact Or.inl (by simp [pathValue])
  | .vnum a, s, p, x => by
      intro hmem
      simp only [removeDeletedKeys, leaves, List.mem_singleton] at hmem
      injection hmem with hp hx
      subst hp
      exact Or.inl (by simp [pathValue])
  | .vbool a, s, p, x => by
      intro hmem
      simp only [removeDeletedKeys, leaves, List.mem_singleton] at hmem
      injection hmem with hp hx
      subst hp
      exact Or.inl (by simp [pathValue])
  | .vnull, s, p, x => by
      intro hmem
      simp only [removeDeletedKeys, leaves, List.mem_singleton] at hmem
      injection hmem with hp hx
      subst hp
      exact Or.inl (by simp [pathValue])
  | .varr a, s, p, x => by
      intro hmem
      simp only [removeDeletedKeys, leaves, List.mem_singleton] at hmem
      injection hmem with hp hx
      subst hp
      exact Or.inl (by simp [pathValue])
theorem rdkE_leaf_source : ∀ (tes : List (String × JVal)) (s : JVal)
    (p : List String) (x : JVal),
    (p, x) ∈ leavesE (rdkEntries tes s).1 →
    pathValue s p ≠ none ∨
    ∃ q w, q <+: p ∧ q ≠ p ∧ pathValue s q = some w ∧ isObj w = false
  | [], _, p, x => by simp [rdkEntries, leavesE]
  | (key, v) :: rest, s, p, x => by
      intro hmem
      by_cases h : hasOwn s key = true
      · obtain ⟨ses, sv, hs, hj⟩ := hasOwn_some h
        subst hs
        have hg : objGetE ses key = some sv := hj
        by_cases hv : isObj v = true
        · obtain ⟨ves, rfl⟩ : ∃ ves, v = JVal.vobj ves := by
            cases v <;> simp [isObj] at hv ⊢
          by_cases hsv : isObj sv = true
          · obtain ⟨sves, rfl⟩ : ∃ sves, sv = JVal.vobj sves := by
              cases sv <;> simp [isObj] at hsv ⊢
            rw [rdkE_cons_rec rest h hj] at hmem
            simp only [leavesE, List.mem_append, List.mem_map] at hmem
            rcases hmem with ⟨⟨p2, x2⟩, hmem2, heq2⟩ | hmem2
            · injection heq2 with hp hx
              subst hp
              subst hx
              rcases rdk_leaf_source (.vobj ves) (.vobj sves) p2 x2 hmem2
                with hl | ⟨q2, w, hpre, hne, hpv, hw⟩
              · left
                simpa [pathValue, hg] using hl
              · right
                refine ⟨key :: q2, w, ?_, ?_, ?_, hw⟩
                · exact List.cons_prefix_cons.mpr ⟨rfl, hpre⟩
                · intro hcontra
                  exact hne (List.cons.inj hcontra).2
                · simpa [pathValue, hg] using hpv
            · exact rdkE_leaf_source rest _ p x hmem2
          · rw [rdkE_cons_keep_sv rest h hj (by simpa using hsv)] at hmem
            simp only [leavesE, List.mem_append, List.mem_map] at hmem
            rcases hmem with ⟨⟨p2, x2⟩, hmem2, heq2⟩ | hmem2
            · injection heq2 with hp hx
              subst hp
              cases p2 with
              | nil => exact Or.inl (by simp [pathValue, hg])
              | cons b p3 =>
                  right
                  refine ⟨[key], sv, ⟨b :: p3, rfl⟩, by simp,
                    by simp [pathValue, hg], by simpa using hsv⟩
            · exact rdkE_leaf_source rest _ p x hmem2
        · rw [rdkE_cons_keep_v rest h (by simpa using hv)] at hmem
          simp only [leavesE, List.mem_append, List.mem_map] at hmem
          rcases hmem with ⟨⟨p2, x2⟩, hmem2, heq2⟩ | hmem2
          · injection heq2 with hp hx
            subst hp
            have hp2 : p2 = [] := by
              cases v with
              | vobj ves => simp [isObj] at hv
              | vstr a => exact (by simpa [leaves] using hmem2 :
                  p2 = [] ∧ _).1
              | vnum a => exact (by simpa [leaves] using hmem2 :
                  p2 = [] ∧ _).1
              | vbool a => exact (by simpa [leaves] using hmem2 :
                  p2 = [] ∧ _).1
              | vnull => exact (by simpa [leaves] using hmem2 :
                  p2 = [] ∧ _).1
              | varr a => exact (by simpa [leaves] using hmem2 :
                  p2 = [] ∧ _).1
            subst hp2
            exact Or.inl (by simp [pathValue, hg])
          · exact rdkE_leaf_source rest _ p x hmem2
      · rw [rdkE_cons_drop rest (by simpa using h)] at hmem
        exact rdkE_leaf_source rest _ p x hmem
end

/-- C10: `removeDeletedKeys` (the deletion reconciler) only deletes — every
flat leaf path of the result was already present in the target with the same
value, in the same order (a sublist of the original leaf list, so nothing is
added and no retained value is altered) — and its boolean result is `true`
iff it removed something, i.e. iff the resulting document differs from the
original (the function changes the document exactly by performing removals,
so "some key was removed" and "the document changed" coincide). -/
theorem claim_C10_reconcile_only_deletes (tes ses : List (String × JVal)) :
    (leaves (removeDeletedKeys (.vobj tes) (.vobj ses)).1).Sublist
        (leaves (.vobj tes)) ∧
    ((removeDeletedKeys (.vobj tes) (.vobj ses)).2 = true ↔
      (removeDeletedKeys (.vobj tes) (.vobj ses)).1 ≠ .vobj tes) := by
  refine ⟨rdk_leaves_sublist _ _, rdk_true_ne _ _, fun hne => ?_⟩
  by_contra h2
  exact hne (rdk_false_eq _ _ (by
    cases hfl : (removeDeletedKeys (.vobj tes) (.vobj ses)).2 with
    | false => rfl
    | true => exact absurd hfl h2))

/-- Counterexample to C3 as stated: deletion does not recurse past a
type mismatch.  With target `{a: {b: "x"}}` and source `{a: "y"}` the key
`a` exists in the source, but since the source value is a string the
recursion stops: the flat key path `a.b` survives `removeDeletedKeys` even
though it does not exist in the source. -/
theorem claim_C3_counterexample :
    ((["a", "b"], JVal.vstr "x") ∈ leaves (removeDeletedKeys
        (.vobj [("a", .vobj [("b", .vstr "x")])])
        (.vobj [("a", .vstr "y")])).1) ∧
    pathValue (.vobj [("a", .vstr "y")]) ["a", "b"] = none := by decide

/-- C3 amended: after `reconcile(target, source)` every flat key path
present in the resulting target document either exists in the source
document, or extends a strictly shorter path at which the source holds a
non-mapping value (type mismatches stop the deletion recursion, so keys
under a target subtree whose source counterpart is not a mapping are
retained).  The original claim is the first disjunct alone. -/
theorem claim_C3_reconcile_deletion (tes ses : List (String × JVal))
    (p : List String) (x : JVal)
    (hmem : (p, x) ∈ leaves (removeDeletedKeys (.vobj tes) (.vobj ses)).1) :
    pathValue (.vobj ses) p ≠ none ∨
    ∃ q w, q <+: p ∧ q ≠ p ∧ pathValue (.vobj ses) q = some w ∧
      isObj w = false :=
  rdk_leaf_source (.vobj tes) (.vobj ses) p x hmem

/-- Witness for the amended C3 at the counterexample input: the surviving
path `a.b` indeed falls under the second disjunct. -/
theorem claim_C3_reconcile_deletion_witness :
    ((["a", "b"], JVal.vstr "x") ∈ leaves (removeDeletedKeys
        (.vobj [("a", .vobj [("b", .vstr "x")])])
        (.vobj [("a", .vstr "y")])).1) ∧
    (pathValue (.vobj [("a", .vstr "y")]) ["a", "b"] ≠ none ∨
     ∃ q w, q <+: ["a", "b"] ∧ q ≠ ["a", "b"] ∧
       pathValue (.vobj [("a", .vstr "y")]) q = some w ∧ isObj w = false) :=
  ⟨by decide, claim_C3_reconcile_deletion [("a", .vobj [("b", .vstr "x")])]
      [("a", .vstr "y")] ["a", "b"] (.vstr "x") (by decide)⟩

/-! ### Claim C6 — failure containment of `translateString` -/

/-- The value each delta entry receives in the per-key translate loop of
`copy_yaml.js`'s `main` (`for (const key of changedKeys) { ... await
translateString(...) }`): one independent call per entry, in order. -/
def translateEntries (oracle : Oracle) (lang : String)
    (entries : List (String × String)) : List (String × String) :=
  entries.map (fun kv => (kv.1, translateString oracle kv.2 lang))

/-- C6: a failing translation call never escapes `translateString` — the
`catch` turns it into the tagged placeholder `[Translation Error with GenAI
to <language>] <original text>`, which embeds the original source text and
an error marker — and the per-key loop keeps processing: the output has an
entry for every input key (the run completes), the failing key holds the
placeholder, and every key whose call succeeds holds its normal value
(trimmed response text; empty/whitespace-only source text passes through
verbatim without a call), independently of the other keys' failures. -/
theorem claim_C6_failure_containment (oracle : Oracle) (lang : String)
    (entries : List (String × String)) (i : Nat) (key text : String)
    (hget : entries.get? i = some (key, text))
    (hfail : ∀ t, oracle text lang ≠ .ok t)
    (hnw : jsTrim text ≠ "") :
    (translateEntries oracle lang entries).length = entries.length ∧
    (translateEntries oracle lang entries).get? i
      = some (key,
          "[Translation Error with GenAI to " ++ lang ++ "] " ++ text) ∧
    ∀ (j : Nat) (k2 t2 resp : String), entries.get? j = some (k2, t2) →
      oracle t2 lang = .ok resp → jsTrim t2 ≠ "" →
      (translateEntries oracle lang entries).get? j
        = some (k2, jsTrim resp) := by
  refine ⟨by simp [translateEntries], ?_, ?_⟩
  · rw [translateEntries, List.get?_map, hget]
    have : translateString oracle text lang
        = "[Translation Error with GenAI to " ++ lang ++ "] " ++ text := by
      rw [translateString, if_neg hnw]
      cases hr : oracle text lang with
      | ok t => exact absurd hr (hfail t)
      | noText => rfl
      | err => rfl
    simp [this]
  · intro j k2 t2 resp hget2 hresp hnw2
    rw [translateEntries, List.get?_map, hget2]
    have : translateString oracle t2 lang = jsTrim resp := by
      rw [translateString, if_neg hnw2, hresp]
    simp [this]

/-- Witness for C6: with three keys where only the middle key's call fails,
the middle key receives the placeholder and the others their translations. -/
theorem claim_C6_failure_containment_witness :
    (translateEntries (fun t _ => if t = "Bad" then TrResult.err
        else TrResult.ok (t ++ "!")) "French"
        [("k1", "Hello"), ("k2", "Bad"), ("k3", "Bye")]).get? 1
      = some ("k2",
          "[Translation Error with GenAI to " ++ "French" ++ "] "
            ++ "Bad") ∧
    (translateEntries (fun t _ => if t = "Bad" then TrResult.err
        else TrResult.ok (t ++ "!")) "French"
        [("k1", "Hello"), ("k2", "Bad"), ("k3", "Bye")]).get? 0
      = some ("k1", jsTrim ("Hello" ++ "!")) :=
  have h := claim_C6_failure_containment
    (fun t _ => if t = "Bad" then TrResult.err else TrResult.ok (t ++ "!"))
    "French" [("k1", "Hello"), ("k2", "Bad"), ("k3", "Bye")] 1 "k2" "Bad"
    (by decide) (fun t ht => by simp at ht) (by decide)
  ⟨h.2.1, h.2.2 0 "k1" "Hello" ("Hello" ++ "!") (by decide) (by simp)
    (by decide)⟩

/-! ### Claim C7 — when the run state is written -/

/-- C7: the state file is written at the end of a run iff at least one
locale's target document was written during the run (the script's
`anyFileWasModified`), or no valid prior state existed (missing, unreadable
or corrupt state file, or a `null` recorded commit — all collapse to
`prior = none`); when written it records the current source revision
identifier, and otherwise the persisted state is left unchanged. -/
theorem claim_C7_state_written_iff (oracle : OracleSt) (cur prev : JVal)
    (locales : List (String × Option JVal)) (prior : Option String)
    (sha : String) :
    ((runFull oracle cur prev locales prior sha).stateWritten = true ↔
      ((∃ l ∈ (runFull oracle cur prev locales prior sha).locs,
          l.wrote = true) ∨ prior = none)) ∧
    ((runFull oracle cur prev locales prior sha).stateWritten = false →
      (runFull oracle cur prev locales prior sha).state = prior) ∧
    ((runFull oracle cur prev locales prior sha).stateWritten = true →
      (runFull oracle cur prev locales prior sha).state = some sha) := by
  have hst : (runFull oracle cur prev locales prior sha).state
      = if (runFull oracle cur prev locales prior sha).stateWritten
        then some sha else prior := rfl
  refine ⟨?_, ?_, ?_⟩
  · simp [runFull, List.any_eq_true, Option.isNone_iff_eq_none]
  · intro h
    rw [hst, h]
    simp
  · intro h
    rw [hst, h]
    simp

/-! ### Claims C9 and C2 — the delta map `getChangedStrings` -/

/-- The dotted key the scripts build for a path of segments below an
accumulated prefix (iterated `jsKey`). -/
def joinUnder (pfx : String) : List String → String
  | [] => pfx
  | k :: rest => joinUnder (jsKey pfx k) rest

/-- The chain of guarded reads `previousObj ? previousObj[key] : undefined`
performed by `getChangedStrings` along a path into the previous snapshot. -/
def jsChain : Option JVal → List String → Option JVal
  | o, [] => o
  | o, k :: rest => jsChain (jsIndexOpt o k) rest

theorem chGet_some_mem : ∀ (l : List (String × String)) (k v : String),
    chGet l k = some v → (k, v) ∈ l
  | [], _, _, h => by simp [chGet] at h
  | (k2, w) :: rest, k, v, h => by
      by_cases he : k2 = k
      · subst he
        simp only [chGet, eq_self_iff_true, if_true, Option.some.injEq] at h
        subst h
        exact List.mem_cons_self _ _
      · simp only [chGet, if_neg he] at h
        exact List.mem_cons_of_mem _ (chGet_some_mem rest k v h)

theorem objGetE_isSome_mem : ∀ (es : List (String × JVal)) (k : String),
    (objGetE es k).isSome → k ∈ es.map Prod.fst
  | [], k, h => by simp [objGetE] at h
  | (k2, v) :: rest, k, h => by
      by_cases he : k2 = k
      · simp [he]
      · simp only [objGetE, if_neg he] at h
        simp [objGetE_isSome_mem rest k h]

theorem pathValue_cons_of_ne {es : List (String × JVal)} {key : String}
    {v : JVal} {k2 : String} {tail : List String}
    (hne : key ≠ k2) :
    pathValue (.vobj ((key, v) :: es)) (k2 :: tail)
      = pathValue (.vobj es) (k2 :: tail) := by
  simp [pathValue, objGetE, hne]

theorem pathValue_head_mem {es : List (String × JVal)} {k2 : String}
    {tail : List String} {w : JVal}
    (h : pathValue (.vobj es) (k2 :: tail) = some w) :
    k2 ∈ es.map Prod.fst := by
  apply objGetE_isSome_mem
  cases hg : objGetE es k2 with
  | none => rw [pathValue, hg] at h; simp at h
  | some u => simp

mutual
/-- Every entry of the delta map built by `getChangedStrings` either was in
the accumulator already or is a dot-joined string-leaf path of the current
document carrying its current value, at which the guarded previous-snapshot
read chain did not yield that same string. -/
theorem gcs_mem : ∀ (cur : JVal) (prev : Option JVal)
    (changes : List (String × String)) (pfx : String) (kv : String × String),
    kv ∈ getChangedStrings cur prev changes pfx → nodupKeys cur = true →
    kv ∈ changes ∨ ∃ segs, segs ≠ [] ∧ kv.1 = joinUnder pfx segs ∧
      pathValue cur segs = some (.vstr kv.2) ∧
      jsChain prev segs ≠ some (.vstr kv.2)
  | .vobj es, prev, changes, pfx, kv => by
      intro hmem hnd
      simp only [nodupKeys, Bool.and_eq_true] at hnd
      exact gcsE_mem es prev changes pfx kv hmem
        (of_decide_eq_true hnd.1) hnd.2
  | .vstr a, prev, changes, pfx, kv => by
      intro hmem _
      exact Or.inl (by simpa [getChangedStrings] using hmem)
  | .vnum a, prev, changes, pfx, kv => by
      intro hmem _
      exact Or.inl (by simpa [getChangedStrings] using hmem)
  | .vbool a, prev, changes, pfx, kv => by
      intro hmem _
      exact Or.inl (by simpa [getChangedStrings] using hmem)
  | .vnull, prev, changes, pfx, kv => by
      intro hmem _
      exact Or.inl (by simpa [getChangedStrings] using hmem)
  | .varr a, prev, changes, pfx, kv => by
      intro hmem _
      exact Or.inl (by simpa [getChangedStrings] using hmem)
theorem gcsE_mem : ∀ (es : List (String × JVal)) (prev : Option JVal)
    (changes : List (String × String)) (pfx : String) (kv : String × String),
    kv ∈ gcsEntries es prev changes pfx →
    (es.map Prod.fst).Nodup → nodupKeysE es = true →
    kv ∈ changes ∨ ∃ segs, segs ≠ [] ∧ kv.1 = joinUnder pfx segs ∧
      pathValue (.vobj es) segs = some (.vstr kv.2) ∧
      jsChain prev segs ≠ some (.vstr kv.2)
  | [], _, changes, _, kv => by
      intro hmem _ _
      exact Or.inl (by simpa [gcsEntries] using hmem)
  | (key, v) :: rest, prev, changes, pfx, kv => by
      intro hmem hnd hndE
      simp only [List.map_cons, List.nodup_cons] at hnd
      simp only [nodupKeysE, Bool.and_eq_true] at hndE
      have hlift : ∀ segs, segs ≠ [] →
          pathValue (.vobj rest) segs = some (.vstr kv.2) →
          pathValue (.vobj ((key, v) :: rest)) segs = some (.vstr kv.2) := by
        intro segs hne hpv
        cases segs with
        | nil => exact absurd rfl hne
        | cons k2 tail =>
            have hk2 : key ≠ k2 := by
              intro hc
              exact hnd.1 (hc ▸ pathValue_head_mem hpv)
            rw [pathValue_cons_of_ne hk2]
            exact hpv
      cases v with
      | vstr s =>
          rw [show gcsEntries ((key, JVal.vstr s) :: rest) prev changes pfx
              = gcsEntries rest prev
                  (if jsIndexOpt prev key = some (.vstr s) then changes
                   else chSet changes (jsKey pfx key) s) pfx from by
            simp [gcsEntries]] at hmem
          rcases gcsE_mem rest prev _ pfx kv hmem hnd.2 hndE.2 with
            hch | ⟨segs, hne, hj, hpv, hchain⟩
          · by_cases hd : jsIndexOpt prev key = some (.vstr s)
            · rw [if_pos hd] at hch
              exact Or.inl hch
            · rw [if_neg hd] at hch
              rcases mem_chSet changes _ s kv hch with hold | hnew
              · exact Or.inl hold
              · subst hnew
                refine Or.inr ⟨[key], by simp, rfl, ?_, ?_⟩
                · simp [pathValue, objGetE]
                · simpa [jsChain] using hd
          · exact Or.inr ⟨segs, hne, hj, hlift segs hne hpv, hchain⟩
      | vobj ves =>
          rw [show gcsEntries ((key, JVal.vobj ves) :: rest) prev changes pfx
              = gcsEntries rest prev
                  (getChangedStrings (.vobj ves) (jsIndexOpt prev key)
                    changes (jsKey pfx key)) pfx from by
            simp [gcsEntries]] at hmem
          rcases gcsE_mem rest prev _ pfx kv hmem hnd.2 hndE.2 with
            hch | ⟨segs, hne, hj, hpv, hchain⟩
          · rcases gcs_mem (.vobj ves) (jsIndexOpt prev key) changes
                (jsKey pfx key) kv hch hndE.1 with hold |
                  ⟨segs2, hne2, hj2, hpv2, hchain2⟩
            · exact Or.inl hold
            · refine Or.inr ⟨key :: segs2, by simp, hj2, ?_, hchain2⟩
              simpa [pathValue, objGetE] using hpv2
          · exact Or.inr ⟨segs, hne, hj, hlift segs hne hpv, hchain⟩
      | vnum a =>
          rw [show gcsEntries ((key, JVal.vnum a) :: rest) prev changes pfx
              = gcsEntries rest prev changes pfx from by
            simp [gcsEntries]] at hmem
          rcases gcsE_mem rest prev _ pfx kv hmem hnd.2 hndE.2 with
            hch | ⟨segs, hne, hj, hpv, hchain⟩
          · exact Or.inl hch
          · exact Or.inr ⟨segs, hne, hj, hlift segs hne hpv, hchain⟩
      | vbool a =>
          rw [show gcsEntries ((key, JVal.vbool a) :: rest) prev changes pfx
              = gcsEntries rest prev changes pfx from by
            simp [gcsEntries]] at hmem
          rcases gcsE_mem rest prev _ pfx kv hmem hnd.2 hndE.2 with
            hch | ⟨segs, hne, hj, hpv, hchain⟩
          · exact Or.inl hch
          · exact Or.inr ⟨segs, hne, hj, hlift segs hne hpv, hchain⟩
      | vnull =>
          rw [show gcsEntries ((key, JVal.vnull) :: rest) prev changes pfx
              = gcsEntries rest prev changes pfx from by
            simp [gcsEntries]] at hmem
          rcases gcsE_mem rest prev _ pfx kv hmem hnd.2 hndE.2 with
            hch | ⟨segs, hne, hj, hpv, hchain⟩
          · exact Or.inl hch
          · exact Or.inr ⟨segs, hne, hj, hlift segs hne hpv, hchain⟩
      | varr a =>
          rw [show gcsEntries ((key, JVal.varr a) :: rest) prev changes pfx
              = gcsEntries rest prev changes pfx from by
            simp [gcsEntries]] at hmem
          rcases gcsE_mem rest prev _ pfx kv hmem hnd.2 hndE.2 with
            hch | ⟨segs, hne, hj, hpv, hchain⟩
          · exact Or.inl hch
          · exact Or.inr ⟨segs, hne, hj, hlift segs hne hpv, hchain⟩
end

/-- C9: every value in the delta map produced by `getChangedStrings` is a
string taken from the current document — each entry's key is the dot-joined
address of a path at which the current document holds exactly that string
leaf.  Leaves whose current value is a number, boolean, null or array are
skipped by the `typeof` dispatch, so no such value ever enters the delta
(and hence can never be propagated to a target document through it): every
delta value is a current string leaf.  The `nodupKeys` hypothesis is the
JS-object invariant that mapping keys are unique. -/
theorem claim_C9_delta_strings_only (cur prev : JVal)
    (hnd : nodupKeys cur = true) (k v : String)
    (hmem : (k, v) ∈ getChangedStringsTop cur prev) :
    ∃ segs, segs ≠ [] ∧ k = joinUnder "" segs ∧
      pathValue cur segs = some (.vstr v) := by
  rcases gcs_mem cur (some prev) [] "" (k, v) hmem hnd with
    h | ⟨segs, hne, hj, hpv, _⟩
  · simp at h
  · exact ⟨segs, hne, hj, hpv⟩

/-- Witness for C9: in the spec's own concrete scenario (current `{a: {b:
"Hello"}, c: "Bye"}` against previous `{a: {b: "Hello"}, c: "Goodbye"}`)
the single delta entry `c ↦ "Bye"` is the current string leaf at `c`. -/
theorem claim_C9_delta_strings_only_witness :
    (("c", "Bye") ∈ getChangedStringsTop
        (.vobj [("a", .vobj [("b", .vstr "Hello")]), ("c", .vstr "Bye")])
        (.vobj [("a", .vobj [("b", .vstr "Hello")]),
          ("c", .vstr "Goodbye")])) ∧
    ∃ segs, segs ≠ [] ∧ "c" = joinUnder "" segs ∧
      pathValue (.vobj [("a", .vobj [("b", .vstr "Hello")]),
        ("c", .vstr "Bye")]) segs = some (.vstr "Bye") :=
  ⟨by decide, claim_C9_delta_strings_only
    (.vobj [("a", .vobj [("b", .vstr "Hello")]), ("c", .vstr "Bye")])
    (.vobj [("a", .vobj [("b", .vstr "Hello")]), ("c", .vstr "Goodbye")])
    (by decide) "c" "Bye" (by decide)⟩

theorem strAppend_left_cancel {a b c : String} (h : a ++ b = a ++ c) :
    b = c := by
  apply strExt
  have hd := congrArg String.data h
  rw [strData_append, strData_append] at hd
  exact List.append_cancel_left hd

theorem jsKey_inj_right {pfx x y : String} (h : jsKey pfx x = jsKey pfx y) :
    x = y := by
  by_cases hp : pfx = ""
  · simpa [jsKey, hp] using h
  · simp only [jsKey, if_neg hp] at h
    exact strAppend_left_cancel h

theorem joinUnder_eq_jsKey : ∀ (segs : List String) (pfx : String),
    segs ≠ [] → (∀ s ∈ segs, goodKey s = true) →
    joinUnder pfx segs = jsKey pfx (joinSegs segs)
  | [], _, h, _ => absurd rfl h
  | [k], pfx, _, _ => rfl
  | k :: r :: rest, pfx, _, hg => by
      have hk : goodKey k = true := hg k (by simp)
      have hkne : k ≠ "" := (goodKey_iff.mp hk).1
      have ih := joinUnder_eq_jsKey (r :: rest) (jsKey pfx k) (by simp)
        (fun s hs => hg s (List.mem_cons_of_mem k hs))
      show joinUnder (jsKey pfx k) (r :: rest) = jsKey pfx (joinSegs (k :: r :: rest))
      rw [ih]
      by_cases hp : pfx = ""
      · subst hp
        show jsKey (jsKey "" k) (joinSegs (r :: rest))
          = jsKey "" (joinSegs (k :: r :: rest))
        simp [jsKey, hkne, joinSegs]
      · have hpk : ¬(pfx ++ "." ++ k = "") := by
          intro hc
          apply hkne
          have hd := congrArg String.data hc
          rw [strData_append] at hd
          apply strExt
          exact (List.append_eq_nil.mp hd).2
        apply strExt
        simp [jsKey, hp, hpk, strData_append, joinSegs]

theorem joinUnder_inj (pfx : String) {s1 s2 : List String}
    (h1 : s1 ≠ []) (h2 : s2 ≠ []) (hg1 : ∀ s ∈ s1, goodKey s = true)
    (hg2 : ∀ s ∈ s2, goodKey s = true)
    (h : joinUnder pfx s1 = joinUnder pfx s2) : s1 = s2 := by
  rw [joinUnder_eq_jsKey s1 pfx h1 hg1, joinUnder_eq_jsKey s2 pfx h2 hg2] at h
  exact joinSegs_inj h1 h2 hg1 hg2 (jsKey_inj_right h)

theorem objGetE_some_mem : ∀ (es : List (String × JVal)) (k : String)
    (w : JVal), objGetE es k = some w → (k, w) ∈ es
  | [], _, _, h => by simp [objGetE] at h
  | (k2, v) :: rest, k, w, h => by
      by_cases he : k2 = k
      · subst he
        simp only [objGetE, eq_self_iff_true, if_true,
          Option.some.injEq] at h
        subst h
        exact List.mem_cons_self _ _
      · simp only [objGetE, if_neg he] at h
        exact List.mem_cons_of_mem _ (objGetE_some_mem rest k w h)

theorem wfKeysE_mem : ∀ (es : List (String × JVal)) (k : String) (w : JVal),
    wfKeysE es = true → (k, w) ∈ es → goodKey k = true ∧ wfKeys w = true
  | [], _, _, _, hm => by simp at hm
  | (k2, v) :: rest, k, w, hwf, hm => by
      simp only [wfKeysE, Bool.and_eq_true] at hwf
      rcases List.mem_cons.mp hm with he | hm2
      · injection he with h1 h2
        subst h1
        subst h2
        exact ⟨hwf.1.1, hwf.1.2⟩
      · exact wfKeysE_mem rest k w hwf.2 hm2

theorem noIdxKeysE_mem : ∀ (es : List (String × JVal)) (k : String)
    (w : JVal), noIdxKeysE es = true → (k, w) ∈ es →
    (canonIdx k).isNone = true ∧ noIdxKeys w = true
  | [], _, _, _, hm => by simp at hm
  | (k2, v) :: rest, k, w, hni, hm => by
      simp only [noIdxKeysE, Bool.and_eq_true] at hni
      rcases List.mem_cons.mp hm with he | hm2
      · injection he with h1 h2
        subst h1
        subst h2
        exact ⟨hni.1.1, hni.1.2⟩
      · exact noIdxKeysE_mem rest k w hni.2 hm2

theorem wfKeys_vobj_iff {es : List (String × JVal)} :
    wfKeys (.vobj es) = true ↔
      (es.map Prod.fst).Nodup ∧ wfKeysE es = true := by
  simp [wfKeys, Bool.and_eq_true, decide_eq_true_iff]

theorem noIdxKeys_vobj {es : List (String × JVal)} :
    noIdxKeys (.vobj es) = true ↔ noIdxKeysE es = true := by
  simp [noIdxKeys]

theorem pathValue_good_segs : ∀ (segs : List String) (cur : JVal)
    (v : JVal), wfKeys cur = true → pathValue cur segs = some v →
    ∀ s ∈ segs, goodKey s = true
  | [], _, _, _, _ => by simp
  | k :: tail, cur, v, hwf, hpv => by
      cases cur with
      | vobj es =>
          cases hg : objGetE es k with
          | none => rw [pathValue, hg] at hpv; simp at hpv
          | some w =>
              rw [pathValue, hg] at hpv
              have hmem := objGetE_some_mem es k w hg
              have hwf2 := (wfKeys_vobj_iff.mp hwf).2
              obtain ⟨hgk, hwfw⟩ := wfKeysE_mem es k w hwf2 hmem
              intro s hs
              rcases List.mem_cons.mp hs with he | hm2
              · subst he; exact hgk
              · exact pathValue_good_segs tail w v hwfw hpv s hm2
      | vstr a => simp [pathValue] at hpv
      | vnum a => simp [pathValue] at hpv
      | vbool a => simp [pathValue] at hpv
      | vnull => simp [pathValue] at hpv
      | varr a => simp [pathValue] at hpv

theorem pathValue_noIdx_segs : ∀ (segs : List String) (cur : JVal)
    (v : JVal), noIdxKeys cur = true → pathValue cur segs = some v →
    ∀ s ∈ segs, (canonIdx s).isNone = true
  | [], _, _, _, _ => by simp
  | k :: tail, cur, v, hni, hpv => by
      cases cur with
      | vobj es =>
          cases hg : objGetE es k with
          | none => rw [pathValue, hg] at hpv; simp at hpv
          | some w =>
              rw [pathValue, hg] at hpv
              have hmem := objGetE_some_mem es k w hg
              obtain ⟨hik, hniw⟩ :=
                noIdxKeysE_mem es k w (noIdxKeys_vobj.mp hni) hmem
              intro s hs
              rcases List.mem_cons.mp hs with he | hm2
              · subst he; exact hik
              · exact pathValue_noIdx_segs tail w v hniw hpv s hm2
      | vstr a => simp [pathValue] at hpv
      | vnum a => simp [pathValue] at hpv
      | vbool a => simp [pathValue] at hpv
      | vnull => simp [pathValue] at hpv
      | varr a => simp [pathValue] at hpv

theorem jsChain_none : ∀ segs : List String, jsChain none segs = none
  | [] => rfl
  | _ :: rest => by
      show jsChain (jsIndexOpt none _) rest = none
      rw [show jsIndexOpt none _ = none from rfl]
      exact jsChain_none rest

theorem jsGet_nonobj_noIdx {p : JVal} {k : String} (hobj : isObj p = false)
    (hni : (canonIdx k).isNone = true) :
    jsGet p k = none ∨ ∃ n, jsGet p k = some (.vnum n) := by
  cases p with
  | vobj es => simp [isObj] at hobj
  | vstr s =>
      by_cases hl : k = "length"
      · exact Or.inr ⟨s.data.length, by simp [jsGet, hl]⟩
      · left
        simp only [jsGet, if_neg hl]
        rw [Option.isNone_iff_eq_none.mp hni]
  | varr es =>
      by_cases hl : k = "length"
      · exact Or.inr ⟨es.length, by simp [jsGet, hl]⟩
      · left
        simp only [jsGet, if_neg hl]
        rw [Option.isNone_iff_eq_none.mp hni]
  | vnum n => exact Or.inl rfl
  | vbool b => exact Or.inl rfl
  | vnull => exact Or.inl rfl

theorem jsChain_vnum : ∀ (tail : List String) (n : Int) (v : String),
    jsChain (some (.vnum n)) tail ≠ some (.vstr v)
  | [], n, v => by simp [jsChain]
  | k :: rest, n, v => by
      show jsChain (jsIndexOpt (some (.vnum n)) k) rest ≠ some (.vstr v)
      have hni : jsIndexOpt (some (.vnum n)) k = none := by
        simp [jsIndexOpt, jsGet]
      rw [hni, jsChain_none]
      simp

/-- On paths whose segments are never canonical numeric indices, the guarded
read chain of `getChangedStrings` into the previous snapshot yields a given
string exactly when the specification-level mapping walk does: the only
divergence between the two is `length` reads on strings and arrays, which
produce numbers and dead-end immediately. -/
theorem jsChain_eq_vstr_iff : ∀ (segs : List String) (p : JVal) (v : String),
    (∀ s ∈ segs, (canonIdx s).isNone = true) →
    (jsChain (some p) segs = some (.vstr v) ↔
      pathValue p segs = some (.vstr v))
  | [], p, v, _ => by simp [jsChain, pathValue]
  | k :: tail, p, v, hni => by
      have hnik : (canonIdx k).isNone = true := hni k (by simp)
      have hnit : ∀ s ∈ tail, (canonIdx s).isNone = true :=
        fun s hs => hni s (List.mem_cons_of_mem k hs)
      show jsChain (jsIndexOpt (some p) k) tail = some (.vstr v) ↔ _
      cases p with
      | vobj es =>
          have hidx : jsIndexOpt (some (.vobj es)) k = objGetE es k := by
            simp [jsIndexOpt, truthy, jsGet]
          rw [hidx]
          cases hg : objGetE es k with
          | none =>
              rw [jsChain_none, pathValue, hg]
          | some w =>
              rw [pathValue, hg]
              exact jsChain_eq_vstr_iff tail w v hnit
      | vstr s =>
          constructor
          · intro h
            exfalso
            by_cases ht : truthy (.vstr s) = true
            · have hsh := jsGet_nonobj_noIdx (p := .vstr s) (k := k)
                (by simp [isObj]) hnik
              rcases hsh with hsh | ⟨n, hsh⟩
              · rw [show jsIndexOpt (some (.vstr s)) k = none from by
                  simp [jsIndexOpt, ht, hsh], jsChain_none] at h
                simp at h
              · rw [show jsIndexOpt (some (.vstr s)) k = some (.vnum n) from
                  by simp [jsIndexOpt, ht, hsh]] at h
                exact jsChain_vnum tail n v h
            · have hfalse : truthy (.vstr s) = false := by simpa using ht
              rw [show jsIndexOpt (some (.vstr s)) k = none from by
                simp [jsIndexOpt, hfalse], jsChain_none] at h
              simp at h
          · intro h
            simp [pathValue] at h
      | vnum m =>
          constructor
          · intro h
            exfalso
            rw [show jsIndexOpt (some (.vnum m)) k = none from by
              simp [jsIndexOpt, jsGet], jsChain_none] at h
            simp at h
          · intro h
            simp [pathValue] at h
      | vbool b =>
          constructor
          · intro h
            exfalso
            rw [show jsIndexOpt (some (.vbool b)) k = none from by
              simp [jsIndexOpt, jsGet], jsChain_none] at h
            simp at h
          · intro h
            simp [pathValue] at h
      | vnull =>
          constructor
          · intro h
            exfalso
            rw [show jsIndexOpt (some .vnull) k = none from by
              simp [jsIndexOpt, truthy], jsChain_none] at h
            simp at h
          · intro h
            simp [pathValue] at h
      | varr es =>
          constructor
          · intro h
            exfalso
            have hsh := jsGet_nonobj_noIdx (p := .varr es) (k := k)
              (by simp [isObj]) hnik
            rcases hsh with hsh | ⟨n, hsh⟩
            · rw [show jsIndexOpt (some (.varr es)) k = none from by
                simp [jsIndexOpt, truthy, hsh], jsChain_none] at h
              simp at h
            · rw [show jsIndexOpt (some (.varr es)) k = some (.vnum n) from
                by simp [jsIndexOpt, truthy, hsh]] at h
              exact jsChain_vnum tail n v h
          · intro h
            simp [pathValue] at h

mutual
/-- Keys that are not the dotted join of any string-leaf path of the current
(sub)document are untouched by `getChangedStrings`. -/
theorem gcs_preserved : ∀ (cur : JVal) (prev : Option JVal)
    (c : List (String × String)) (pfx k : String),
    nodupKeys cur = true →
    (∀ segs v', segs ≠ [] → pathValue cur segs = some (.vstr v') →
      joinUnder pfx segs ≠ k) →
    chGet (getChangedStrings cur prev c pfx) k = chGet c k
  | .vobj es, prev, c, pfx, k => by
      intro hnd hcond
      simp only [nodupKeys, Bool.and_eq_true] at hnd
      exact gcsE_preserved es prev c pfx k (of_decide_eq_true hnd.1)
        hnd.2 hcond
  | .vstr a, prev, c, pfx, k => by
      intro _ _
      simp [getChangedStrings]
  | .vnum a, prev, c, pfx, k => by
      intro _ _
      simp [getChangedStrings]
  | .vbool a, prev, c, pfx, k => by
      intro _ _
      simp [getChangedStrings]
  | .vnull, prev, c, pfx, k => by
      intro _ _
      simp [getChangedStrings]
  | .varr a, prev, c, pfx, k => by
      intro _ _
      simp [getChangedStrings]
theorem gcsE_preserved : ∀ (es : List (String × JVal)) (prev : Option JVal)
    (c : List (String × String)) (pfx k : String),
    (es.map Prod.fst).Nodup → nodupKeysE es = true →
    (∀ segs v', segs ≠ [] → pathValue (.vobj es) segs = some (.vstr v') →
      joinUnder pfx segs ≠ k) →
    chGet (gcsEntries es prev c pfx) k = chGet c k
  | [], _, c, pfx, k => by
      intro _ _ _
      simp [gcsEntries]
  | (key, v) :: rest, prev, c, pfx, k => by
      intro hnd hndE hcond
      simp only [List.map_cons, List.nodup_cons] at hnd
      simp only [nodupKeysE, Bool.and_eq_true] at hndE
      have hcondR : ∀ segs v', segs ≠ [] →
          pathValue (.vobj rest) segs = some (.vstr v') →
          joinUnder pfx segs ≠ k := by
        intro segs v' hne hpv
        cases segs with
        | nil => exact absurd rfl hne
        | cons k2 t =>
            have hk2 : key ≠ k2 := by
              intro hc
              exact hnd.1 (hc ▸ pathValue_head_mem hpv)
            exact hcond (k2 :: t) v' hne
              (by rw [pathValue_cons_of_ne hk2]; exact hpv)
      cases v with
      | vstr s =>
          rw [show gcsEntries ((key, JVal.vstr s) :: rest) prev c pfx
              = gcsEntries rest prev
                  (if jsIndexOpt prev key = some (.vstr s) then c
                   else chSet c (jsKey pfx key) s) pfx from by
            simp [gcsEntries]]
          rw [gcsE_preserved rest prev _ pfx k hnd.2 hndE.2 hcondR]
          by_cases hd : jsIndexOpt prev key = some (.vstr s)
          · rw [if_pos hd]
          · rw [if_neg hd]
            refine chGet_chSet_ne c (jsKey pfx key) k s ?_
            exact Ne.symm (hcond [key] s (by simp)
              (by simp [pathValue, objGetE]))
      | vobj ves =>
          rw [show gcsEntries ((key, JVal.vobj ves) :: rest) prev c pfx
              = gcsEntries rest prev
                  (getChangedStrings (.vobj ves) (jsIndexOpt prev key) c
                    (jsKey pfx key)) pfx from by
            simp [gcsEntries]]
          rw [gcsE_preserved rest prev _ pfx k hnd.2 hndE.2 hcondR]
          refine gcs_preserved (.vobj ves) (jsIndexOpt prev key) c
            (jsKey pfx key) k hndE.1 ?_
          intro segs2 v' hne2 hpv2
          exact hcond (key :: segs2) v' (by simp)
            (by simpa [pathValue, objGetE] using hpv2)
      | vnum a =>
          rw [show gcsEntries ((key, JVal.vnum a) :: rest) prev c pfx
              = gcsEntries rest prev c pfx from by simp [gcsEntries]]
          exact gcsE_preserved rest prev c pfx k hnd.2 hndE.2 hcondR
      | vbool a =>
          rw [show gcsEntries ((key, JVal.vbool a) :: rest) prev c pfx
              = gcsEntries rest prev c pfx from by simp [gcsEntries]]
          exact gcsE_preserved rest prev c pfx k hnd.2 hndE.2 hcondR
      | vnull =>
          rw [show gcsEntries ((key, JVal.vnull) :: rest) prev c pfx
              = gcsEntries rest prev c pfx from by simp [gcsEntries]]
          exact gcsE_preserved rest prev c pfx k hnd.2 hndE.2 hcondR
      | varr a =>
          rw [show gcsEntries ((key, JVal.varr a) :: rest) prev c pfx
              = gcsEntries rest prev c pfx from by simp [gcsEntries]]
          exact gcsE_preserved rest prev c pfx k hnd.2 hndE.2 hcondR
end

mutual
theorem wfKeys_nodupKeys : ∀ v : JVal, wfKeys v = true → nodupKeys v = true
  | .vobj es => by
      intro h
      rcases wfKeys_vobj_iff.mp h with ⟨h1, h2⟩
      simp only [nodupKeys, Bool.and_eq_true, decide_eq_true_iff]
      exact ⟨h1, wfKeysE_nodupKeysE es h2⟩
  | .vstr a => fun _ => rfl
  | .vnum a => fun _ => rfl
  | .vbool a => fun _ => rfl
  | .vnull => fun _ => rfl
  | .varr a => fun _ => rfl
theorem wfKeysE_nodupKeysE : ∀ es : List (String × JVal),
    wfKeysE es = true → nodupKeysE es = true
  | [] => fun _ => rfl
  | (k, v) :: rest => by
      intro h
      simp only [wfKeysE, Bool.and_eq_true] at h
      simp only [nodupKeysE, Bool.and_eq_true]
      exact ⟨wfKeys_nodupKeys v h.1.2, wfKeysE_nodupKeysE rest h.2⟩
end

/-- In a context where `key0` does not occur among the keys of `rest`, no
string-leaf path of `rest` joins to the same dotted key as `key0 :: segs2`. -/
theorem gcs_restCond {rest : List (String × JVal)} (pfx : String)
    {key0 : String}
    {segs2 : List String} (hwfrest : wfKeys (.vobj rest) = true)
    (hnotin : key0 ∉ rest.map Prod.fst)
    (hgood : ∀ s ∈ key0 :: segs2, goodKey s = true) :
    ∀ segs v', segs ≠ [] → pathValue (.vobj rest) segs = some (.vstr v') →
      joinUnder pfx segs ≠ joinUnder pfx (key0 :: segs2) := by
  intro segs v' hne hpv hj
  have hgood2 : ∀ s ∈ segs, goodKey s = true :=
    pathValue_good_segs segs _ _ hwfrest hpv
  have heq := joinUnder_inj pfx hne (by simp) hgood2 hgood hj
  cases segs with
  | nil => exact absurd rfl hne
  | cons k2 t =>
      have hk2 : k2 = key0 := (List.cons.inj heq).1
      exact hnotin (hk2 ▸ pathValue_head_mem hpv)

mutual
/-- Completeness of the delta map: every string-leaf path of the current
(sub)document whose guarded previous-value chain does not yield the same
string ends up in the delta map under its dotted key, with the current
value. -/
theorem gcs_complete : ∀ (cur : JVal) (prev : Option JVal)
    (c : List (String × String)) (pfx : String) (segs : List String)
    (v : String),
    wfKeys cur = true → segs ≠ [] →
    pathValue cur segs = some (.vstr v) →
    jsChain prev segs ≠ some (.vstr v) →
    chGet (getChangedStrings cur prev c pfx) (joinUnder pfx segs) = some v
  | .vobj es, prev, c, pfx, segs, v => by
      intro hwf hne hpv hchain
      exact gcsE_complete es prev c pfx segs v hwf hne hpv hchain
  | .vstr a, prev, c, pfx, segs, v => by
      intro _ hne hpv _
      cases segs with
      | nil => exact absurd rfl hne
      | cons k t => simp [pathValue] at hpv
  | .vnum a, prev, c, pfx, segs, v => by
      intro _ hne hpv _
      cases segs with
      | nil => exact absurd rfl hne
      | cons k t => simp [pathValue] at hpv
  | .vbool a, prev, c, pfx, segs, v => by
      intro _ hne hpv _
      cases segs with
      | nil => exact absurd rfl hne
      | cons k t => simp [pathValue] at hpv
  | .vnull, prev, c, pfx, segs, v => by
      intro _ hne hpv _
      cases segs with
      | nil => exact absurd rfl hne
      | cons k t => simp [pathValue] at hpv
  | .varr a, prev, c, pfx, segs, v => by
      intro _ hne hpv _
      cases segs with
      | nil => exact absurd rfl hne
      | cons k t => simp [pathValue] at hpv
theorem gcsE_complete : ∀ (es : List (String × JVal)) (prev : Option JVal)
    (c : List (String × String)) (pfx : String) (segs : List String)
    (v : String),
    wfKeys (.vobj es) = true → segs ≠ [] →
    pathValue (.vobj es) segs = some (.vstr v) →
    jsChain prev segs ≠ some (.vstr v) →
    chGet (gcsEntries es prev c pfx) (joinUnder pfx segs) = some v
  | [], prev, c, pfx, segs, v => by
      intro _ hne hpv _
      cases segs with
      | nil => exact absurd rfl hne
      | cons k t => simp [pathValue, objGetE] at hpv
  | (key, v') :: rest, prev, c, pfx, segs, v => by
      intro hwf hne hpv hchain
      rcases wfKeys_vobj_iff.mp hwf with ⟨hnd, hwfE⟩
      simp only [List.map_cons, List.nodup_cons] at hnd
      simp only [wfKeysE, Bool.and_eq_true] at hwfE
      have hwfrest : wfKeys (.vobj rest) = true :=
        wfKeys_vobj_iff.mpr ⟨hnd.2, hwfE.2⟩
      have hndErest : nodupKeysE rest = true := wfKeysE_nodupKeysE rest hwfE.2
      cases segs with
      | nil => exact absurd rfl hne
      | cons k0 segs2 =>
          by_cases hk : key = k0
          · subst hk
            have hpv2 : pathValue v' segs2 = some (.vstr v) := by
              simpa [pathValue, objGetE] using hpv
            have hchain2 : jsChain (jsIndexOpt prev key) segs2
                ≠ some (.vstr v) := hchain
            cases segs2 with
            | nil =>
                have hv' : v' = .vstr v := by simpa [pathValue] using hpv2
                subst hv'
                have hd : ¬(jsIndexOpt prev key = some (.vstr v)) := by
                  simpa [jsChain] using hchain2
                rw [show gcsEntries ((key, JVal.vstr v) :: rest) prev c pfx
                    = gcsEntries rest prev (chSet c (jsKey pfx key) v) pfx
                  from by simp [gcsEntries, hd]]
                have hcondR := gcs_restCond pfx hwfrest hnd.1
                  (fun s hs => by
                    rcases List.mem_cons.mp hs with he | hm
                    · exact he ▸ hwfE.1.1
                    · exact absurd hm (List.not_mem_nil s))
                rw [gcsE_preserved rest prev _ pfx _ hnd.2 hndErest hcondR]
                exact chGet_chSet_self c (jsKey pfx key) v
            | cons b t =>
                cases v' with
                | vobj ves =>
                    rw [show gcsEntries ((key, JVal.vobj ves) :: rest) prev
                          c pfx
                        = gcsEntries rest prev
                            (getChangedStrings (.vobj ves)
                              (jsIndexOpt prev key) c (jsKey pfx key)) pfx
                      from by simp [gcsEntries]]
                    have hgoodbt : ∀ s ∈ b :: t, goodKey s = true :=
                      pathValue_good_segs (b :: t) _ _ hwfE.1.2 hpv2
                    have hcondR := gcs_restCond pfx hwfrest hnd.1
                      (fun s hs => by
                        rcases List.mem_cons.mp hs with he | hm
                        · exact he ▸ hwfE.1.1
                        · exact hgoodbt s hm)
                    rw [gcsE_preserved rest prev _ pfx _ hnd.2 hndErest
                      hcondR]
                    exact gcs_complete (.vobj ves) (jsIndexOpt prev key) c
                      (jsKey pfx key) (b :: t) v hwfE.1.2 (by simp) hpv2
                      hchain2
                | vstr a => simp [pathValue] at hpv2
                | vnum a => simp [pathValue] at hpv2
                | vbool a => simp [pathValue] at hpv2
                | vnull => simp [pathValue] at hpv2
                | varr a => simp [pathValue] at hpv2
          · have hpvR : pathValue (.vobj rest) (k0 :: segs2)
                = some (.vstr v) := by
              rw [← pathValue_cons_of_ne hk]
              exact hpv
            have hfin : ∀ c2 : List (String × String),
                chGet (gcsEntries rest prev c2 pfx)
                  (joinUnder pfx (k0 :: segs2)) = some v :=
              fun c2 => gcsE_complete rest prev c2 pfx (k0 :: segs2) v
                hwfrest (by simp) hpvR hchain
            cases v' with
            | vstr a =>
                rw [show gcsEntries ((key, JVal.vstr a) :: rest) prev c pfx
                    = gcsEntries rest prev
                        (if jsIndexOpt prev key = some (.vstr a) then c
                         else chSet c (jsKey pfx key) a) pfx from by
                  simp [gcsEntries]]
                exact hfin _
            | vobj ves =>
                rw [show gcsEntries ((key, JVal.vobj ves) :: rest) prev c
                      pfx
                    = gcsEntries rest prev
                        (getChangedStrings (.vobj ves) (jsIndexOpt prev key)
                          c (jsKey pfx key)) pfx from by simp [gcsEntries]]
                exact hfin _
            | vnum a =>
                rw [show gcsEntries ((key, JVal.vnum a) :: rest) prev c pfx
                    = gcsEntries rest prev c pfx from by simp [gcsEntries]]
                exact hfin _
            | vbool a =>
                rw [show gcsEntries ((key, JVal.vbool a) :: rest) prev c pfx
                    = gcsEntries rest prev c pfx from by simp [gcsEntries]]
                exact hfin _
            | vnull =>
                rw [show gcsEntries ((key, JVal.vnull) :: rest) prev c pfx
                    = gcsEntries rest prev c pfx from by simp [gcsEntries]]
                exact hfin _
            | varr a =>
                rw [show gcsEntries ((key, JVal.varr a) :: rest) prev c pfx
                    = gcsEntries rest prev c pfx from by simp [gcsEntries]]
                exact hfin _
end

/-- Counterexample to C2 as stated: with current `{"a.b": "x", a: {b:
"y"}}` and previous `{a: {b: "y"}}`, the flat key path `a.b` has the
identical string value `"y"` at path `[a, b]` in both snapshots, yet the
key `a.b` appears in the delta (the dotted top-level key `"a.b"` collides
with the joined nested path and is recorded — even mapped to the other
occurrence's value `"x"`). -/
theorem claim_C2_counterexample :
    pathValue (.vobj [("a.b", .vstr "x"), ("a", .vobj [("b", .vstr "y")])])
        ["a", "b"] = some (.vstr "y") ∧
    pathValue (.vobj [("a", .vobj [("b", .vstr "y")])]) ["a", "b"]
      = some (.vstr "y") ∧
    chGet (getChangedStringsTop
        (.vobj [("a.b", .vstr "x"), ("a", .vobj [("b", .vstr "y")])])
        (.vobj [("a", .vobj [("b", .vstr "y")])])) (joinSegs ["a", "b"])
      = some "x" := by decide

/-- C2 amended: provided the current document's mapping keys are nonempty,
dot-free, not canonical numeric indices and (as JS guarantees) unique, the
delta map contains exactly the flat key paths reachable in `current` whose
value is a string differing from the value at the same path in `previous`
(missing counts as different, and a value reachable only through a
non-mapping node of `previous` counts as missing), each mapped to the new
current value; no path with an identical string value in both snapshots
appears.  The key-shape hypotheses are what the counterexample forces:
dotted keys collide after joining, and numeric keys would let JS index into
previous-snapshot strings/arrays. -/
theorem claim_C2_delta_exactness (es : List (String × JVal)) (prev : JVal)
    (hwf : wfKeys (.vobj es) = true) (hni : noIdxKeys (.vobj es) = true)
    (k v : String) :
    chGet (getChangedStringsTop (.vobj es) prev) k = some v ↔
    ∃ segs, segs ≠ [] ∧ k = joinSegs segs ∧
      pathValue (.vobj es) segs = some (.vstr v) ∧
      pathValue prev segs ≠ some (.vstr v) := by
  constructor
  · intro h
    have hmem := chGet_some_mem _ k v h
    rcases gcs_mem (.vobj es) (some prev) [] "" (k, v) hmem
        (wfKeys_nodupKeys _ hwf) with hc | ⟨segs, hne, hj, hpv, hchain⟩
    · simp at hc
    · have hgood := pathValue_good_segs segs _ _ hwf hpv
      have hnis := pathValue_noIdx_segs segs _ _ hni hpv
      have hj2 : k = joinUnder "" segs := hj
      refine ⟨segs, hne, ?_, hpv, ?_⟩
      · rw [hj2, joinUnder_eq_jsKey segs "" hne hgood]
        simp [jsKey]
      · intro hcontra
        exact hchain ((jsChain_eq_vstr_iff segs prev v hnis).mpr hcontra)
  · rintro ⟨segs, hne, hj, hpv, hprev⟩
    have hgood := pathValue_good_segs segs _ _ hwf hpv
    have hnis := pathValue_noIdx_segs segs _ _ hni hpv
    have hcc := gcs_complete (.vobj es) (some prev) [] "" segs v hwf hne hpv
      (fun hc => hprev ((jsChain_eq_vstr_iff segs prev v hnis).mp hc))
    rw [joinUnder_eq_jsKey segs "" hne hgood] at hcc
    rw [hj]
    simpa [jsKey] using hcc

/-- Witness for the amended C2 at the spec's concrete scenario: the delta of
current `{a: {b: "Hello"}, c: "Bye"}` against previous `{a: {b: "Hello"},
c: "Goodbye"}` holds `c ↦ "Bye"`, and the theorem recovers the path. -/
theorem claim_C2_delta_exactness_witness :
    ∃ segs, segs ≠ [] ∧ "c" = joinSegs segs ∧
      pathValue (.vobj [("a", .vobj [("b", .vstr "Hello")]),
        ("c", .vstr "Bye")]) segs = some (.vstr "Bye") ∧
      pathValue (.vobj [("a", .vobj [("b", .vstr "Hello")]),
        ("c", .vstr "Goodbye")]) segs ≠ some (.vstr "Bye") :=
  (claim_C2_delta_exactness
    [("a", .vobj [("b", .vstr "Hello")]), ("c", .vstr "Bye")]
    (.vobj [("a", .vobj [("b", .vstr "Hello")]), ("c", .vstr "Goodbye")])
    (by decide) (by decide) "c" "Bye").mp (by decide)

/-! ### Claims C5 and C4 — the state-tracking script's per-locale sync -/

theorem noArrE_mem : ∀ (es : List (String × JVal)) (k : String) (w : JVal),
    noArrE es = true → (k, w) ∈ es → noArr w = true
  | [], _, _, _, hm => by simp at hm
  | (k2, v) :: rest, k, w, hna, hm => by
      simp only [noArrE, Bool.and_eq_true] at hna
      rcases List.mem_cons.mp hm with he | hm2
      · injection he with h1 h2
        subst h2
        exact hna.1
      · exact noArrE_mem rest k w hna.2 hm2

theorem noArrE_objSetE : ∀ (es : List (String × JVal)) (k : String)
    (w : JVal), noArrE es = true → noArr w = true →
    noArrE (objSetE es k w) = true
  | [], k, w, _, hw => by simp [objSetE, noArrE, hw]
  | (k2, v) :: rest, k, w, hna, hw => by
      simp only [noArrE, Bool.and_eq_true] at hna
      by_cases he : k2 = k
      · simp [objSetE, he, noArrE, hw, hna.2]
      · simp only [objSetE, if_neg he, noArrE, Bool.and_eq_true]
        exact ⟨hna.1, noArrE_objSetE rest k w hna.2 hw⟩

/-- `setDeepSt` keeps a plain object a plain object. -/
theorem setDeepStGo_isObj : ∀ (parts : List String)
    (aes : List (String × JVal)) (v : JVal),
    ∃ ws, setDeepStGo (.vobj aes) parts v = .vobj ws
  | [], aes, v => ⟨aes, rfl⟩
  | [last], aes, v => ⟨objSetE aes last v, rfl⟩
  | key :: r :: rest, aes, v => ⟨_, rfl⟩

/-- The coercion of the state-tracking `setDeep` at an intermediate segment,
on array-free objects, always continues into a plain object. -/
theorem setDeepStGo_coerced_obj {aes : List (String × JVal)}
    (key : String) (hna : noArrE aes = true) :
    ∃ es2 : List (String × JVal), noArrE es2 = true ∧
      (match objGetE aes key with
        | some c => if keepsP1 c then c else JVal.vobj []
        | none => JVal.vobj []) = JVal.vobj es2 := by
  cases hg : objGetE aes key with
  | none => exact ⟨[], rfl, rfl⟩
  | some c =>
      have hnac := noArrE_mem aes key c hna (objGetE_some_mem aes key c hg)
      cases c with
      | vobj ws => exact ⟨ws, by simpa [noArr] using hnac, by simp [keepsP1]⟩
      | varr l => simp [noArr] at hnac
      | vstr a => exact ⟨[], rfl, by simp [keepsP1]⟩
      | vnum a => exact ⟨[], rfl, by simp [keepsP1]⟩
      | vbool a => exact ⟨[], rfl, by simp [keepsP1]⟩
      | vnull => exact ⟨[], rfl, by simp [keepsP1]⟩

theorem setDeepStGo_noArr : ∀ (parts : List String)
    (aes : List (String × JVal)) (str : String),
    noArrE aes = true →
    ∃ ws, setDeepStGo (.vobj aes) parts (.vstr str) = .vobj ws ∧
      noArrE ws = true
  | [], aes, str, hna => ⟨aes, rfl, hna⟩
  | [last], aes, str, hna =>
      ⟨objSetE aes last (.vstr str), rfl,
        noArrE_objSetE aes last _ hna rfl⟩
  | key :: r :: rest, aes, str, hna => by
      obtain ⟨es2, hna2, h2⟩ := setDeepStGo_coerced_obj key hna
      obtain ⟨ws, hws, hnaws⟩ := setDeepStGo_noArr (r :: rest) es2 str hna2
      refine ⟨objSetE aes key (.vobj ws), ?_, ?_⟩
      · show JVal.vobj (objSetE aes key (setDeepStGo _ (r :: rest)
          (.vstr str))) = _
        rw [h2, hws]
      · exact noArrE_objSetE aes key _ hna (by simpa [noArr] using hnaws)

theorem setDeepStGo_pathValue : ∀ (parts : List String)
    (aes : List (String × JVal)) (str : String), parts ≠ [] →
    noArrE aes = true →
    pathValue (setDeepStGo (.vobj aes) parts (.vstr str)) parts
      = some (.vstr str)
  | [], _, _, h, _ => absurd rfl h
  | [last], aes, str, _, _ => by
      simp [setDeepStGo, pathValue, objGetE_objSetE_self]
  | key :: r :: rest, aes, str, _, hna => by
      obtain ⟨es2, hna2, h2⟩ := setDeepStGo_coerced_obj key hna
      have ih := setDeepStGo_pathValue (r :: rest) es2 str (by simp) hna2
      simp only [setDeepStGo, h2, pathValue, objGetE_objSetE_self]
      exact ih

/-- Inserting along a path not prefix-related to `parts1` does not change
the value at `parts1` (on array-free objects). -/
theorem setDeepStGo_preserve : ∀ (parts2 : List String)
    (aes : List (String × JVal)) (str : String) (parts1 : List String),
    noArrE aes = true →
    ¬(parts2 <+: parts1) → ¬(parts1 <+: parts2) →
    pathValue (setDeepStGo (.vobj aes) parts2 (.vstr str)) parts1
      = pathValue (.vobj aes) parts1
  | [], _, _, parts1, _, h2, _ => absurd List.nil_prefix h2
  | parts2, aes, str, [], _, _, h1 => absurd List.nil_prefix h1
  | [b], aes, str, a :: t1, _, h2, h1 => by
      have hab : b ≠ a := by
        intro hc
        subst hc
        exact h2 ⟨t1, rfl⟩
      simp only [setDeepStGo]
      cases t1 with
      | nil => simp [pathValue, objGetE_objSetE_ne aes b a _ (Ne.symm hab)]
      | cons c t2 =>
          simp [pathValue, objGetE_objSetE_ne aes b a _ (Ne.symm hab)]
  | b :: r2 :: rest2, aes, str, a :: t1, hna, h2, h1 => by
      obtain ⟨es2, hna2, hco⟩ := setDeepStGo_coerced_obj b hna
      by_cases hab : b = a
      · subst hab
        have ht1ne : t1 ≠ [] := by
          rintro rfl
          exact h1 ⟨r2 :: rest2, rfl⟩
        have h2t : ¬((r2 :: rest2) <+: t1) := by
          intro hc
          exact h2 (List.cons_prefix_cons.mpr ⟨rfl, hc⟩)
        have h1t : ¬(t1 <+: (r2 :: rest2)) := by
          intro hc
          exact h1 (List.cons_prefix_cons.mpr ⟨rfl, hc⟩)
        simp only [setDeepStGo, pathValue, objGetE_objSetE_self]
        rw [hco]
        rw [setDeepStGo_preserve (r2 :: rest2) es2 str t1 hna2 h2t h1t]
        -- relate the value below the coerced child with the original
        cases hg : objGetE aes b with
        | none =>
            have hes2 : es2 = [] := by
              rw [hg] at hco
              have h4 : JVal.vobj [] = JVal.vobj es2 := hco
              injection h4 with h5
              exact h5.symm
            subst hes2
            cases t1 with
            | nil => exact absurd rfl ht1ne
            | cons c t2 => simp [pathValue, objGetE]
        | some c =>
            cases c with
            | vobj ws =>
                have h4 : JVal.vobj ws = JVal.vobj es2 := by
                  rw [hg] at hco
                  exact hco
                injection h4 with h5
                subst h5
                rfl
            | varr l =>
                exfalso
                have := noArrE_mem aes b _ hna (objGetE_some_mem aes b _ hg)
                simp [noArr] at this
            | vstr x =>
                have h4 : JVal.vobj [] = JVal.vobj es2 := by
                  rw [hg] at hco
                  exact hco
                injection h4 with h5
                subst h5
                cases t1 with
                | nil => exact absurd rfl ht1ne
                | cons c2 t2 => simp [pathValue, objGetE]
            | vnum x =>
                have h4 : JVal.vobj [] = JVal.vobj es2 := by
                  rw [hg] at hco
                  exact hco
                injection h4 with h5
                subst h5
                cases t1 with
                | nil => exact absurd rfl ht1ne
                | cons c2 t2 => simp [pathValue, objGetE]
            | vbool x =>
                have h4 : JVal.vobj [] = JVal.vobj es2 := by
                  rw [hg] at hco
                  exact hco
                injection h4 with h5
                subst h5
                cases t1 with
                | nil => exact absurd rfl ht1ne
                | cons c2 t2 => simp [pathValue, objGetE]
            | vnull =>
                have h4 : JVal.vobj [] = JVal.vobj es2 := by
                  rw [hg] at hco
                  exact hco
                injection h4 with h5
                subst h5
                cases t1 with
                | nil => exact absurd rfl ht1ne
                | cons c2 t2 => simp [pathValue, objGetE]
      · simp only [setDeepStGo, pathValue,
          objGetE_objSetE_ne aes b a _ (Ne.symm hab)]

theorem chSet_keys_subset : ∀ (l : List (String × String)) (k v a : String),
    a ∈ (chSet l k v).map Prod.fst → a ∈ l.map Prod.fst ∨ a = k := by
  intro l k v a ha
  rcases List.mem_map.mp ha with ⟨kv, hkv, hfst⟩
  rcases mem_chSet l k v kv hkv with hold | hnew
  · exact Or.inl (hfst ▸ List.mem_map_of_mem Prod.fst hold)
  · subst hnew
    exact Or.inr hfst.symm

theorem chSet_nodup_keys : ∀ (l : List (String × String)) (k v : String),
    (l.map Prod.fst).Nodup → ((chSet l k v).map Prod.fst).Nodup
  | [], k, v, _ => by simp [chSet]
  | (k2, w) :: rest, k, v, hnd => by
      simp only [List.map_cons, List.nodup_cons] at hnd
      by_cases he : k2 = k
      · subst he
        simpa [chSet, List.nodup_cons] using hnd
      · simp only [chSet, if_neg he, List.map_cons, List.nodup_cons]
        refine ⟨?_, chSet_nodup_keys rest k v hnd.2⟩
        intro hc
        rcases chSet_keys_subset rest k v k2 hc with h | h
        · exact hnd.1 h
        · exact he h

mutual
theorem gas_nodup : ∀ (cur : JVal) (acc : List (String × String))
    (pfx : String), (acc.map Prod.fst).Nodup →
    ((getAllStringsFromObject cur acc pfx).map Prod.fst).Nodup
  | .vobj es, acc, pfx => fun h => gasE_nodup es acc pfx h
  | .vstr a, acc, pfx => fun h => h
  | .vnum a, acc, pfx => fun h => h
  | .vbool a, acc, pfx => fun h => h
  | .vnull, acc, pfx => fun h => h
  | .varr a, acc, pfx => fun h => h
theorem gasE_nodup : ∀ (es : List (String × JVal))
    (acc : List (String × String)) (pfx : String),
    (acc.map Prod.fst).Nodup →
    ((gasEntries es acc pfx).map Prod.fst).Nodup
  | [], acc, pfx => fun h => h
  | (key, v) :: rest, acc, pfx => by
      intro h
      cases v with
      | vstr s =>
          exact gasE_nodup rest _ pfx (chSet_nodup_keys acc _ s h)
      | vobj ves =>
          exact gasE_nodup rest _ pfx
            (gas_nodup (.vobj ves) acc (jsKey pfx key) h)
      | vnum a => exact gasE_nodup rest acc pfx h
      | vbool a => exact gasE_nodup rest acc pfx h
      | vnull => exact gasE_nodup rest acc pfx h
      | varr a => exact gasE_nodup rest acc pfx h
end

mutual
/-- Every entry collected by `getAllStringsFromObject` beyond the
accumulator is a dot-joined string-leaf path with its value. -/
theorem gas_mem : ∀ (cur : JVal) (acc : List (String × String))
    (pfx : String) (kv : String × String),
    kv ∈ getAllStringsFromObject cur acc pfx → nodupKeys cur = true →
    kv ∈ acc ∨ ∃ segs, segs ≠ [] ∧ kv.1 = joinUnder pfx segs ∧
      pathValue cur segs = some (.vstr kv.2)
  | .vobj es, acc, pfx, kv => by
      intro hmem hnd
      simp only [nodupKeys, Bool.and_eq_true] at hnd
      exact gasE_mem es acc pfx kv hmem (of_decide_eq_true hnd.1) hnd.2
  | .vstr a, acc, pfx, kv => fun hmem _ => Or.inl hmem
  | .vnum a, acc, pfx, kv => fun hmem _ => Or.inl hmem
  | .vbool a, acc, pfx, kv => fun hmem _ => Or.inl hmem
  | .vnull, acc, pfx, kv => fun hmem _ => Or.inl hmem
  | .varr a, acc, pfx, kv => fun hmem _ => Or.inl hmem
theorem gasE_mem : ∀ (es : List (String × JVal))
    (acc : List (String × String)) (pfx : String) (kv : String × String),
    kv ∈ gasEntries es acc pfx →
    (es.map Prod.fst).Nodup → nodupKeysE es = true →
    kv ∈ acc ∨ ∃ segs, segs ≠ [] ∧ kv.1 = joinUnder pfx segs ∧
      pathValue (.vobj es) segs = some (.vstr kv.2)
  | [], acc, pfx, kv => fun hmem _ _ => Or.inl hmem
  | (key, v) :: rest, acc, pfx, kv => by
      intro hmem hnd hndE
      simp only [List.map_cons, List.nodup_cons] at hnd
      simp only [nodupKeysE, Bool.and_eq_true] at hndE
      have hlift : ∀ segs, segs ≠ [] →
          pathValue (.vobj rest) segs = some (.vstr kv.2) →
          pathValue (.vobj ((key, v) :: rest)) segs = some (.vstr kv.2) := by
        intro segs hne hpv
        cases segs with
        | nil => exact absurd rfl hne
        | cons k2 tail =>
            have hk2 : key ≠ k2 := by
              intro hc
              exact hnd.1 (hc ▸ pathValue_head_mem hpv)
            rw [pathValue_cons_of_ne hk2]
            exact hpv
      cases v with
      | vstr s =>
          rw [show gasEntries ((key, JVal.vstr s) :: rest) acc pfx
              = gasEntries rest (chSet acc (jsKey pfx key) s) pfx from by
            simp [gasEntries]] at hmem
          rcases gasE_mem rest _ pfx kv hmem hnd.2 hndE.2 with
            hch | ⟨segs, hne, hj, hpv⟩
          · rcases mem_chSet acc _ s kv hch with hold | hnew
            · exact Or.inl hold
            · subst hnew
              exact Or.inr ⟨[key], by simp, rfl, by simp [pathValue, objGetE]⟩
          · exact Or.inr ⟨segs, hne, hj, hlift segs hne hpv⟩
      | vobj ves =>
          rw [show gasEntries ((key, JVal.vobj ves) :: rest) acc pfx
              = gasEntries rest
                  (getAllStringsFromObject (.vobj ves) acc (jsKey pfx key))
                  pfx from by simp [gasEntries]] at hmem
          rcases gasE_mem rest _ pfx kv hmem hnd.2 hndE.2 with
            hch | ⟨segs, hne, hj, hpv⟩
          · rcases gas_mem (.vobj ves) acc (jsKey pfx key) kv hch hndE.1
              with hold | ⟨segs2, hne2, hj2, hpv2⟩
            · exact Or.inl hold
            · refine Or.inr ⟨key :: segs2, by simp, hj2, ?_⟩
              simpa [pathValue, objGetE] using hpv2
          · exact Or.inr ⟨segs, hne, hj, hlift segs hne hpv⟩
      | vnum a =>
          rw [show gasEntries ((key, JVal.vnum a) :: rest) acc pfx
              = gasEntries rest acc pfx from by simp [gasEntries]] at hmem
          rcases gasE_mem rest acc pfx kv hmem hnd.2 hndE.2 with
            hch | ⟨segs, hne, hj, hpv⟩
          · exact Or.inl hch
          · exact Or.inr ⟨segs, hne, hj, hlift segs hne hpv⟩
      | vbool a =>
          rw [show gasEntries ((key, JVal.vbool a) :: rest) acc pfx
              = gasEntries rest acc pfx from by simp [gasEntries]] at hmem
          rcases gasE_mem rest acc pfx kv hmem hnd.2 hndE.2 with
            hch | ⟨segs, hne, hj, hpv⟩
          · exact Or.inl hch
          · exact Or.inr ⟨segs, hne, hj, hlift segs hne hpv⟩
      | vnull =>
          rw [show gasEntries ((key, JVal.vnull) :: rest) acc pfx
              = gasEntries rest acc pfx from by simp [gasEntries]] at hmem
          rcases gasE_mem rest acc pfx kv hmem hnd.2 hndE.2 with
            hch | ⟨segs, hne, hj, hpv⟩
          · exact Or.inl hch
          · exact Or.inr ⟨segs, hne, hj, hlift segs hne hpv⟩
      | varr a =>
          rw [show gasEntries ((key, JVal.varr a) :: rest) acc pfx
              = gasEntries rest acc pfx from by simp [gasEntries]] at hmem
          rcases gasE_mem rest acc pfx kv hmem hnd.2 hndE.2 with
            hch | ⟨segs, hne, hj, hpv⟩
          · exact Or.inl hch
          · exact Or.inr ⟨segs, hne, hj, hlift segs hne hpv⟩
end

mutual
theorem gas_preserved : ∀ (cur : JVal) (acc : List (String × String))
    (pfx k : String),
    nodupKeys cur = true →
    (∀ segs v', segs ≠ [] → pathValue cur segs = some (.vstr v') →
      joinUnder pfx segs ≠ k) →
    chGet (getAllStringsFromObject cur acc pfx) k = chGet acc k
  | .vobj es, acc, pfx, k => by
      intro hnd hcond
      simp only [nodupKeys, Bool.and_eq_true] at hnd
      exact gasE_preserved es acc pfx k (of_decide_eq_true hnd.1)
        hnd.2 hcond
  | .vstr a, acc, pfx, k => by
      intro _ _
      simp [getAllStringsFromObject]
  | .vnum a, acc, pfx, k => by
      intro _ _
      simp [getAllStringsFromObject]
  | .vbool a, acc, pfx, k => by
      intro _ _
      simp [getAllStringsFromObject]
  | .vnull, acc, pfx, k => by
      intro _ _
      simp [getAllStringsFromObject]
  | .varr a, acc, pfx, k => by
      intro _ _
      simp [getAllStringsFromObject]
theorem gasE_preserved : ∀ (es : List (String × JVal))
    (acc : List (String × String)) (pfx k : String),
    (es.map Prod.fst).Nodup → nodupKeysE es = true →
    (∀ segs v', segs ≠ [] → pathValue (.vobj es) segs = some (.vstr v') →
      joinUnder pfx segs ≠ k) →
    chGet (gasEntries es acc pfx) k = chGet acc k
  | [], acc, pfx, k => by
      intro _ _ _
      simp [gasEntries]
  | (key, v) :: rest, acc, pfx, k => by
      intro hnd hndE hcond
      simp only [List.map_cons, List.nodup_cons] at hnd
      simp only [nodupKeysE, Bool.and_eq_true] at hndE
      have hcondR : ∀ segs v', segs ≠ [] →
          pathValue (.vobj rest) segs = some (.vstr v') →
          joinUnder pfx segs ≠ k := by
        intro segs v' hne hpv
        cases segs with
        | nil => exact absurd rfl hne
        | cons k2 t =>
            have hk2 : key ≠ k2 := by
              intro hc
              exact hnd.1 (hc ▸ pathValue_head_mem hpv)
            exact hcond (k2 :: t) v' hne
              (by rw [pathValue_cons_of_ne hk2]; exact hpv)
      cases v with
      | vstr s =>
          rw [show gasEntries ((key, JVal.vstr s) :: rest) acc pfx
              = gasEntries rest (chSet acc (jsKey pfx key) s) pfx from by
            simp [gasEntries]]
          rw [gasE_preserved rest _ pfx k hnd.2 hndE.2 hcondR]
          refine chGet_chSet_ne acc (jsKey pfx key) k s ?_
          exact Ne.symm (hcond [key] s (by simp)
            (by simp [pathValue, objGetE]))
      | vobj ves =>
          rw [show gasEntries ((key, JVal.vobj ves) :: rest) acc pfx
              = gasEntries rest
                  (getAllStringsFromObject (.vobj ves) acc (jsKey pfx key))
                  pfx from by simp [gasEntries]]
          rw [gasE_preserved rest _ pfx k hnd.2 hndE.2 hcondR]
          refine gas_preserved (.vobj ves) acc (jsKey pfx key) k hndE.1 ?_
          intro segs2 v' hne2 hpv2
          exact hcond (key :: segs2) v' (by simp)
            (by simpa [pathValue, objGetE] using hpv2)
      | vnum a =>
          rw [show gasEntries ((key, JVal.vnum a) :: rest) acc pfx
              = gasEntries rest acc pfx from by simp [gasEntries]]
          exact gasE_preserved rest acc pfx k hnd.2 hndE.2 hcondR
      | vbool a =>
          rw [show gasEntries ((key, JVal.vbool a) :: rest) acc pfx
              = gasEntries rest acc pfx from by simp [gasEntries]]
          exact gasE_preserved rest acc pfx k hnd.2 hndE.2 hcondR
      | vnull =>
          rw [show gasEntries ((key, JVal.vnull) :: rest) acc pfx
              = gasEntries rest acc pfx from by simp [gasEntries]]
          exact gasE_preserved rest acc pfx k hnd.2 hndE.2 hcondR
      | varr a =>
          rw [show gasEntries ((key, JVal.varr a) :: rest) acc pfx
              = gasEntries rest acc pfx from by simp [gasEntries]]
          exact gasE_preserved rest acc pfx k hnd.2 hndE.2 hcondR
end

mutual
/-- Completeness of `getAllStringsFromObject`: every string leaf ends up
under its dotted key with its value. -/
theorem gas_complete : ∀ (cur : JVal) (acc : List (String × String))
    (pfx : String) (segs : List String) (v : String),
    wfKeys cur = true → segs ≠ [] →
    pathValue cur segs = some (.vstr v) →
    chGet (getAllStringsFromObject cur acc pfx) (joinUnder pfx segs) = some v
  | .vobj es, acc, pfx, segs, v => by
      intro hwf hne hpv
      exact gasE_complete es acc pfx segs v hwf hne hpv
  | .vstr a, acc, pfx, segs, v => by
      intro _ hne hpv
      cases segs with
      | nil => exact absurd rfl hne
      | cons k t => simp [pathValue] at hpv
  | .vnum a, acc, pfx, segs, v => by
      intro _ hne hpv
      cases segs with
      | nil => exact absurd rfl hne
      | cons k t => simp [pathValue] at hpv
  | .vbool a, acc, pfx, segs, v => by
      intro _ hne hpv
      cases segs with
      | nil => exact absurd rfl hne
      | cons k t => simp [pathValue] at hpv
  | .vnull, acc, pfx, segs, v => by
      intro _ hne hpv
      cases segs with
      | nil => exact absurd rfl hne
      | cons k t => simp [pathValue] at hpv
  | .varr a, acc, pfx, segs, v => by
      intro _ hne hpv
      cases segs with
      | nil => exact absurd rfl hne
      | cons k t => simp [pathValue] at hpv
theorem gasE_complete : ∀ (es : List (String × JVal))
    (acc : List (String × String)) (pfx : String) (segs : List String)
    (v : String),
    wfKeys (.vobj es) = true → segs ≠ [] →
    pathValue (.vobj es) segs = some (.vstr v) →
    chGet (gasEntries es acc pfx) (joinUnder pfx segs) = some v
  | [], acc, pfx, segs, v => by
      intro _ hne hpv
      cases segs with
      | nil => exact absurd rfl hne
      | cons k t => simp [pathValue, objGetE] at hpv
  | (key, v') :: rest, acc, pfx, segs, v => by
      intro hwf hne hpv
      rcases wfKeys_vobj_iff.mp hwf with ⟨hnd, hwfE⟩
      simp only [List.map_cons, List.nodup_cons] at hnd
      simp only [wfKeysE, Bool.and_eq_true] at hwfE
      have hwfrest : wfKeys (.vobj rest) = true :=
        wfKeys_vobj_iff.mpr ⟨hnd.2, hwfE.2⟩
      have hndErest : nodupKeysE rest = true := wfKeysE_nodupKeysE rest hwfE.2
      cases segs with
      | nil => exact absurd rfl hne
      | cons k0 segs2 =>
          by_cases hk : key = k0
          · subst hk
            have hpv2 : pathValue v' segs2 = some (.vstr v) := by
              simpa [pathValue, objGetE] using hpv
            cases segs2 with
            | nil =>
                have hv' : v' = .vstr v := by simpa [pathValue] using hpv2
                subst hv'
                rw [show gasEntries ((key, JVal.vstr v) :: rest) acc pfx
                    = gasEntries rest (chSet acc (jsKey pfx key) v) pfx
                  from by simp [gasEntries]]
                have hcondR := gcs_restCond pfx hwfrest hnd.1
                  (fun s hs => by
                    rcases List.mem_cons.mp hs with he | hm
                    · exact he ▸ hwfE.1.1
                    · exact absurd hm (List.not_mem_nil s))
                rw [gasE_preserved rest _ pfx _ hnd.2 hndErest hcondR]
                exact chGet_chSet_self acc (jsKey pfx key) v
            | cons b t =>
                cases v' with
                | vobj ves =>
                    rw [show gasEntries ((key, JVal.vobj ves) :: rest) acc
                          pfx
                        = gasEntries rest
                            (getAllStringsFromObject (.vobj ves) acc
                              (jsKey pfx key)) pfx
                      from by simp [gasEntries]]
                    have hgoodbt : ∀ s ∈ b :: t, goodKey s = true :=
                      pathValue_good_segs (b :: t) _ _ hwfE.1.2 hpv2
                    have hcondR := gcs_restCond pfx hwfrest hnd.1
                      (fun s hs => by
                        rcases List.mem_cons.mp hs with he | hm
                        · exact he ▸ hwfE.1.1
                        · exact hgoodbt s hm)
                    rw [gasE_preserved rest _ pfx _ hnd.2 hndErest hcondR]
                    exact gas_complete (.vobj ves) acc (jsKey pfx key)
                      (b :: t) v hwfE.1.2 (by simp) hpv2
                | vstr a => simp [pathValue] at hpv2
                | vnum a => simp [pathValue] at hpv2
                | vbool a => simp [pathValue] at hpv2
                | vnull => simp [pathValue] at hpv2
                | varr a => simp [pathValue] at hpv2
          · have hpvR : pathValue (.vobj rest) (k0 :: segs2)
                = some (.vstr v) := by
              rw [← pathValue_cons_of_ne hk]
              exact hpv
            have hfin : ∀ acc2 : List (String × String),
                chGet (gasEntries rest acc2 pfx)
                  (joinUnder pfx (k0 :: segs2)) = some v :=
              fun acc2 => gasE_complete rest acc2 pfx (k0 :: segs2) v
                hwfrest (by simp) hpvR
            cases v' with
            | vstr a =>
                rw [show gasEntries ((key, JVal.vstr a) :: rest) acc pfx
                    = gasEntries rest (chSet acc (jsKey pfx key) a) pfx
                  from by simp [gasEntries]]
                exact hfin _
            | vobj ves =>
                rw [show gasEntries ((key, JVal.vobj ves) :: rest) acc pfx
                    = gasEntries rest
                        (getAllStringsFromObject (.vobj ves) acc
                          (jsKey pfx key)) pfx from by simp [gasEntries]]
                exact hfin _
            | vnum a =>
                rw [show gasEntries ((key, JVal.vnum a) :: rest) acc pfx
                    = gasEntries rest acc pfx from by simp [gasEntries]]
                exact hfin _
            | vbool a =>
                rw [show gasEntries ((key, JVal.vbool a) :: rest) acc pfx
                    = gasEntries rest acc pfx from by simp [gasEntries]]
                exact hfin _
            | vnull =>
                rw [show gasEntries ((key, JVal.vnull) :: rest) acc pfx
                    = gasEntries rest acc pfx from by simp [gasEntries]]
                exact hfin _
            | varr a =>
                rw [show gasEntries ((key, JVal.varr a) :: rest) acc pfx
                    = gasEntries rest acc pfx from by simp [gasEntries]]
                exact hfin _
end

theorem pathValue_append : ∀ (p q : List String) (cur : JVal),
    pathValue cur (p ++ q)
      = match pathValue cur p with
        | some w => pathValue w q
        | none => none
  | [], q, cur => by simp [pathValue]
  | k :: t, q, cur => by
      cases cur with
      | vobj es =>
          show pathValue (.vobj es) (k :: (t ++ q)) = _
          cases hg : objGetE es k with
          | none => simp [pathValue, hg]
          | some w => simp [pathValue, hg, pathValue_append t q w]
      | vstr a => simp [pathValue]
      | vnum a => simp [pathValue]
      | vbool a => simp [pathValue]
      | vnull => simp [pathValue]
      | varr a => simp [pathValue]

/-- A string-leaf path is never a proper prefix of another string-leaf
path: a string has no properties to continue into. -/
theorem strleaf_not_prefix {cur : JVal} {p1 p2 : List String}
    {v1 v2 : String} (h1 : pathValue cur p1 = some (.vstr v1))
    (h2 : pathValue cur p2 = some (.vstr v2)) (hpre : p1 <+: p2) :
    p1 = p2 := by
  obtain ⟨r, hr⟩ := hpre
  subst hr
  rw [pathValue_append, h1] at h2
  cases r with
  | nil => simp
  | cons a t => simp [pathValue] at h2

theorem splitKey_joinUnder {segs : List String} (hne : segs ≠ [])
    (hg : ∀ s ∈ segs, goodKey s = true) :
    splitKey (joinUnder "" segs) = segs := by
  rw [joinUnder_eq_jsKey segs "" hne hg]
  show splitKey (joinSegs segs) = segs
  exact splitKey_joinSegs segs hne hg

/-- The fold of the fresh-locale branch of `main` (state-tracking script):
insert each collected string, transformed by `f`, under its flat key. -/
def foldIns (f : String → String) (l : List (String × String))
    (acc : JVal) : JVal :=
  l.foldl (fun a kv => setDeepSt a kv.1 (.vstr (f kv.2))) acc

theorem foldIns_noArr (f : String → String) : ∀ (l : List (String × String))
    (aes : List (String × JVal)), noArrE aes = true →
    ∃ ws, foldIns f l (.vobj aes) = .vobj ws ∧ noArrE ws = true
  | [], aes, hna => ⟨aes, rfl, hna⟩
  | (k, s) :: rest, aes, hna => by
      obtain ⟨ws, hws, hnaws⟩ := setDeepStGo_noArr (splitKey k) aes (f s) hna
      obtain ⟨ws2, hws2, hnaws2⟩ := foldIns_noArr f rest ws hnaws
      refine ⟨ws2, ?_, hnaws2⟩
      show foldIns f rest (setDeepSt (.vobj aes) k (.vstr (f s))) = .vobj ws2
      rw [show setDeepSt (.vobj aes) k (.vstr (f s)) = .vobj ws from hws]
      exact hws2

/-- Folding inserts along paths not prefix-related to `p` leaves the value
at `p` unchanged (array-free objects). -/
theorem foldIns_preserve (f : String → String) :
    ∀ (l : List (String × String)) (aes : List (String × JVal))
    (p : List String), noArrE aes = true →
    (∀ kv ∈ l, ¬(splitKey kv.1 <+: p) ∧ ¬(p <+: splitKey kv.1)) →
    pathValue (foldIns f l (.vobj aes)) p = pathValue (.vobj aes) p
  | [], aes, p, _, _ => rfl
  | (k, s) :: rest, aes, p, hna, hcond => by
      obtain ⟨ws, hws, hnaws⟩ := setDeepStGo_noArr (splitKey k) aes (f s) hna
      have hk := hcond (k, s) (List.mem_cons_self _ _)
      have hpres := setDeepStGo_preserve (splitKey k) aes (f s) p hna
        hk.1 hk.2
      calc pathValue (foldIns f ((k, s) :: rest) (.vobj aes)) p
          = pathValue (foldIns f rest
              (setDeepSt (.vobj aes) k (.vstr (f s)))) p := rfl
        _ = pathValue (foldIns f rest (.vobj ws)) p := by
              rw [show setDeepSt (.vobj aes) k (.vstr (f s)) = .vobj ws
                from hws]
        _ = pathValue (.vobj ws) p := foldIns_preserve f rest ws p hnaws
              (fun kv hkv => hcond kv (List.mem_cons_of_mem _ hkv))
        _ = pathValue (setDeepStGo (.vobj aes) (splitKey k) (.vstr (f s)))
              p := by rw [hws]
        _ = pathValue (.vobj aes) p := hpres

/-- Folding inserts with distinct, pairwise non-prefix keys sets each entry
at its own split path. -/
theorem foldIns_sets (f : String → String) :
    ∀ (l : List (String × String)) (aes : List (String × JVal))
    (k s : String), noArrE aes = true → (k, s) ∈ l →
    (l.map Prod.fst).Nodup →
    (∀ kv1 ∈ l, ∀ kv2 ∈ l, kv1.1 ≠ kv2.1 →
      ¬(splitKey kv1.1 <+: splitKey kv2.1)) →
    pathValue (foldIns f l (.vobj aes)) (splitKey k) = some (.vstr (f s))
  | [], _, k, s, _, hm, _, _ => by simp at hm
  | (k0, s0) :: rest, aes, k, s, hna, hm, hnd, hpair => by
      simp only [List.map_cons, List.nodup_cons] at hnd
      obtain ⟨ws, hws, hnaws⟩ :=
        setDeepStGo_noArr (splitKey k0) aes (f s0) hna
      rcases List.mem_cons.mp hm with he | hm2
      · injection he with he1 he2
        subst he1
        subst he2
        have hset := setDeepStGo_pathValue (splitKey k) aes (f s)
          (splitKey_ne_nil k) hna
        have hcond : ∀ kv ∈ rest, ¬(splitKey kv.1 <+: splitKey k) ∧
            ¬(splitKey k <+: splitKey kv.1) := by
          intro kv hkv
          have hkne : kv.1 ≠ k := by
            intro hc
            exact hnd.1 (hc ▸ List.mem_map_of_mem Prod.fst hkv)
          exact ⟨hpair kv (List.mem_cons_of_mem _ hkv) (k, s)
              (List.mem_cons_self _ _) hkne,
            hpair (k, s) (List.mem_cons_self _ _) kv
              (List.mem_cons_of_mem _ hkv) (Ne.symm hkne)⟩
        calc pathValue (foldIns f ((k, s) :: rest) (.vobj aes)) (splitKey k)
            = pathValue (foldIns f rest (.vobj ws)) (splitKey k) := by
              show pathValue (foldIns f rest
                (setDeepSt (.vobj aes) k (.vstr (f s)))) (splitKey k) = _
              rw [show setDeepSt (.vobj aes) k (.vstr (f s)) = .vobj ws
                from hws]
          _ = pathValue (.vobj ws) (splitKey k) :=
              foldIns_preserve f rest ws (splitKey k) hnaws hcond
          _ = some (.vstr (f s)) := by rw [← hws]; exact hset
      · have hrec := foldIns_sets f rest ws k s hnaws hm2 hnd.2
          (fun kv1 h1 kv2 h2 hne =>
            hpair kv1 (List.mem_cons_of_mem _ h1) kv2
              (List.mem_cons_of_mem _ h2) hne)
        calc pathValue (foldIns f ((k0, s0) :: rest) (.vobj aes))
              (splitKey k)
            = pathValue (foldIns f rest (.vobj ws)) (splitKey k) := by
              show pathValue (foldIns f rest
                (setDeepSt (.vobj aes) k0 (.vstr (f s0)))) (splitKey k) = _
              rw [show setDeepSt (.vobj aes) k0 (.vstr (f s0)) = .vobj ws
                from hws]
          _ = some (.vstr (f s)) := hrec

/-- C5 counterexample: with source `{a: "x", "a.b": "y"}` (a legal YAML
mapping — the key `a.b` contains a dot), a fresh-locale run produces
`{a: {b: "Ty"}}` under the oracle that prepends `T`: the string leaf at
path `a` (value `"x"`) has no translated or placeholder value in the
output — the insertion of the dotted key coerced it into a mapping. -/
theorem claim_C5_counterexample :
    pathValue (.vobj [("a", .vstr "x"), ("a.b", .vstr "y")]) ["a"]
      = some (.vstr "x") ∧
    (syncLocale (fun t _ => .ok ("T" ++ t)) "fr"
        (.vobj [("a", .vstr "x"), ("a.b", .vstr "y")]) (.vobj []) none).file
      = some (.vobj [("a", .vobj [("b", .vstr "Ty")])]) := by
  decide

/-- C5 (amended): provided the current source document's mapping keys are
nonempty and dot-free (and, as JS guarantees, unique), a fresh-locale run
of the state-tracking script's `main` writes a file holding, at every
string-leaf path of the current source document, exactly the
translated-or-placeholder value `translateString` produces for that leaf's
text.  The key-shape hypothesis is what the counterexample forces: a dotted
key's insertion path collides with other leaves' paths. -/
theorem claim_C5_fresh_locale (oracle : OracleSt) (name : String)
    (cur prev : JVal) (segs : List String) (v : String)
    (hwf : wfKeys cur = true) (hne : segs ≠ [])
    (hpv : pathValue cur segs = some (.vstr v)) :
    ∃ built, (syncLocale oracle name cur prev none).file = some built ∧
      pathValue built segs
        = some (.vstr (translateStringSt oracle v name)) := by
  have hgood := pathValue_good_segs segs cur _ hwf hpv
  have hndk := wfKeys_nodupKeys cur hwf
  have hch : chGet (gasTop cur) (joinUnder "" segs) = some v :=
    gas_complete cur [] "" segs v hwf hne hpv
  have hmem : (joinUnder "" segs, v) ∈ gasTop cur :=
    chGet_some_mem _ _ _ hch
  have hnd : ((gasTop cur).map Prod.fst).Nodup :=
    gas_nodup cur [] "" (by simp)
  have hchar : ∀ kv ∈ gasTop cur, ∃ s2, s2 ≠ [] ∧
      kv.1 = joinUnder "" s2 ∧ pathValue cur s2 = some (.vstr kv.2) := by
    intro kv hkv
    rcases gas_mem cur [] "" kv hkv hndk with hc | h
    · simp at hc
    · exact h
  have hpair : ∀ kv1 ∈ gasTop cur, ∀ kv2 ∈ gasTop cur, kv1.1 ≠ kv2.1 →
      ¬(splitKey kv1.1 <+: splitKey kv2.1) := by
    intro kv1 h1 kv2 h2 hne12 hpre
    obtain ⟨s1, hs1ne, hj1, hpv1⟩ := hchar kv1 h1
    obtain ⟨s2, hs2ne, hj2, hpv2⟩ := hchar kv2 h2
    have hg1 := pathValue_good_segs s1 cur _ hwf hpv1
    have hg2 := pathValue_good_segs s2 cur _ hwf hpv2
    rw [hj1, splitKey_joinUnder hs1ne hg1, hj2,
      splitKey_joinUnder hs2ne hg2] at hpre
    have heq := strleaf_not_prefix hpv1 hpv2 hpre
    exact hne12 (by rw [hj1, hj2, heq])
  have hset := foldIns_sets (fun s => translateStringSt oracle s name)
    (gasTop cur) [] (joinUnder "" segs) v rfl hmem hnd hpair
  rw [splitKey_joinUnder hne hgood] at hset
  have hne2 : gasTop cur ≠ [] := by
    intro hc
    rw [hc] at hmem
    simp at hmem
  have hemp : (gasTop cur).isEmpty = false := by
    cases hgt : gasTop cur with
    | nil => exact absurd hgt hne2
    | cons a t => rfl
  refine ⟨foldIns (fun s => translateStringSt oracle s name) (gasTop cur)
    (.vobj []), ?_, hset⟩
  simp only [syncLocale, hemp]
  rfl

/-- Witness for the amended C5 on the spec's sample document
`{a: {b: "Hello"}, c: "Bye"}` with the oracle that prepends `T`: the fresh
run's file holds the translation at path `a.b`. -/
theorem claim_C5_fresh_locale_witness :
    ∃ built, (syncLocale (fun t _ => .ok ("T" ++ t)) "fr"
        (.vobj [("a", .vobj [("b", .vstr "Hello")]), ("c", .vstr "Bye")])
        (.vobj []) none).file = some built ∧
      pathValue built ["a", "b"]
        = some (.vstr (translateStringSt (fun t _ => .ok ("T" ++ t))
            "Hello" "fr")) :=
  claim_C5_fresh_locale (fun t _ => .ok ("T" ++ t)) "fr"
    (.vobj [("a", .vobj [("b", .vstr "Hello")]), ("c", .vstr "Bye")])
    (.vobj []) ["a", "b"] "Hello" (by decide) (by decide) (by decide)

/-! ### Claim C4 — second-run quiescence of the state-tracking script -/

mutual
/-- `t` is subsumed by `s` as far as `removeDeletedKeys` is concerned:
every key the deletion scan visits is an own property of the corresponding
`source` node (recursing exactly where `removeDeletedKeys` recurses).
This is the condition under which the reconcile pass deletes nothing. -/
def subJ : JVal → JVal → Bool
  | .vobj tes, s => subE tes s
  | _, _ => true
/-- `subJ` over an entry list. -/
def subE : List (String × JVal) → JVal → Bool
  | [], _ => true
  | (key, v) :: rest, s => subOK s key v && subE rest s
/-- One entry's condition in `subE`: the key is an own property of `s`,
and when the deletion scan would recurse (target value and source child
both plain objects) the child is subsumed too. -/
def subOK : JVal → String → JVal → Bool
  | s, key, .vobj ves =>
      hasOwn s key &&
        (match jsGet s key with
         | some (.vobj sves) => subE ves (.vobj sves)
         | _ => true)
  | s, key, _ => hasOwn s key
end

theorem objGetE_of_mem_nodup : ∀ (es : List (String × JVal)) (k : String)
    (v : JVal), (es.map Prod.fst).Nodup → (k, v) ∈ es →
    objGetE es k = some v
  | [], _, _, _, hm => by simp at hm
  | (k2, w) :: rest, k, v, hnd, hm => by
      simp only [List.map_cons, List.nodup_cons] at hnd
      rcases List.mem_cons.mp hm with he | hm2
      · injection he with h1 h2
        subst h1
        subst h2
        simp [objGetE]
      · have hne : k2 ≠ k := by
          intro hc
          exact hnd.1 (hc ▸ List.mem_map_of_mem Prod.fst hm2)
        simp only [objGetE, if_neg hne]
        exact objGetE_of_mem_nodup rest k v hnd.2 hm2

theorem mem_objSetE : ∀ (es : List (String × JVal)) (k : String) (w : JVal)
    (kv : String × JVal), kv ∈ objSetE es k w → kv ∈ es ∨ kv = (k, w)
  | [], k, w, kv, hm => by
      simp only [objSetE, List.mem_singleton] at hm
      exact Or.inr hm
  | (k2, v) :: rest, k, w, kv, hm => by
      by_cases he : k2 = k
      · subst he
        simp only [objSetE, if_pos rfl] at hm
        rcases List.mem_cons.mp hm with h1 | h2
        · exact Or.inr h1
        · exact Or.inl (List.mem_cons_of_mem _ h2)
      · simp only [objSetE, if_neg he] at hm
        rcases List.mem_cons.mp hm with h1 | h2
        · exact Or.inl (h1 ▸ List.mem_cons_self _ _)
        · rcases mem_objSetE rest k w kv h2 with h3 | h3
          · exact Or.inl (List.mem_cons_of_mem _ h3)
          · exact Or.inr h3

theorem subE_mem : ∀ (es : List (String × JVal)) (s : JVal)
    (k : String) (v : JVal), subE es s = true → (k, v) ∈ es →
    subOK s k v = true
  | [], _, _, _, _, hm => by simp at hm
  | (k2, w) :: rest, s, k, v, hsub, hm => by
      simp only [subE, Bool.and_eq_true] at hsub
      rcases List.mem_cons.mp hm with he | hm2
      · injection he with h1 h2
        subst h1
        subst h2
        exact hsub.1
      · exact subE_mem rest s k v hsub.2 hm2

theorem subE_objSetE : ∀ (es : List (String × JVal)) (s : JVal)
    (k : String) (w : JVal), subE es s = true → subOK s k w = true →
    subE (objSetE es k w) s = true
  | [], s, k, w, _, hok => by simp [objSetE, subE, hok]
  | (k2, v) :: rest, s, k, w, hsub, hok => by
      simp only [subE, Bool.and_eq_true] at hsub
      by_cases he : k2 = k
      · subst he
        simp only [objSetE, if_pos rfl, subE, Bool.and_eq_true]
        exact ⟨hok, hsub.2⟩
      · simp only [objSetE, if_neg he, subE, Bool.and_eq_true]
        exact ⟨hsub.1, subE_objSetE rest s k w hsub.2 hok⟩

mutual
/-- A subsumed target is left untouched by the deletion pass. -/
theorem rdk_of_subJ : ∀ (t s : JVal), subJ t s = true →
    removeDeletedKeys t s = (t, false)
  | .vobj tes, s => by
      intro hsub
      have := rdkE_of_subE tes s (by simpa [subJ] using hsub)
      simp [removeDeletedKeys, this]
  | .vstr a, s => fun _ => rfl
  | .vnum a, s => fun _ => rfl
  | .vbool a, s => fun _ => rfl
  | .vnull, s => fun _ => rfl
  | .varr a, s => fun _ => rfl
theorem rdkE_of_subE : ∀ (tes : List (String × JVal)) (s : JVal),
    subE tes s = true → rdkEntries tes s = (tes, false)
  | [], s => fun _ => rfl
  | (key, v) :: rest, s => by
      intro hsub
      simp only [subE, Bool.and_eq_true] at hsub
      have hr := rdkE_of_subE rest s hsub.2
      cases v with
      | vobj ves =>
          have hok := hsub.1
          simp only [subOK, Bool.and_eq_true] at hok
          obtain ⟨hown, hm⟩ := hok
          obtain ⟨ses, sv, hsform, hj⟩ := hasOwn_some hown
          cases sv with
          | vobj sves =>
              rw [hj] at hm
              have hchild := rdk_of_subJ (.vobj ves) (.vobj sves)
                (by simpa [subJ] using hm)
              rw [rdkE_cons_rec rest hown hj, hchild, hr]
              simp
          | vstr a => rw [rdkE_cons_keep_sv rest hown hj (by simp [isObj]),
              hr]
          | vnum a => rw [rdkE_cons_keep_sv rest hown hj (by simp [isObj]),
              hr]
          | vbool a => rw [rdkE_cons_keep_sv rest hown hj (by simp [isObj]),
              hr]
          | vnull => rw [rdkE_cons_keep_sv rest hown hj (by simp [isObj]),
              hr]
          | varr a => rw [rdkE_cons_keep_sv rest hown hj (by simp [isObj]),
              hr]
      | vstr a =>
          have hown : hasOwn s key = true := by simpa [subOK] using hsub.1
          rw [rdkE_cons_keep_v rest hown (by simp [isObj]), hr]
      | vnum a =>
          have hown : hasOwn s key = true := by simpa [subOK] using hsub.1
          rw [rdkE_cons_keep_v rest hown (by simp [isObj]), hr]
      | vbool a =>
          have hown : hasOwn s key = true := by simpa [subOK] using hsub.1
          rw [rdkE_cons_keep_v rest hown (by simp [isObj]), hr]
      | vnull =>
          have hown : hasOwn s key = true := by simpa [subOK] using hsub.1
          rw [rdkE_cons_keep_v rest hown (by simp [isObj]), hr]
      | varr a =>
          have hown : hasOwn s key = true := by simpa [subOK] using hsub.1
          rw [rdkE_cons_keep_v rest hown (by simp [isObj]), hr]
end

mutual
/-- After one deletion pass the result is subsumed by the source: a second
pass deletes nothing. -/
theorem subJ_rdk : ∀ (t s : JVal), subJ (removeDeletedKeys t s).1 s = true
  | .vobj tes, s => by
      have := subE_rdkE tes s
      simp [removeDeletedKeys, subJ, this]
  | .vstr a, s => rfl
  | .vnum a, s => rfl
  | .vbool a, s => rfl
  | .vnull, s => rfl
  | .varr a, s => rfl
theorem subE_rdkE : ∀ (tes : List (String × JVal)) (s : JVal),
    subE (rdkEntries tes s).1 s = true
  | [], s => rfl
  | (key, v) :: rest, s => by
      have hr := subE_rdkE rest s
      cases hown : hasOwn s key with
      | false => rw [rdkE_cons_drop rest hown]; exact hr
      | true =>
          obtain ⟨ses, sv, hsform, hj⟩ := hasOwn_some hown
          cases v with
          | vobj ves =>
              cases sv with
              | vobj sves =>
                  have hchild := subE_rdkE ves (.vobj sves)
                  rw [rdkE_cons_rec rest hown hj]
                  simp only [removeDeletedKeys, subE, Bool.and_eq_true]
                  refine ⟨?_, hr⟩
                  simp only [subOK, hj, hown, Bool.and_eq_true]
                  exact ⟨trivial, hchild⟩
              | vstr a =>
                  rw [rdkE_cons_keep_sv rest hown hj (by simp [isObj])]
                  simp only [subE, Bool.and_eq_true]
                  exact ⟨by simp [subOK, hj, hown], hr⟩
              | vnum a =>
                  rw [rdkE_cons_keep_sv rest hown hj (by simp [isObj])]
                  simp only [subE, Bool.and_eq_true]
                  exact ⟨by simp [subOK, hj, hown], hr⟩
              | vbool a =>
                  rw [rdkE_cons_keep_sv rest hown hj (by simp [isObj])]
                  simp only [subE, Bool.and_eq_true]
                  exact ⟨by simp [subOK, hj, hown], hr⟩
              | vnull =>
                  rw [rdkE_cons_keep_sv rest hown hj (by simp [isObj])]
                  simp only [subE, Bool.and_eq_true]
                  exact ⟨by simp [subOK, hj, hown], hr⟩
              | varr a =>
                  rw [rdkE_cons_keep_sv rest hown hj (by simp [isObj])]
                  simp only [subE, Bool.and_eq_true]
                  exact ⟨by simp [subOK, hj, hown], hr⟩
          | vstr a =>
              rw [rdkE_cons_keep_v rest hown (by simp [isObj])]
              simp only [subE, Bool.and_eq_true]
              exact ⟨by simp [subOK, hown], hr⟩
          | vnum a =>
              rw [rdkE_cons_keep_v rest hown (by simp [isObj])]
              simp only [subE, Bool.and_eq_true]
              exact ⟨by simp [subOK, hown], hr⟩
          | vbool a =>
              rw [rdkE_cons_keep_v rest hown (by simp [isObj])]
              simp only [subE, Bool.and_eq_true]
              exact ⟨by simp [subOK, hown], hr⟩
          | vnull =>
              rw [rdkE_cons_keep_v rest hown (by simp [isObj])]
              simp only [subE, Bool.and_eq_true]
              exact ⟨by simp [subOK, hown], hr⟩
          | varr a =>
              rw [rdkE_cons_keep_v rest hown (by simp [isObj])]
              simp only [subE, Bool.and_eq_true]
              exact ⟨by simp [subOK, hown], hr⟩
end

mutual
/-- The deletion pass preserves array-freeness. -/
theorem noArr_rdk : ∀ (t s : JVal), noArr t = true →
    noArr (removeDeletedKeys t s).1 = true
  | .vobj tes, s => by
      intro hna
      have := noArrE_rdkE tes s (by simpa [noArr] using hna)
      simp [removeDeletedKeys, noArr, this]
  | .vstr a, s => fun h => h
  | .vnum a, s => fun h => h
  | .vbool a, s => fun h => h
  | .vnull, s => fun h => h
  | .varr a, s => fun h => h
theorem noArrE_rdkE : ∀ (tes : List (String × JVal)) (s : JVal),
    noArrE tes = true → noArrE (rdkEntries tes s).1 = true
  | [], s => fun h => h
  | (key, v) :: rest, s => by
      intro hna
      simp only [noArrE, Bool.and_eq_true] at hna
      have hr := noArrE_rdkE rest s hna.2
      cases hown : hasOwn s key with
      | false => rw [rdkE_cons_drop rest hown]; exact hr
      | true =>
          obtain ⟨ses, sv, hsform, hj⟩ := hasOwn_some hown
          cases v with
          | vobj ves =>
              cases sv with
              | vobj sves =>
                  have hchild := noArr_rdk (.vobj ves) (.vobj sves) hna.1
                  rw [rdkE_cons_rec rest hown hj]
                  simp only [noArrE, Bool.and_eq_true]
                  exact ⟨hchild, hr⟩
              | vstr a =>
                  rw [rdkE_cons_keep_sv rest hown hj (by simp [isObj])]
                  simp only [noArrE, Bool.and_eq_true]
                  exact ⟨hna.1, hr⟩
              | vnum a =>
                  rw [rdkE_cons_keep_sv rest hown hj (by simp [isObj])]
                  simp only [noArrE, Bool.and_eq_true]
                  exact ⟨hna.1, hr⟩
              | vbool a =>
                  rw [rdkE_cons_keep_sv rest hown hj (by simp [isObj])]
                  simp only [noArrE, Bool.and_eq_true]
                  exact ⟨hna.1, hr⟩
              | vnull =>
                  rw [rdkE_cons_keep_sv rest hown hj (by simp [isObj])]
                  simp only [noArrE, Bool.and_eq_true]
                  exact ⟨hna.1, hr⟩
              | varr a =>
                  rw [rdkE_cons_keep_sv rest hown hj (by simp [isObj])]
                  simp only [noArrE, Bool.and_eq_true]
                  exact ⟨hna.1, hr⟩
          | vstr a =>
              rw [rdkE_cons_keep_v rest hown (by simp [isObj])]
              simp only [noArrE, Bool.and_eq_true]
              exact ⟨hna.1, hr⟩
          | vnum a =>
              rw [rdkE_cons_keep_v rest hown (by simp [isObj])]
              simp only [noArrE, Bool.and_eq_true]
              exact ⟨hna.1, hr⟩
          | vbool a =>
              rw [rdkE_cons_keep_v rest hown (by simp [isObj])]
              simp only [noArrE, Bool.and_eq_true]
              exact ⟨hna.1, hr⟩
          | vnull =>
              rw [rdkE_cons_keep_v rest hown (by simp [isObj])]
              simp only [noArrE, Bool.and_eq_true]
              exact ⟨hna.1, hr⟩
          | varr a => simp [noArr] at hna
end

/-- Inserting a string along a path that reaches a string leaf of `cur`
keeps the target subsumed by `cur` (array-free targets). -/
theorem subE_setDeepStGo : ∀ (segs : List String)
    (aes : List (String × JVal)) (str : String) (cur : JVal) (v : String),
    noArrE aes = true → subE aes cur = true →
    pathValue cur segs = some (.vstr v) → segs ≠ [] →
    ∃ ws, setDeepStGo (.vobj aes) segs (.vstr str) = .vobj ws ∧
      subE ws cur = true ∧ noArrE ws = true
  | [], _, _, _, _, _, _, _, h => absurd rfl h
  | [last], aes, str, cur, v, hna, hsub, hpv, _ => by
      refine ⟨objSetE aes last (.vstr str), rfl, ?_,
        noArrE_objSetE aes last _ hna rfl⟩
      refine subE_objSetE aes cur last (.vstr str) hsub ?_
      cases cur with
      | vobj ces =>
          cases hg : objGetE ces last with
          | none => rw [pathValue, hg] at hpv; exact absurd hpv (by simp)
          | some w => simp [subOK, hasOwn, hg]
      | vstr a => simp [pathValue] at hpv
      | vnum a => simp [pathValue] at hpv
      | vbool a => simp [pathValue] at hpv
      | vnull => simp [pathValue] at hpv
      | varr a => simp [pathValue] at hpv
  | key :: r :: rest, aes, str, cur, v, hna, hsub, hpv, _ => by
      cases cur with
      | vobj ces =>
          cases hg : objGetE ces key with
          | none => rw [pathValue, hg] at hpv; exact absurd hpv (by simp)
          | some w =>
              have hpv2 : pathValue w (r :: rest) = some (.vstr v) := by
                rw [pathValue, hg] at hpv; exact hpv
              cases w with
              | vobj wes =>
                  obtain ⟨es2, hna2, hco⟩ :=
                    setDeepStGo_coerced_obj key hna
                  have hjw : jsGet (.vobj ces) key = some (.vobj wes) := by
                    simp [jsGet, hg]
                  have hsub2 : subE es2 (.vobj wes) = true := by
                    cases hge : objGetE aes key with
                    | none =>
                        rw [hge] at hco
                        have h4 : JVal.vobj [] = JVal.vobj es2 := hco
                        injection h4 with h5
                        rw [← h5]
                        rfl
                    | some c =>
                        cases c with
                        | vobj ces2 =>
                            have h4 : JVal.vobj ces2 = JVal.vobj es2 := by
                              rw [hge] at hco
                              simpa [keepsP1] using hco
                            injection h4 with h5
                            subst h5
                            have hok := subE_mem aes (.vobj ces) key
                              (.vobj ces2) hsub
                              (objGetE_some_mem aes key _ hge)
                            simp only [subOK, Bool.and_eq_true, jsGet,
                              hg] at hok
                            exact hok.2
                        | varr l =>
                            exfalso
                            have := noArrE_mem aes key _ hna
                              (objGetE_some_mem aes key _ hge)
                            simp [noArr] at this
                        | vstr x =>
                            rw [hge] at hco
                            have h4 : JVal.vobj [] = JVal.vobj es2 := by
                              simpa [keepsP1] using hco
                            injection h4 with h5
                            rw [← h5]
                            rfl
                        | vnum x =>
                            rw [hge] at hco
                            have h4 : JVal.vobj [] = JVal.vobj es2 := by
                              simpa [keepsP1] using hco
                            injection h4 with h5
                            rw [← h5]
                            rfl
                        | vbool x =>
                            rw [hge] at hco
                            have h4 : JVal.vobj [] = JVal.vobj es2 := by
                              simpa [keepsP1] using hco
                            injection h4 with h5
                            rw [← h5]
                            rfl
                        | vnull =>
                            rw [hge] at hco
                            have h4 : JVal.vobj [] = JVal.vobj es2 := by
                              simpa [keepsP1] using hco
                            injection h4 with h5
                            rw [← h5]
                            rfl
                  obtain ⟨ws2, hws2, hsubws2, hnaws2⟩ :=
                    subE_setDeepStGo (r :: rest) es2 str (.vobj wes) v hna2
                      hsub2 hpv2 (by simp)
                  refine ⟨objSetE aes key (.vobj ws2), ?_, ?_, ?_⟩
                  · show JVal.vobj (objSetE aes key (setDeepStGo _
                        (r :: rest) (.vstr str))) = _
                    rw [hco, hws2]
                  · refine subE_objSetE aes (.vobj ces) key (.vobj ws2)
                      hsub ?_
                    simp only [subOK, Bool.and_eq_true, jsGet, hg, hasOwn]
                    exact ⟨rfl, hsubws2⟩
                  · exact noArrE_objSetE aes key _ hna
                      (by simpa [noArr] using hnaws2)
              | vstr a => simp [pathValue] at hpv2
              | vnum a => simp [pathValue] at hpv2
              | vbool a => simp [pathValue] at hpv2
              | vnull => simp [pathValue] at hpv2
              | varr a => simp [pathValue] at hpv2
      | vstr a => simp [pathValue] at hpv
      | vnum a => simp [pathValue] at hpv
      | vbool a => simp [pathValue] at hpv
      | vnull => simp [pathValue] at hpv
      | varr a => simp [pathValue] at hpv

/-- Folding string insertions along string-leaf paths of `cur` keeps the
target subsumed by `cur`. -/
theorem subE_foldIns (f : String → String) :
    ∀ (l : List (String × String)) (aes : List (String × JVal))
    (cur : JVal), noArrE aes = true → subE aes cur = true →
    (∀ kv ∈ l, ∃ v2, pathValue cur (splitKey kv.1) = some (.vstr v2)) →
    ∃ ws, foldIns f l (.vobj aes) = .vobj ws ∧ subE ws cur = true ∧
      noArrE ws = true
  | [], aes, cur, hna, hsub, _ => ⟨aes, rfl, hsub, hna⟩
  | (k, s) :: rest, aes, cur, hna, hsub, hpaths => by
      obtain ⟨v2, hpv⟩ := hpaths (k, s) (List.mem_cons_self _ _)
      obtain ⟨ws, hws, hsubws, hnaws⟩ := subE_setDeepStGo (splitKey k) aes
        (f s) cur v2 hna hsub hpv (splitKey_ne_nil k)
      obtain ⟨ws2, hws2, hsubws2, hnaws2⟩ := subE_foldIns f rest ws cur
        hnaws hsubws (fun kv hkv => hpaths kv (List.mem_cons_of_mem _ hkv))
      refine ⟨ws2, ?_, hsubws2, hnaws2⟩
      show foldIns f rest (setDeepSt (.vobj aes) k (.vstr (f s))) = .vobj ws2
      rw [show setDeepSt (.vobj aes) k (.vstr (f s)) = .vobj ws from hws]
      exact hws2

mutual
/-- Diffing a snapshot against itself yields no changes (the state-tracking
script's `getChangedStrings`). -/
theorem gcsSt_self : ∀ (cur : JVal) (changes : List (String × String))
    (pfx : String), nodupKeys cur = true →
    getChangedStringsSt cur (some cur) changes pfx = changes
  | .vobj es, changes, pfx => by
      intro hnd
      simp only [nodupKeys, Bool.and_eq_true] at hnd
      exact gcsStE_self es es changes pfx hnd.2
        (fun kv hkv => objGetE_of_mem_nodup es kv.1 kv.2
          (of_decide_eq_true hnd.1) hkv)
  | .vstr a, changes, pfx => fun _ => rfl
  | .vnum a, changes, pfx => fun _ => rfl
  | .vbool a, changes, pfx => fun _ => rfl
  | .vnull, changes, pfx => fun _ => rfl
  | .varr a, changes, pfx => fun _ => rfl
theorem gcsStE_self : ∀ (es pes : List (String × JVal))
    (changes : List (String × String)) (pfx : String),
    nodupKeysE es = true →
    (∀ kv ∈ es, objGetE pes kv.1 = some kv.2) →
    gcsStEntries es (some (.vobj pes)) changes pfx = changes
  | [], _, changes, _ => fun _ _ => rfl
  | (key, v) :: rest, pes, changes, pfx => by
      intro hndE hlook
      have hpv : jsIndexOpt (some (.vobj pes)) key = some v := by
        simp [jsIndexOpt, truthy, jsGet,
          hlook (key, v) (List.mem_cons_self _ _)]
      simp only [nodupKeysE, Bool.and_eq_true] at hndE
      have hrest := fun kv hkv => hlook kv (List.mem_cons_of_mem _ hkv)
      cases v with
      | vstr s =>
          rw [show gcsStEntries ((key, JVal.vstr s) :: rest)
                (some (.vobj pes)) changes pfx
              = gcsStEntries rest (some (.vobj pes)) changes pfx from by
            simp [gcsStEntries, hpv]]
          exact gcsStE_self rest pes changes pfx hndE.2 hrest
      | vobj ves =>
          rw [show gcsStEntries ((key, JVal.vobj ves) :: rest)
                (some (.vobj pes)) changes pfx
              = gcsStEntries rest (some (.vobj pes))
                  (getChangedStringsSt (.vobj ves) (some (.vobj ves))
                    changes (jsKey pfx key)) pfx from by
            simp [gcsStEntries, hpv]]
          rw [gcsSt_self (.vobj ves) changes (jsKey pfx key) hndE.1]
          exact gcsStE_self rest pes changes pfx hndE.2 hrest
      | vnum a =>
          rw [show gcsStEntries ((key, JVal.vnum a) :: rest)
                (some (.vobj pes)) changes pfx
              = gcsStEntries rest (some (.vobj pes)) changes pfx from by
            simp [gcsStEntries]]
          exact gcsStE_self rest pes changes pfx hndE.2 hrest
      | vbool a =>
          rw [show gcsStEntries ((key, JVal.vbool a) :: rest)
                (some (.vobj pes)) changes pfx
              = gcsStEntries rest (some (.vobj pes)) changes pfx from by
            simp [gcsStEntries]]
          exact gcsStE_self rest pes changes pfx hndE.2 hrest
      | vnull =>
          rw [show gcsStEntries ((key, JVal.vnull) :: rest)
                (some (.vobj pes)) changes pfx
              = gcsStEntries rest (some (.vobj pes)) changes pfx from by
            simp [gcsStEntries]]
          exact gcsStE_self rest pes changes pfx hndE.2 hrest
      | varr a =>
          rw [show gcsStEntries ((key, JVal.varr a) :: rest)
                (some (.vobj pes)) changes pfx
              = gcsStEntries rest (some (.vobj pes)) changes pfx from by
            simp [gcsStEntries]]
          exact gcsStE_self rest pes changes pfx hndE.2 hrest
end

/-- The delta of the current source against itself is empty. -/
theorem gcsStTop_self (cur : JVal) (hnd : nodupKeys cur = true) :
    gcsStTop cur cur = [] :=
  gcsSt_self cur [] "" hnd

mutual
/-- Every delta entry of the state-tracking `getChangedStrings` beyond the
accumulator is a dot-joined string-leaf path of the current document with
its current value. -/
theorem gcsSt_mem : ∀ (cur : JVal) (prev : Option JVal)
    (changes : List (String × String)) (pfx : String)
    (kv : String × String),
    kv ∈ getChangedStringsSt cur prev changes pfx → nodupKeys cur = true →
    kv ∈ changes ∨ ∃ segs, segs ≠ [] ∧ kv.1 = joinUnder pfx segs ∧
      pathValue cur segs = some (.vstr kv.2)
  | .vobj es, prev, changes, pfx, kv => by
      intro hmem hnd
      simp only [nodupKeys, Bool.and_eq_true] at hnd
      exact gcsStE_mem es prev changes pfx kv hmem
        (of_decide_eq_true hnd.1) hnd.2
  | .vstr a, prev, changes, pfx, kv => fun hmem _ => Or.inl hmem
  | .vnum a, prev, changes, pfx, kv => fun hmem _ => Or.inl hmem
  | .vbool a, prev, changes, pfx, kv => fun hmem _ => Or.inl hmem
  | .vnull, prev, changes, pfx, kv => fun hmem _ => Or.inl hmem
  | .varr a, prev, changes, pfx, kv => fun hmem _ => Or.inl hmem
theorem gcsStE_mem : ∀ (es : List (String × JVal)) (prev : Option JVal)
    (changes : List (String × String)) (pfx : String)
    (kv : String × String),
    kv ∈ gcsStEntries es prev changes pfx →
    (es.map Prod.fst).Nodup → nodupKeysE es = true →
    kv ∈ changes ∨ ∃ segs, segs ≠ [] ∧ kv.1 = joinUnder pfx segs ∧
      pathValue (.vobj es) segs = some (.vstr kv.2)
  | [], prev, changes, pfx, kv => fun hmem _ _ => Or.inl hmem
  | (key, v) :: rest, prev, changes, pfx, kv => by
      intro hmem hnd hndE
      simp only [List.map_cons, List.nodup_cons] at hnd
      simp only [nodupKeysE, Bool.and_eq_true] at hndE
      have hlift : ∀ segs, segs ≠ [] →
          pathValue (.vobj rest) segs = some (.vstr kv.2) →
          pathValue (.vobj ((key, v) :: rest)) segs
            = some (.vstr kv.2) := by
        intro segs hne hpv
        cases segs with
        | nil => exact absurd rfl hne
        | cons k2 tail =>
            have hk2 : key ≠ k2 := by
              intro hc
              exact hnd.1 (hc ▸ pathValue_head_mem hpv)
            rw [pathValue_cons_of_ne hk2]
            exact hpv
      cases v with
      | vstr s =>
          by_cases hif : jsIndexOpt prev key = some (.vstr s)
          · rw [show gcsStEntries ((key, JVal.vstr s) :: rest) prev changes
                  pfx
                = gcsStEntries rest prev changes pfx from by
              simp [gcsStEntries, hif]] at hmem
            rcases gcsStE_mem rest prev changes pfx kv hmem hnd.2 hndE.2
              with hch | ⟨segs, hne, hj, hpv⟩
            · exact Or.inl hch
            · exact Or.inr ⟨segs, hne, hj, hlift segs hne hpv⟩
          · rw [show gcsStEntries ((key, JVal.vstr s) :: rest) prev changes
                  pfx
                = gcsStEntries rest prev (chSet changes (jsKey pfx key) s)
                    pfx from by simp [gcsStEntries, hif]] at hmem
            rcases gcsStE_mem rest prev _ pfx kv hmem hnd.2 hndE.2
              with hch | ⟨segs, hne, hj, hpv⟩
            · rcases mem_chSet changes _ s kv hch with hold | hnew
              · exact Or.inl hold
              · subst hnew
                exact Or.inr ⟨[key], by simp, rfl,
                  by simp [pathValue, objGetE]⟩
            · exact Or.inr ⟨segs, hne, hj, hlift segs hne hpv⟩
      | vobj ves =>
          rw [show gcsStEntries ((key, JVal.vobj ves) :: rest) prev changes
                pfx
              = gcsStEntries rest prev
                  (getChangedStringsSt (.vobj ves)
                    (some (match jsIndexOpt prev key with
                           | some (.vobj pes) => JVal.vobj pes
                           | some (.varr pes) => JVal.varr pes
                           | _ => JVal.vobj []))
                    changes (jsKey pfx key)) pfx from by
            simp [gcsStEntries]] at hmem
          rcases gcsStE_mem rest prev _ pfx kv hmem hnd.2 hndE.2
            with hch | ⟨segs, hne, hj, hpv⟩
          · rcases gcsSt_mem (.vobj ves) _ changes (jsKey pfx key) kv hch
                hndE.1 with hold | ⟨segs2, hne2, hj2, hpv2⟩
            · exact Or.inl hold
            · refine Or.inr ⟨key :: segs2, by simp, hj2, ?_⟩
              simpa [pathValue, objGetE] using hpv2
          · exact Or.inr ⟨segs, hne, hj, hlift segs hne hpv⟩
      | vnum a =>
          rw [show gcsStEntries ((key, JVal.vnum a) :: rest) prev changes
                pfx
              = gcsStEntries rest prev changes pfx from by
            simp [gcsStEntries]] at hmem
          rcases gcsStE_mem rest prev changes pfx kv hmem hnd.2 hndE.2
            with hch | ⟨segs, hne, hj, hpv⟩
          · exact Or.inl hch
          · exact Or.inr ⟨segs, hne, hj, hlift segs hne hpv⟩
      | vbool a =>
          rw [show gcsStEntries ((key, JVal.vbool a) :: rest) prev changes
                pfx
              = gcsStEntries rest prev changes pfx from by
            simp [gcsStEntries]] at hmem
          rcases gcsStE_mem rest prev changes pfx kv hmem hnd.2 hndE.2
            with hch | ⟨segs, hne, hj, hpv⟩
          · exact Or.inl hch
          · exact Or.inr ⟨segs, hne, hj, hlift segs hne hpv⟩
      | vnull =>
          rw [show gcsStEntries ((key, JVal.vnull) :: rest) prev changes
                pfx
              = gcsStEntries rest prev changes pfx from by
            simp [gcsStEntries]] at hmem
          rcases gcsStE_mem rest prev changes pfx kv hmem hnd.2 hndE.2
            with hch | ⟨segs, hne, hj, hpv⟩
          · exact Or.inl hch
          · exact Or.inr ⟨segs, hne, hj, hlift segs hne hpv⟩
      | varr a =>
          rw [show gcsStEntries ((key, JVal.varr a) :: rest) prev changes
                pfx
              = gcsStEntries rest prev changes pfx from by
            simp [gcsStEntries]] at hmem
          rcases gcsStE_mem rest prev changes pfx kv hmem hnd.2 hndE.2
            with hch | ⟨segs, hne, hj, hpv⟩
          · exact Or.inl hch
          · exact Or.inr ⟨segs, hne, hj, hlift segs hne hpv⟩
end

/-- Shape of a locale's target file under which the model of `setDeep` and
`removeDeletedKeys` walks is exact: absent, or a parsed mapping without
arrays. -/
def fileOK : Option JVal → Bool
  | none => true
  | some (.vobj es) => noArrE es
  | some _ => false

/-- Every key collected by `getAllStringsFromObject` splits back into a
string-leaf path of the document (well-formed keys). -/
theorem gasTop_paths (cur : JVal) (hwf : wfKeys cur = true) :
    ∀ kv ∈ gasTop cur,
      ∃ v2, pathValue cur (splitKey kv.1) = some (.vstr v2) := by
  intro kv hkv
  rcases gas_mem cur [] "" kv hkv (wfKeys_nodupKeys cur hwf) with
    hc | ⟨segs, hne, hj, hpv⟩
  · simp at hc
  · have hgood := pathValue_good_segs segs cur _ hwf hpv
    refine ⟨kv.2, ?_⟩
    rw [hj, splitKey_joinUnder hne hgood]
    exact hpv

/-- Every key of the state-tracking delta map splits back into a
string-leaf path of the current document (well-formed keys). -/
theorem gcsStTop_paths (cur prev : JVal) (hwf : wfKeys cur = true) :
    ∀ kv ∈ gcsStTop cur prev,
      ∃ v2, pathValue cur (splitKey kv.1) = some (.vstr v2) := by
  intro kv hkv
  rcases gcsSt_mem cur (some prev) [] "" kv hkv
      (wfKeys_nodupKeys cur hwf) with hc | ⟨segs, hne, hj, hpv⟩
  · simp at hc
  · have hgood := pathValue_good_segs segs cur _ hwf hpv
    refine ⟨kv.2, ?_⟩
    rw [hj, splitKey_joinUnder hne hgood]
    exact hpv

/-- A locale iteration with an existing target file subsumed by the current
source, run when the source has not changed, makes no calls and does not
write. -/
theorem syncLocale_existing_quiet (oracle : OracleSt) (name : String)
    (cur : JVal) (ws : List (String × JVal))
    (hnd : nodupKeys cur = true) (hsub : subE ws cur = true) :
    (syncLocale oracle name cur cur (some (.vobj ws))).calls = 0 ∧
    (syncLocale oracle name cur cur (some (.vobj ws))).wrote = false := by
  have hrdk := rdk_of_subJ (.vobj ws) cur (by simpa [subJ] using hsub)
  have hgcs := gcsStTop_self cur hnd
  constructor
  · simp [syncLocale, hgcs, callsOf]
  · simp [syncLocale, hgcs, hrdk]

/-- Re-running one locale iteration on its own output, with the source
unchanged (and recorded), makes no translation calls and does not write. -/
theorem syncLocale_stable (oracle : OracleSt) (name : String)
    (cur prev : JVal) (file : Option JVal)
    (hwf : wfKeys cur = true) (hfile : fileOK file = true) :
    (syncLocale oracle name cur cur
        (syncLocale oracle name cur prev file).file).calls = 0 ∧
    (syncLocale oracle name cur cur
        (syncLocale oracle name cur prev file).file).wrote = false := by
  have hnd := wfKeys_nodupKeys cur hwf
  cases file with
  | none =>
      by_cases hE : (gasTop cur).isEmpty = true
      · have halls : gasTop cur = [] := by
          cases hgt : gasTop cur with
          | nil => rfl
          | cons a t => rw [hgt] at hE; simp at hE
        have hfile1 : (syncLocale oracle name cur prev none).file
            = none := by
          simp [syncLocale, hE]
        rw [hfile1]
        constructor
        · simp [syncLocale, halls, callsOf]
        · simp [syncLocale, hE]
      · have hEf : (gasTop cur).isEmpty = false := by
          cases h2 : (gasTop cur).isEmpty with
          | false => rfl
          | true => exact absurd h2 hE
        obtain ⟨ws, hws, hsubws, hnaws⟩ :=
          subE_foldIns (fun s => translateStringSt oracle s name)
            (gasTop cur) [] cur rfl rfl (gasTop_paths cur hwf)
        have hfile1 : (syncLocale oracle name cur prev none).file
            = some (.vobj ws) := by
          simp only [syncLocale, hEf]
          exact congrArg some hws
        rw [hfile1]
        exact syncLocale_existing_quiet oracle name cur ws hnd hsubws
  | some t0 =>
      cases t0 with
      | vobj es0 =>
          have hna0 : noArrE es0 = true := by simpa [fileOK] using hfile
          by_cases hhas : ((removeDeletedKeys (.vobj es0) cur).2
              || !(gcsStTop cur prev).isEmpty) = true
          · obtain ⟨ws, hws, hsubws, hnaws⟩ :=
              subE_foldIns (fun s => translateStringSt oracle s name)
                (gcsStTop cur prev) (rdkEntries es0 cur).1 cur
                (noArrE_rdkE es0 cur hna0) (subE_rdkE es0 cur)
                (gcsStTop_paths cur prev hwf)
            have hfile1 : (syncLocale oracle name cur prev
                (some (.vobj es0))).file = some (.vobj ws) := by
              simp only [syncLocale, hhas, if_true]
              exact congrArg some hws
            rw [hfile1]
            exact syncLocale_existing_quiet oracle name cur ws hnd hsubws
          · have h2 : ((removeDeletedKeys (.vobj es0) cur).2
                || !(gcsStTop cur prev).isEmpty) = false := by
              cases h3 : ((removeDeletedKeys (.vobj es0) cur).2
                  || !(gcsStTop cur prev).isEmpty) with
              | false => rfl
              | true => exact absurd h3 hhas
            have hpr2 : (removeDeletedKeys (.vobj es0) cur).2 = false :=
              (Bool.or_eq_false_iff.mp h2).1
            have hfile1 : (syncLocale oracle name cur prev
                (some (.vobj es0))).file = some (.vobj es0) := by
              simp only [syncLocale, h2]
              simp
            rw [hfile1]
            constructor
            · simp [syncLocale, gcsStTop_self cur hnd, callsOf]
            · simp [syncLocale, gcsStTop_self cur hnd, hpr2]
      | vstr a => simp [fileOK] at hfile
      | vnum a => simp [fileOK] at hfile
      | vbool a => simp [fileOK] at hfile
      | vnull => simp [fileOK] at hfile
      | varr a => simp [fileOK] at hfile

/-- A locale iteration that did not write left its file untouched and made
no translation calls. -/
theorem syncLocale_wrote_false (oracle : OracleSt) (name : String)
    (cur prev : JVal) (file : Option JVal)
    (hw : (syncLocale oracle name cur prev file).wrote = false) :
    (syncLocale oracle name cur prev file).file = file ∧
    (syncLocale oracle name cur prev file).calls = 0 := by
  cases file with
  | none =>
      have hE : (gasTop cur).isEmpty = true := by
        simp only [syncLocale] at hw
        simpa using hw
      have halls : gasTop cur = [] := by
        cases hgt : gasTop cur with
        | nil => rfl
        | cons a t => rw [hgt] at hE; simp at hE
      constructor
      · simp [syncLocale, hE]
      · simp [syncLocale, halls, callsOf]
  | some t0 =>
      have h2 : ((removeDeletedKeys t0 cur).2
          || !(gcsStTop cur prev).isEmpty) = false := by
        simpa only [syncLocale] using hw
      have hch : gcsStTop cur prev = [] := by
        have h3 := (Bool.or_eq_false_iff.mp h2).2
        cases hgt : gcsStTop cur prev with
        | nil => rfl
        | cons a t => rw [hgt] at h3; simp at h3
      constructor
      · simp [syncLocale, h2]
      · simp [syncLocale, hch, callsOf]

theorem zipWith_map_self {α β γ : Type} (f : α → β → γ) (g : α → β) :
    ∀ l : List α, List.zipWith f l (l.map g) = l.map (fun x => f x (g x))
  | [] => rfl
  | a :: t => by simp [List.zipWith, zipWith_map_self f g t]

/-- Composition of two runs of the state-tracking script's `main` on an
unchanged source: the second run reads back the state and locale files the
first run left (`prev` becomes the current source when the state was
rewritten with the current commit, and stays at the prior commit's source
otherwise). -/
def secondRun (oracle : OracleSt) (cur prev : JVal)
    (locales : List (String × Option JVal)) (prior : Option String)
    (sha sha2 : String) : RunRes :=
  let r1 := runFull oracle cur prev locales prior sha
  runFull oracle cur (if r1.stateWritten then cur else prev)
    (List.zipWith (fun lc r => (lc.1, r.file)) locales r1.locs)
    r1.state sha2

/-- C4 counterexample: dotted source keys defeat idempotence.  With source
`{"a.b": "x"}` (one dotted key) and one fresh locale, the first run builds
and writes `{a: {b: "Tx"}}` and records the commit; the second run, with no
source change, deletes the key `a` (absent from the source's flat keys),
writes the locale file again and rewrites the state. -/
theorem claim_C4_counterexample :
    (secondRun (fun t _ => .ok ("T" ++ t)) (.vobj [("a.b", .vstr "x")])
        (.vobj []) [("fr", none)] none "c1" "c2").stateWritten = true ∧
    ∃ l ∈ (secondRun (fun t _ => .ok ("T" ++ t))
        (.vobj [("a.b", .vstr "x")]) (.vobj []) [("fr", none)] none "c1"
          "c2").locs, l.wrote = true := by
  decide

/-- C4 (amended): provided the current source document's mapping keys are
nonempty, dot-free and (as JS guarantees) unique, and every locale's target
file is absent or a parsed array-free mapping, running the state-tracking
synchronizer twice with no source change between the runs performs zero
translation calls and zero locale file writes on the second run, and does
not rewrite the state file.  The key-shape hypothesis is what the
counterexample forces: a dotted key makes the first run build a nested
subtree whose keys the second run's deletion pass prunes again. -/
theorem claim_C4_second_run_quiescent (oracle : OracleSt) (cur prev : JVal)
    (locales : List (String × Option JVal)) (prior : Option String)
    (sha sha2 : String) (hwf : wfKeys cur = true)
    (hfiles : ∀ lc ∈ locales, fileOK lc.2 = true) :
    totalCalls (secondRun oracle cur prev locales prior sha sha2) = 0 ∧
    (∀ l ∈ (secondRun oracle cur prev locales prior sha sha2).locs,
      l.wrote = false) ∧
    (secondRun oracle cur prev locales prior sha sha2).stateWritten
      = false := by
  have hkey : ∀ lc ∈ locales,
      (syncLocale oracle lc.1 cur
        (if (runFull oracle cur prev locales prior sha).stateWritten
         then cur else prev)
        ((syncLocale oracle lc.1 cur prev lc.2).file)).calls = 0 ∧
      (syncLocale oracle lc.1 cur
        (if (runFull oracle cur prev locales prior sha).stateWritten
         then cur else prev)
        ((syncLocale oracle lc.1 cur prev lc.2).file)).wrote = false := by
    intro lc hlc
    by_cases hsw : (runFull oracle cur prev locales prior sha).stateWritten
        = true
    · rw [if_pos hsw]
      exact syncLocale_stable oracle lc.1 cur prev lc.2 hwf (hfiles lc hlc)
    · have hswf : (runFull oracle cur prev locales prior sha).stateWritten
          = false := by
        cases h3 : (runFull oracle cur prev locales prior sha).stateWritten
          with
        | false => rfl
        | true => exact absurd h3 hsw
      rw [if_neg hsw]
      have hany : ((locales.map
            (fun lc2 => syncLocale oracle lc2.1 cur prev lc2.2)).any
          (fun r => r.wrote) || prior.isNone) = false := hswf
      have hw1 : (syncLocale oracle lc.1 cur prev lc.2).wrote = false := by
        have h4 := (Bool.or_eq_false_iff.mp hany).1
        have h5 := List.any_eq_false.mp h4
        have h6 := h5 (syncLocale oracle lc.1 cur prev lc.2)
          (List.mem_map_of_mem _ hlc)
        cases h7 : (syncLocale oracle lc.1 cur prev lc.2).wrote with
        | false => rfl
        | true => exact absurd h7 h6
      obtain ⟨hfeq, hc0⟩ :=
        syncLocale_wrote_false oracle lc.1 cur prev lc.2 hw1
      rw [hfeq]
      exact ⟨hc0, hw1⟩
  have hlocs2 : (secondRun oracle cur prev locales prior sha sha2).locs
      = locales.map (fun lc => syncLocale oracle lc.1 cur
          (if (runFull oracle cur prev locales prior sha).stateWritten
           then cur else prev)
          ((syncLocale oracle lc.1 cur prev lc.2).file)) := by
    show (List.zipWith (fun lc r => (lc.1, r.file)) locales
        (locales.map
          (fun lc2 => syncLocale oracle lc2.1 cur prev lc2.2))).map
        (fun lc2 => syncLocale oracle lc2.1 cur
          (if (runFull oracle cur prev locales prior sha).stateWritten
           then cur else prev) lc2.2) = _
    rw [zipWith_map_self, List.map_map]
    rfl
  refine ⟨?_, ?_, ?_⟩
  · show ((secondRun oracle cur prev locales prior sha sha2).locs.map
        (fun l => l.calls)).sum = 0
    rw [hlocs2, List.map_map]
    apply List.sum_eq_zero
    intro x hx
    rcases List.mem_map.mp hx with ⟨lc, hlc, hxe⟩
    rw [← hxe]
    exact (hkey lc hlc).1
  · intro l hl
    rw [hlocs2] at hl
    rcases List.mem_map.mp hl with ⟨lc, hlc, hle⟩
    rw [← hle]
    exact (hkey lc hlc).2
  · have hany2 : (secondRun oracle cur prev locales prior sha
        sha2).locs.any (fun r => r.wrote) = false := by
      rw [hlocs2]
      apply List.any_eq_false.mpr
      intro x hx
      rcases List.mem_map.mp hx with ⟨lc, hlc, hxe⟩
      rw [← hxe, (hkey lc hlc).2]
      simp
    have hfr2 : (runFull oracle cur prev locales prior sha).state.isNone
        = false := by
      by_cases hsw : (runFull oracle cur prev locales prior
          sha).stateWritten = true
      · have hstate : (runFull oracle cur prev locales prior sha).state
            = some sha := by
          show (if (runFull oracle cur prev locales prior sha).stateWritten
              then some sha else prior) = some sha
          rw [if_pos hsw]
        rw [hstate]
        rfl
      · have hswf : (runFull oracle cur prev locales prior
            sha).stateWritten = false := by
          cases h3 : (runFull oracle cur prev locales prior
              sha).stateWritten with
          | false => rfl
          | true => exact absurd h3 hsw
        have hstate : (runFull oracle cur prev locales prior sha).state
            = prior := by
          show (if (runFull oracle cur prev locales prior sha).stateWritten
              then some sha else prior) = prior
          rw [if_neg hsw]
        have hswf2 : ((locales.map
              (fun lc2 => syncLocale oracle lc2.1 cur prev lc2.2)).any
            (fun r => r.wrote) || prior.isNone) = false := hswf
        rw [hstate]
        exact (Bool.or_eq_false_iff.mp hswf2).2
    show ((secondRun oracle cur prev locales prior sha sha2).locs.any
        (fun r => r.wrote)
      || (runFull oracle cur prev locales prior sha).state.isNone) = false
    rw [hany2, hfr2]
    rfl

/-- Witness for the amended C4: one locale, fresh, source `{a: "Hi"}` — the
second run is quiet. -/
theorem claim_C4_second_run_quiescent_witness :
    totalCalls (secondRun (fun t _ => .ok ("T" ++ t))
        (.vobj [("a", .vstr "Hi")]) (.vobj []) [("fr", none)] none "c1"
        "c2") = 0 ∧
    (∀ l ∈ (secondRun (fun t _ => .ok ("T" ++ t))
        (.vobj [("a", .vstr "Hi")]) (.vobj []) [("fr", none)] none "c1"
        "c2").locs, l.wrote = false) ∧
    (secondRun (fun t _ => .ok ("T" ++ t)) (.vobj [("a", .vstr "Hi")])
        (.vobj []) [("fr", none)] none "c1" "c2").stateWritten = false :=
  claim_C4_second_run_quiescent (fun t _ => .ok ("T" ++ t))
    (.vobj [("a", .vstr "Hi")]) (.vobj []) [("fr", none)] none "c1" "c2"
    (by decide) (by decide)

/-! ### Claim C1 — flatten/unflatten round trip -/

theorem objSetE_objSetE : ∀ (es : List (String × JVal)) (k : String)
    (w x : JVal), objSetE (objSetE es k w) k x = objSetE es k x
  | [], k, w, x => by simp [objSetE]
  | (k2, v) :: rest, k, w, x => by
      by_cases he : k2 = k
      · simp [objSetE, he]
      · simp [objSetE, he, objSetE_objSetE rest k w x]

theorem objSetE_self_of_get : ∀ (es : List (String × JVal)) (k : String)
    (c : JVal), objGetE es k = some c → objSetE es k c = es
  | [], k, c, h => by simp [objGetE] at h
  | (k2, v) :: rest, k, c, h => by
      by_cases he : k2 = k
      · subst he
        simp only [objGetE, eq_self_iff_true, if_true,
          Option.some.injEq] at h
        simp [objSetE, h]
      · simp only [objGetE, if_neg he] at h
        simp [objSetE, he, objSetE_self_of_get rest k c h]

theorem objGetE_none_of_not_mem : ∀ (es : List (String × JVal))
    (k : String), k ∉ es.map Prod.fst → objGetE es k = none
  | [], k, _ => rfl
  | (k2, v) :: rest, k, h => by
      simp only [List.map_cons, List.mem_cons] at h
      push_neg at h
      have hne : ¬(k2 = k) := fun hc => h.1 hc.symm
      simp only [objGetE, if_neg hne]
      exact objGetE_none_of_not_mem rest k h.2

theorem objSetE_append_of_not_mem : ∀ (es : List (String × JVal))
    (k : String) (v : JVal), k ∉ es.map Prod.fst →
    objSetE es k v = es ++ [(k, v)]
  | [], k, v, _ => rfl
  | (k2, w) :: rest, k, v, h => by
      simp only [List.map_cons, List.mem_cons] at h
      push_neg at h
      have hne : ¬(k2 = k) := fun hc => h.1 hc.symm
      simp only [objSetE, if_neg hne, List.cons_append]
      rw [objSetE_append_of_not_mem rest k v h.2]

theorem insertReduce_vobj : ∀ (q : List String)
    (ces : List (String × JVal)) (v w : JVal),
    insertReduce (.vobj ces) q v = some w →
    ∃ ws, w = .vobj ws
  | [], ces, v, w, h => ⟨ces, by simpa [insertReduce] using h.symm⟩
  | [last], ces, v, w, h =>
      ⟨objSetE ces last v, by simpa [insertReduce] using h.symm⟩
  | key :: r :: rest, ces, v, w, h => by
      simp only [insertReduce] at h
      cases hin : insertReduce
          (match objGetE ces key with
           | some c => if truthy c then c else JVal.vobj []
           | none => JVal.vobj []) (r :: rest) v with
      | none => rw [hin] at h; simp at h
      | some nc =>
          rw [hin] at h
          simp only [Option.some.injEq] at h
          exact ⟨objSetE ces key nc, h.symm⟩

/-- The fold of `unflattenObject` over pre-split paths. -/
def insGo : List (List String × JVal) → JVal → Option JVal
  | [], acc => some acc
  | (p, v) :: rest, acc =>
      match insertReduce acc p v with
      | some r2 => insGo rest r2
      | none => none

theorem unflattenGo_insGo : ∀ (flat : List (String × JVal)) (acc : JVal),
    unflattenGo flat acc
      = insGo (flat.map (fun kv => (splitKey kv.1, kv.2))) acc
  | [], acc => rfl
  | (key, v) :: rest, acc => by
      simp only [unflattenGo, List.map_cons, insGo]
      cases insertReduce acc (splitKey key) v with
      | none => rfl
      | some r2 => exact unflattenGo_insGo rest r2

theorem insGo_append : ∀ (l1 l2 : List (List String × JVal)) (acc : JVal),
    insGo (l1 ++ l2) acc
      = match insGo l1 acc with
        | some r => insGo l2 r
        | none => none
  | [], l2, acc => rfl
  | (p, v) :: rest, l2, acc => by
      simp only [List.cons_append, insGo]
      cases insertReduce acc p v with
      | none => rfl
      | some r2 => exact insGo_append rest l2 r2

theorem map_id_of_mem {α : Type} (f : α → α) :
    ∀ l : List α, (∀ x ∈ l, f x = x) → l.map f = l
  | [], _ => rfl
  | a :: t, h => by
      simp only [List.map_cons]
      rw [h a (List.mem_cons_self _ _),
        map_id_of_mem f t (fun x hx => h x (List.mem_cons_of_mem _ hx))]

theorem leavesE_first : ∀ (es : List (String × JVal))
    (pv : List String × JVal), pv ∈ leavesE es →
    ∃ k t v2, pv = (k :: t, v2) ∧ k ∈ es.map Prod.fst
  | [], pv, hm => by simp [leavesE] at hm
  | (key, v) :: rest, pv, hm => by
      simp only [leavesE, List.mem_append, List.mem_map] at hm
      rcases hm with ⟨qv, hqv, he⟩ | hm2
      · exact ⟨key, qv.1, qv.2, by rw [← he], by simp⟩
      · obtain ⟨k, t, v2, he2, hk⟩ := leavesE_first rest pv hm2
        exact ⟨k, t, v2, he2, by simp [hk]⟩

mutual
theorem leaves_good : ∀ (v : JVal) (pv : List String × JVal),
    wfDoc v = true → pv ∈ leaves v → ∀ s ∈ pv.1, goodKey s = true
  | .vstr a, pv, _, hm => by
      simp only [leaves, List.mem_singleton] at hm
      subst hm
      simp
  | .vobj es, pv, hwf, hm => by
      simp only [wfDoc, Bool.and_eq_true] at hwf
      exact leavesE_good es pv hwf.2 hm
  | .vnum a, pv, hwf, _ => by simp [wfDoc] at hwf
  | .vbool a, pv, hwf, _ => by simp [wfDoc] at hwf
  | .vnull, pv, hwf, _ => by simp [wfDoc] at hwf
  | .varr a, pv, hwf, _ => by simp [wfDoc] at hwf
theorem leavesE_good : ∀ (es : List (String × JVal))
    (pv : List String × JVal), wfDocE es = true → pv ∈ leavesE es →
    ∀ s ∈ pv.1, goodKey s = true
  | [], pv, _, hm => by simp [leavesE] at hm
  | (key, v) :: rest, pv, hwf, hm => by
      simp only [wfDocE, Bool.and_eq_true] at hwf
      simp only [leavesE, List.mem_append, List.mem_map] at hm
      rcases hm with ⟨qv, hqv, he⟩ | hm2
      · intro s hs
        rw [← he] at hs
        simp only [List.mem_cons] at hs
        rcases hs with h1 | h2
        · exact h1 ▸ hwf.1.1
        · exact leaves_good v qv hwf.1.2 hqv s h2
      · exact leavesE_good rest pv hwf.2 hm2
end

mutual
theorem leaves_ne : ∀ (v : JVal), wfDoc v = true → leaves v ≠ []
  | .vstr a, _ => by simp [leaves]
  | .vobj es, hwf => by
      simp only [wfDoc, Bool.and_eq_true] at hwf
      have hne : es ≠ [] := by
        cases h : es with
        | nil => rw [h] at hwf; simp at hwf
        | cons a t => simp
      exact leavesE_ne es hwf.2 hne
  | .vnum a, hwf => by simp [wfDoc] at hwf
  | .vbool a, hwf => by simp [wfDoc] at hwf
  | .vnull, hwf => by simp [wfDoc] at hwf
  | .varr a, hwf => by simp [wfDoc] at hwf
theorem leavesE_ne : ∀ (es : List (String × JVal)), wfDocE es = true →
    es ≠ [] → leavesE es ≠ []
  | [], _, hne => absurd rfl hne
  | (key, v) :: rest, hwf, _ => by
      simp only [wfDocE, Bool.and_eq_true] at hwf
      have h1 := leaves_ne v hwf.1.2
      simp only [leavesE]
      intro hc
      rcases List.append_eq_nil.mp hc with ⟨h2, _⟩
      exact h1 (List.map_eq_nil.mp h2)
end

/-- Inserting a batch of paths that all start with `key` localizes to the
child at `key` (which is an object, or absent with a fresh nonempty
batch). -/
theorem insGo_under : ∀ (l : List (List String × JVal))
    (aes ces : List (String × JVal)) (key : String),
    (∀ pv ∈ l, pv.1 ≠ []) →
    (objGetE aes key = some (.vobj ces) ∨
      (objGetE aes key = none ∧ ces = [] ∧ l ≠ [])) →
    insGo (l.map (fun pv => (key :: pv.1, pv.2))) (.vobj aes)
      = Option.map (fun r => .vobj (objSetE aes key r))
          (insGo l (.vobj ces))
  | [], aes, ces, key, _, hcase => by
      rcases hcase with hg | ⟨_, _, hne⟩
      · simp only [List.map_nil, insGo, Option.map_some']
        rw [objSetE_self_of_get aes key _ hg]
      · exact absurd rfl hne
  | (q, v) :: t, aes, ces, key, hne, hcase => by
      obtain ⟨q0, qrest, hq⟩ : ∃ q0 qrest, q = q0 :: qrest := by
        cases hq : q with
        | nil => exact absurd hq (hne (q, v) (List.mem_cons_self _ _))
        | cons a b => exact ⟨a, b, rfl⟩
      subst hq
      have hco : (match objGetE aes key with
          | some c => if truthy c then c else JVal.vobj []
          | none => JVal.vobj []) = JVal.vobj ces := by
        rcases hcase with hg | ⟨hg, hces, _⟩
        · rw [hg]; simp [truthy]
        · rw [hg, hces]
      cases hin : insertReduce (.vobj ces) (q0 :: qrest) v with
      | none =>
          rw [show insGo (((q0 :: qrest, v) :: t).map
                (fun pv => (key :: pv.1, pv.2))) (.vobj aes) = none from by
            simp [insGo, insertReduce, hco, hin]]
          rw [show insGo ((q0 :: qrest, v) :: t) (.vobj ces) = none from by
            simp [insGo, hin]]
          rfl
      | some nc =>
          obtain ⟨ncs, hncs⟩ := insertReduce_vobj (q0 :: qrest) ces v nc hin
          subst hncs
          have hIH := insGo_under t (objSetE aes key (.vobj ncs)) ncs key
            (fun pv hpv => hne pv (List.mem_cons_of_mem _ hpv))
            (Or.inl (objGetE_objSetE_self aes key _))
          have hstep2 : insGo ((q0 :: qrest, v) :: t) (.vobj ces)
              = insGo t (.vobj ncs) := by
            simp [insGo, hin]
          rw [show insGo (((q0 :: qrest, v) :: t).map
                (fun pv => (key :: pv.1, pv.2))) (.vobj aes)
              = insGo (t.map (fun pv => (key :: pv.1, pv.2)))
                  (.vobj (objSetE aes key (.vobj ncs))) from by
            simp [insGo, insertReduce, hco, hin]]
          rw [hstep2, hIH]
          cases insGo t (.vobj ncs) with
          | none => rfl
          | some r => simp [objSetE_objSetE]

mutual
/-- Replaying a well-formed document's leaves into an empty accumulator
rebuilds the document exactly (order included). -/
theorem insGo_build_doc : ∀ (ves : List (String × JVal)),
    wfDoc (.vobj ves) = true →
    insGo (leavesE ves) (.vobj []) = some (.vobj ves)
  | ves, hwf => by
      simp only [wfDoc, Bool.and_eq_true] at hwf
      have h := insGo_build ves [] hwf.2 (of_decide_eq_true hwf.1.2)
        (by simp)
      simpa using h
theorem insGo_build : ∀ (es aes : List (String × JVal)),
    wfDocE es = true → (es.map Prod.fst).Nodup →
    (∀ k ∈ es.map Prod.fst, k ∉ aes.map Prod.fst) →
    insGo (leavesE es) (.vobj aes) = some (.vobj (aes ++ es))
  | [], aes, _, _, _ => by simp [leavesE, insGo]
  | (key, v) :: rest, aes, hwf, hnd, hdisj => by
      simp only [wfDocE, Bool.and_eq_true] at hwf
      simp only [List.map_cons, List.nodup_cons] at hnd
      have hkey_fresh : key ∉ aes.map Prod.fst :=
        hdisj key (by simp)
      have hdisj2 : ∀ (x : JVal) (k : String), k ∈ rest.map Prod.fst →
          k ∉ (aes ++ [(key, x)]).map Prod.fst := by
        intro x k hk
        simp only [List.map_append, List.mem_append, List.map_cons,
          List.map_nil, List.mem_singleton]
        push_neg
        refine ⟨hdisj k (by simp [hk]), ?_⟩
        intro hc
        exact hnd.1 (hc ▸ hk)
      rw [show leavesE ((key, v) :: rest)
          = (leaves v).map (fun pv => (key :: pv.1, pv.2)) ++ leavesE rest
        from rfl]
      rw [insGo_append]
      cases v with
      | vstr s =>
          rw [show insGo ((leaves (JVal.vstr s)).map
                (fun pv => (key :: pv.1, pv.2))) (.vobj aes)
              = some (.vobj (aes ++ [(key, JVal.vstr s)])) from by
            simp [leaves, insGo, insertReduce,
              objSetE_append_of_not_mem aes key _ hkey_fresh]]
          show insGo (leavesE rest) (.vobj (aes ++ [(key, JVal.vstr s)]))
            = some (.vobj (aes ++ (key, JVal.vstr s) :: rest))
          rw [insGo_build rest (aes ++ [(key, JVal.vstr s)]) hwf.2 hnd.2
            (hdisj2 _)]
          simp
      | vobj ves =>
          have hpaths : ∀ pv ∈ leavesE ves, pv.1 ≠ [] := by
            intro pv hpv
            obtain ⟨k, t, v2, he, _⟩ := leavesE_first ves pv hpv
            rw [he]
            simp
          have hlne : leavesE ves ≠ [] := by
            have := leaves_ne (.vobj ves) hwf.1.2
            simpa [leaves] using this
          have hund := insGo_under (leavesE ves) aes [] key hpaths
            (Or.inr ⟨objGetE_none_of_not_mem aes key hkey_fresh, rfl,
              hlne⟩)
          rw [show leaves (JVal.vobj ves) = leavesE ves from rfl, hund,
            insGo_build_doc ves hwf.1.2]
          show insGo (leavesE rest)
              (.vobj (objSetE aes key (.vobj ves)))
            = some (.vobj (aes ++ (key, JVal.vobj ves) :: rest))
          rw [objSetE_append_of_not_mem aes key _ hkey_fresh]
          rw [insGo_build rest (aes ++ [(key, JVal.vobj ves)]) hwf.2 hnd.2
            (hdisj2 _)]
          simp
      | vnum a => simp [wfDoc] at hwf
      | vbool a => simp [wfDoc] at hwf
      | vnull => simp [wfDoc] at hwf
      | varr a => simp [wfDoc] at hwf
end

mutual
/-- `flattenObject` on a well-formed document appends exactly one entry per
string leaf, keyed by the dot-joined path, in leaf order. -/
theorem flo_spec : ∀ (ves : List (String × JVal)) (pfx : String)
    (result : List (String × JVal)),
    wfDoc (.vobj ves) = true →
    (∀ pv ∈ leavesE ves, joinUnder pfx pv.1 ∉ result.map Prod.fst) →
    flattenObject (.vobj ves) pfx result
      = result ++ (leavesE ves).map (fun pv => (joinUnder pfx pv.1, pv.2))
  | ves, pfx, result => by
      intro hwf hfresh
      simp only [wfDoc, Bool.and_eq_true] at hwf
      exact floE_spec ves pfx result hwf.2 (of_decide_eq_true hwf.1.2)
        hfresh
theorem floE_spec : ∀ (es : List (String × JVal)) (pfx : String)
    (result : List (String × JVal)),
    wfDocE es = true → (es.map Prod.fst).Nodup →
    (∀ pv ∈ leavesE es, joinUnder pfx pv.1 ∉ result.map Prod.fst) →
    floEntries es pfx result
      = result ++ (leavesE es).map (fun pv => (joinUnder pfx pv.1, pv.2))
  | [], pfx, result => by
      intro _ _ _
      simp [floEntries, leavesE]
  | (key, v) :: rest, pfx, result => by
      intro hwf hnd hfresh
      simp only [wfDocE, Bool.and_eq_true] at hwf
      simp only [List.map_cons, List.nodup_cons] at hnd
      have hgoodk : goodKey key = true := hwf.1.1
      -- freshness of the head's own leaf keys in `result`
      have hfresh_head : ∀ pv ∈ leaves v,
          joinUnder pfx (key :: pv.1) ∉ result.map Prod.fst := by
        intro pv hpv
        refine hfresh (key :: pv.1, pv.2) ?_
        simp only [leavesE, List.mem_append, List.mem_map]
        exact Or.inl ⟨pv, hpv, rfl⟩
      -- a rest leaf's key differs from every head leaf's key
      have hsep : ∀ pv ∈ leavesE rest, ∀ qv ∈ leaves v,
          joinUnder pfx pv.1 ≠ joinUnder pfx (key :: qv.1) := by
        intro pv hpv qv hqv hc
        obtain ⟨k2, t2, v2, he2, hk2⟩ := leavesE_first rest pv hpv
        have hg1 : ∀ s ∈ pv.1, goodKey s = true :=
          leavesE_good rest pv hwf.2 hpv
        have hg2 : ∀ s ∈ key :: qv.1, goodKey s = true := by
          intro s hs
          rcases List.mem_cons.mp hs with h1 | h2
          · exact h1 ▸ hgoodk
          · exact leaves_good v qv hwf.1.2 hqv s h2
        have heq := joinUnder_inj pfx
          (by rw [he2]; simp) (by simp) hg1 hg2 hc
        rw [he2] at heq
        injection heq with hh _
        exact hnd.1 (hh ▸ hk2)
      cases v with
      | vstr s =>
          have hset : objSetE result (jsKey pfx key) (JVal.vstr s)
              = result ++ [(jsKey pfx key, JVal.vstr s)] :=
            objSetE_append_of_not_mem result _ _
              (hfresh_head ([], .vstr s) (by simp [leaves]))
          rw [show floEntries ((key, JVal.vstr s) :: rest) pfx result
              = floEntries rest pfx
                  (objSetE result (jsKey pfx key) (JVal.vstr s)) from by
            simp [floEntries]]
          rw [hset]
          rw [floE_spec rest pfx _ hwf.2 hnd.2 ?hfr]
          case hfr =>
            intro pv hpv
            rw [List.map_append, List.mem_append]
            push_neg
            constructor
            · exact hfresh pv (by
                simp only [leavesE, List.mem_append]
                exact Or.inr hpv)
            · intro hc
              simp only [List.map_cons, List.map_nil,
                List.mem_singleton] at hc
              have hs2 := hsep pv hpv ([], .vstr s) (by simp [leaves])
              exact hs2 (by rw [hc]; rfl)
          simp [leavesE, leaves, joinUnder]
      | vobj ves =>
          rw [show floEntries ((key, JVal.vobj ves) :: rest) pfx result
              = floEntries rest pfx
                  (flattenObject (.vobj ves) (jsKey pfx key) result)
            from by simp [floEntries, flattenObject]]
          have hinner := flo_spec ves (jsKey pfx key) result hwf.1.2 ?hfr2
          case hfr2 =>
            intro pv hpv
            exact hfresh_head pv hpv
          rw [hinner]
          rw [floE_spec rest pfx _ hwf.2 hnd.2 ?hfr3]
          case hfr3 =>
            intro pv hpv
            rw [List.map_append, List.mem_append]
            push_neg
            constructor
            · exact hfresh pv (by
                simp only [leavesE, List.mem_append]
                exact Or.inr hpv)
            · intro hc
              rcases List.mem_map.mp hc with ⟨e, he, hee⟩
              rcases List.mem_map.mp he with ⟨qv, hqv, heq⟩
              apply hsep pv hpv qv hqv
              rw [← hee, ← heq]
              rfl
          simp [leavesE, leaves, joinUnder, List.append_assoc]
      | vnum a => simp [wfDoc] at hwf
      | vbool a => simp [wfDoc] at hwf
      | vnull => simp [wfDoc] at hwf
      | varr a => simp [wfDoc] at hwf
end

/-- C1 counterexample: the single-entry document `{"a.b": "x"}` — string
leaves and mapping nodes only — does not round-trip: its dotted key is
re-split by `unflatten`, producing the structurally different
`{a: {b: "x"}}`. -/
theorem claim_C1_counterexample :
    unflattenObject (flattenObject (.vobj [("a.b", .vstr "x")]) "" [])
      = some (.vobj [("a", .vobj [("b", .vstr "x")])]) ∧
    JVal.vobj [("a", .vobj [("b", .vstr "x")])]
      ≠ JVal.vobj [("a.b", .vstr "x")] := by
  decide

/-- C1 (amended): for documents whose leaves are all strings and whose
internal nodes are all nonempty mappings with nonempty, dot-free, unique
keys, `unflatten(flatten(d))` is structurally equal to `d` (entry order
included).  The key-shape condition is what the counterexample forces: a
key containing `'.'` is re-split on the way back. -/
theorem claim_C1_round_trip (es : List (String × JVal))
    (hwf : wfDoc (.vobj es) = true) :
    unflattenObject (flattenObject (.vobj es) "" []) = some (.vobj es) := by
  have hflat := flo_spec es "" [] hwf (by simp)
  rw [hflat]
  simp only [List.nil_append]
  show unflattenGo
      ((leavesE es).map (fun pv => (joinUnder "" pv.1, pv.2))) (.vobj [])
    = some (.vobj es)
  rw [unflattenGo_insGo]
  have hwf2 := hwf
  simp only [wfDoc, Bool.and_eq_true] at hwf2
  have hmap : ((leavesE es).map (fun pv => (joinUnder "" pv.1, pv.2))).map
      (fun kv => (splitKey kv.1, kv.2)) = leavesE es := by
    rw [List.map_map]
    apply map_id_of_mem
    intro pv hpv
    obtain ⟨k, t, v2, he, _⟩ := leavesE_first es pv hpv
    have hg := leavesE_good es pv hwf2.2 hpv
    show (splitKey (joinUnder "" pv.1), pv.2) = pv
    rw [splitKey_joinUnder (by rw [he]; simp) hg]
  rw [hmap]
  exact insGo_build_doc es hwf

/-- Witness for the amended C1 at the spec's sample document
`{a: {b: "Hello"}, c: "Bye"}`. -/
theorem claim_C1_round_trip_witness :
    unflattenObject (flattenObject
        (.vobj [("a", .vobj [("b", .vstr "Hello")]), ("c", .vstr "Bye")])
        "" [])
      = some (.vobj [("a", .vobj [("b", .vstr "Hello")]),
          ("c", .vstr "Bye")]) :=
  claim_C1_round_trip
    [("a", .vobj [("b", .vstr "Hello")]), ("c", .vstr "Bye")] (by decide)
